import Mathlib

/-! # A shallow embedding of `mlx/compile.cpp`

Arrays are handles onto shared descriptors.  The embedding keeps a heap of
descriptors indexed by array identity (`array::id()`), so that the in-place
rewrites of `compile_simplify` (`parent.inputs()[k] = dst`) are visible through
every handle, as in the source.  Unordered maps are association lists that are
only ever accessed by key.
-/

namespace Mlx

/-! ## Data model -/

/-- Identity of an array (`array::id()`), the address of its descriptor. -/
abbrev ArrId := Nat

/-- Element type: the discriminant `Dtype::val` and the byte size `Dtype::size`. -/
structure Dtype where
  val : Nat
  size : Nat
deriving DecidableEq, Repr

/-- Discriminant of a primitive (`typeid(p)`). -/
structure PrimKind where
  tag : Nat
deriving DecidableEq, Repr

namespace PrimKind
def Abs : PrimKind := ⟨0⟩
def ArcCos : PrimKind := ⟨1⟩
def ArcCosh : PrimKind := ⟨2⟩
def ArcSin : PrimKind := ⟨3⟩
def ArcSinh : PrimKind := ⟨4⟩
def ArcTan : PrimKind := ⟨5⟩
def ArcTanh : PrimKind := ⟨6⟩
def AsType : PrimKind := ⟨7⟩
def Ceil : PrimKind := ⟨8⟩
def Copy : PrimKind := ⟨9⟩
def Cos : PrimKind := ⟨10⟩
def Cosh : PrimKind := ⟨11⟩
def Remainder : PrimKind := ⟨12⟩
def Erf : PrimKind := ⟨13⟩
def ErfInv : PrimKind := ⟨14⟩
def Exp : PrimKind := ⟨15⟩
def Floor : PrimKind := ⟨16⟩
def Log : PrimKind := ⟨17⟩
def Log1p : PrimKind := ⟨18⟩
def LogicalNot : PrimKind := ⟨19⟩
def Negative : PrimKind := ⟨20⟩
def Round : PrimKind := ⟨21⟩
def Sigmoid : PrimKind := ⟨22⟩
def Sign : PrimKind := ⟨23⟩
def Sin : PrimKind := ⟨24⟩
def Sinh : PrimKind := ⟨25⟩
def Square : PrimKind := ⟨26⟩
def Sqrt : PrimKind := ⟨27⟩
def Tan : PrimKind := ⟨28⟩
def Tanh : PrimKind := ⟨29⟩
def Add : PrimKind := ⟨30⟩
def Divide : PrimKind := ⟨31⟩
def Equal : PrimKind := ⟨32⟩
def Greater : PrimKind := ⟨33⟩
def GreaterEqual : PrimKind := ⟨34⟩
def Less : PrimKind := ⟨35⟩
def LessEqual : PrimKind := ⟨36⟩
def LogicalAnd : PrimKind := ⟨37⟩
def LogicalOr : PrimKind := ⟨38⟩
def LogAddExp : PrimKind := ⟨39⟩
def Maximum : PrimKind := ⟨40⟩
def Minimum : PrimKind := ⟨41⟩
def Multiply : PrimKind := ⟨42⟩
def NotEqual : PrimKind := ⟨43⟩
def Power : PrimKind := ⟨44⟩
def Subtract : PrimKind := ⟨45⟩
def Broadcast : PrimKind := ⟨46⟩
def Compiled : PrimKind := ⟨47⟩
def Matmul : PrimKind := ⟨48⟩
def Arange : PrimKind := ⟨49⟩
end PrimKind

/-- A primitive object.  `pid` is its address (`array::primitive_id()`), `kind`
its `typeid`, `params` its operator-specific state, `stream` its stream tag.
The three lists are the members of a `Compiled` primitive and are empty for
every other kind. -/
structure Primitive where
  pid : Nat
  kind : PrimKind
  params : Nat
  stream : Nat
  fused_inputs : List ArrId
  fused_outputs : List ArrId
  fused_tape : List ArrId
deriving DecidableEq, Repr

/-- The descriptor behind an array handle.  `evaled` is `is_evaled()`, `data`
the bytes of the buffer read as a little-endian number, `position` the index of
the array among the outputs of its primitive. -/
structure ArrayDesc where
  shape : List Int
  dtype : Dtype
  primitive : Option Primitive
  inputs : List ArrId
  siblings : List ArrId
  position : Nat
  evaled : Bool
  data : Nat
  tracer : Bool
deriving DecidableEq, Repr

/-- The store of array descriptors; `next` is the identity the next
constructed array receives. -/
structure Heap where
  desc : ArrId → ArrayDesc
  next : Nat

/-- Descriptor of an identity that was never constructed. -/
def ArrayDesc.blank : ArrayDesc :=
  { shape := [], dtype := ⟨0, 0⟩, primitive := none, inputs := [], siblings := [],
    position := 0, evaled := false, data := 0, tracer := false }

/-- The heap in which nothing has been constructed yet. -/
def Heap.empty : Heap := { desc := fun _ => ArrayDesc.blank, next := 0 }

def Heap.shape (h : Heap) (a : ArrId) : List Int := (h.desc a).shape
def Heap.dtype (h : Heap) (a : ArrId) : Dtype := (h.desc a).dtype
def Heap.primitive (h : Heap) (a : ArrId) : Option Primitive := (h.desc a).primitive
def Heap.has_primitive (h : Heap) (a : ArrId) : Bool := (h.desc a).primitive.isSome
def Heap.inputs (h : Heap) (a : ArrId) : List ArrId := (h.desc a).inputs
def Heap.siblings (h : Heap) (a : ArrId) : List ArrId := (h.desc a).siblings
def Heap.is_evaled (h : Heap) (a : ArrId) : Bool := (h.desc a).evaled
def Heap.ndim (h : Heap) (a : ArrId) : Nat := (h.desc a).shape.length

/-- Modelled from the spec: `array::outputs()` is not part of the sources; the
spec lists it as a per-array query next to `siblings`, the co-outputs of the
same multi-output primitive in sibling order.  The array stands at its
`position` among its siblings. -/
def Heap.outputs (h : Heap) (a : ArrId) : List ArrId :=
  (h.desc a).siblings.take (h.desc a).position ++ a :: (h.desc a).siblings.drop (h.desc a).position

/-- Overwrite one input slot of an array: `a.inputs()[k] = v`. -/
def Heap.set_input (h : Heap) (a : ArrId) (k : Nat) (v : ArrId) : Heap :=
  { desc := Function.update h.desc a
      ({ h.desc a with inputs := (h.desc a).inputs.set k v }),
    next := h.next }

/-- Modelled from the spec: the single-output constructor
`array(shape, dtype, primitive_or_null, inputs)`; the new array has no
siblings, no data and a fresh identity. -/
def Heap.new_array (h : Heap) (shape : List Int) (dtype : Dtype)
    (p : Option Primitive) (inputs : List ArrId) : Heap × ArrId :=
  ({ desc := Function.update h.desc h.next
      ({ shape := shape, dtype := dtype, primitive := p, inputs := inputs, siblings := [],
         position := 0, evaled := false, data := 0, tracer := false }),
     next := h.next + 1 }, h.next)

/-- Modelled from the spec: the multi-output constructor
`make_arrays(shapes, dtypes, primitive, inputs)`.  It constructs one array per
shape, all with the same primitive and inputs; each array gets the others as
siblings, in order, and its index as position. -/
def Heap.make_arrays (h : Heap) (sig : List (List Int × Dtype)) (p : Primitive)
    (inputs : List ArrId) : Heap × List ArrId :=
  let ids := List.range' h.next sig.length
  ({ desc := fun x =>
      if h.next ≤ x ∧ x < h.next + sig.length then
        { shape := (sig.getD (x - h.next) ([], ⟨0, 0⟩)).1,
          dtype := (sig.getD (x - h.next) ([], ⟨0, 0⟩)).2,
          primitive := some p, inputs := inputs,
          siblings := ids.eraseIdx (x - h.next),
          position := x - h.next, evaled := false, data := 0, tracer := false }
      else h.desc x,
     next := h.next + sig.length }, ids)

/-! ## Parents map -/

/-- The type `ParentsMap`: array identity to the list of (parent, input slot) pairs. -/
abbrev ParentsMap := List (ArrId × List (ArrId × Nat))

/-- The lookup `parents_map.find(k)`. -/
def pm_find : ParentsMap → ArrId → Option (List (ArrId × Nat))
  | [], _ => none
  | (k', l) :: rest, k => if k' = k then some l else pm_find rest k

/-- The access `parents_map[k]` followed by an update of the referenced list; the key is
created with an empty list when it is absent, as `operator[]` does. -/
def pm_update : ParentsMap → ArrId → (List (ArrId × Nat) → List (ArrId × Nat)) → ParentsMap
  | [], k, f => [(k, f [])]
  | (k', l) :: rest, k, f =>
    if k' = k then (k', f l) :: rest else (k', l) :: pm_update rest k f

/-- The statement `parents_map[k].push_back(v)`. -/
def pm_push (pm : ParentsMap) (k : ArrId) (v : ArrId × Nat) : ParentsMap :=
  pm_update pm k (fun l => l ++ [v])

/-- The statement `parents_map.erase(k)`. -/
def pm_erase : ParentsMap → ArrId → ParentsMap
  | [], _ => []
  | (k', l) :: rest, k => if k' = k then pm_erase rest k else (k', l) :: pm_erase rest k

/-! ## compile_dfs -/

/-- The mutable locals of `compile_dfs`: the tape, the parents map and the set
of visited identities (`cache`). -/
structure DfsState where
  tape : List ArrId
  parents_map : ParentsMap
  cache : List ArrId

/-- The pairs that `recurse` records for the input `e.2` of `a` at index `e.1`:
`(a, i)` and `(s, i)` for every sibling `s` of `a`. -/
def record_edge (h : Heap) (a : ArrId) (pm : ParentsMap) (e : Nat × ArrId) : ParentsMap :=
  (h.siblings a).foldl (fun pm sib => pm_push pm e.2 (sib, e.1)) (pm_push pm e.2 (a, e.1))

/-- The body of the loop of `recurse` over the inputs of `a`, at input `e.2`
with index `e.1`: the edge is recorded for `a` and for each sibling of `a`, then
the input is visited through `visit` unless `a` is a declared input. -/
def dfs_edge (h : Heap) (input_set : List ArrId) (a : ArrId)
    (visit : ArrId → DfsState → Option DfsState) (s : DfsState) (e : Nat × ArrId) :
    Option DfsState :=
  let s1 : DfsState := { s with parents_map := record_edge h a s.parents_map e }
  if a ∈ input_set then some s1 else visit e.2 s1

/-- The end of `recurse`: the array and its siblings are marked as visited and
the array is appended to the tape. -/
def dfs_finish (h : Heap) (a : ArrId) (s : DfsState) : DfsState :=
  { tape := s.tape ++ [a], parents_map := s.parents_map, cache := s.cache ++ a :: h.siblings a }

/-- The lambda `recurse` of `compile_dfs`.  The source recurses without a
bound; the embedding threads a fuel and yields `none` when it runs out. -/
def recurse (h : Heap) (input_set : List ArrId) : Nat → ArrId → DfsState → Option DfsState
  | 0, _, _ => none
  | fuel + 1, a, st =>
    if a ∈ st.cache then some st
    else
      match (h.inputs a).enum.foldlM
          (dfs_edge h input_set a (fun x s => recurse h input_set fuel x s)) st with
      | none => none
      | some s => some (dfs_finish h a s)

/-- The function `compile_dfs(inputs, outputs)`: the tape and the parents map, or `none`
when the traversal does not finish within the fuel. -/
def compile_dfs (fuel : Nat) (h : Heap) (inputs outputs : List ArrId) :
    Option (List ArrId × ParentsMap) :=
  match outputs.foldlM (fun s a => recurse h inputs fuel a s)
      { tape := [], parents_map := [], cache := [] } with
  | none => none
  | some s => some (s.tape, s.parents_map)

/-! ## compile_simplify -/

/-- What `compile_simplify` reads and mutates: the array descriptors, the
parents map and the tape (during a pass, the tape being built). -/
structure Simp where
  heap : Heap
  parents_map : ParentsMap
  tape : List ArrId

/-- The map `scalars`, keyed by (bit pattern, dtype discriminant). -/
abbrev ScalarMap := List ((Nat × Nat) × ArrId)

/-- The lookup `scalars.find(key)`. -/
def scalars_find : ScalarMap → Nat × Nat → Option ArrId
  | [], _ => none
  | (k', a) :: rest, k => if k' = k then some a else scalars_find rest k

/-- The statement `scalars.insert({key, a})`, which keeps an existing binding. -/
def scalars_insert (m : ScalarMap) (k : Nat × Nat) (a : ArrId) : ScalarMap :=
  match scalars_find m k with
  | some _ => m
  | none => m ++ [(k, a)]

/-- The lambda `is_scalar`. -/
def is_scalar (h : Heap) (a : ArrId) : Bool :=
  h.is_evaled a && h.ndim a == 0

/-- The lambda `get_scalar_rep`: the buffer read at the width selected by the
switch on the dtype size; no case of the switch covers a size other than 1, 4
and 8, for which `v` keeps its initial value 0. -/
def get_scalar_rep (h : Heap) (a : ArrId) : Nat × Nat :=
  let v :=
    match (h.dtype a).size with
    | 1 => (h.desc a).data % 2 ^ 8
    | 4 => (h.desc a).data % 2 ^ 32
    | 8 => (h.desc a).data % 2 ^ 64
    | _ => 0
  (v, (h.dtype a).val)

/-- The loop that fills `scalars` from the tape. -/
def collect_scalars (h : Heap) (tape : List ArrId) : ScalarMap :=
  tape.foldl
    (fun m a => if is_scalar h a then scalars_insert m (get_scalar_rep h a) a else m) []

/-- The body of the loop of `fuse` over the parents of a source:
`parent.first.inputs()[parent.second] = dests[i]; pairs.push_back(parent)`. -/
def repoint (d : ArrId) (acc : Simp) (parent : ArrId × Nat) : Simp :=
  { acc with heap := acc.heap.set_input parent.1 parent.2 d,
             parents_map := pm_push acc.parents_map d parent }

/-- One iteration of the loop of `fuse` over the outputs: `e` is
`(sources[i], dests[i])`.  Every parent of the source is pointed to the
destination and moved to its list; the source leaves the map. -/
def fuse_output (s : Simp) (e : ArrId × ArrId) : Simp :=
  match pm_find s.parents_map e.1 with
  | none => s
  | some ps =>
    let s0 : Simp := { s with parents_map := pm_update s.parents_map e.2 id }
    let s1 := ps.foldl (repoint e.2) s0
    { s1 with parents_map := pm_erase s1.parents_map e.1 }

/-- The lambda `fuse(dst, src)`. -/
def fuse (s : Simp) (dst src : ArrId) : Simp :=
  ((s.heap.outputs src).zip (s.heap.outputs dst)).foldl fuse_output s

/-- Modelled from the spec: `Primitive::is_equivalent` of the primitives other
than `Compiled` is not part of the sources; by the spec it holds for the same
discriminant and the same operator-specific parameters.
`Compiled::is_equivalent` is in the sources and returns false. -/
def is_equivalent (pa pb : Primitive) : Bool :=
  if pa.kind = PrimKind.Compiled then false
  else decide (pa.kind = pb.kind) && decide (pa.params = pb.params)

/-- The lambda `array_equivalent`: depth-1 equivalence of two arrays. -/
def array_equivalent (h : Heap) (a b : ArrId) : Bool :=
  match h.primitive a, h.primitive b with
  | some pa, some pb =>
    if pa.pid = pb.pid then false
    else if pa.kind ≠ pb.kind then false
    else if (h.inputs a).length ≠ (h.inputs b).length then false
    else if ((h.inputs a).zip (h.inputs b)).any (fun e => decide (e.1 ≠ e.2)) then false
    else is_equivalent pa pb
  | _, _ => false

/-- Pass 0 of `compile_simplify` at one array of the tape. -/
def fuse_scalar_step (scalars : ScalarMap) (s : Simp) (arr : ArrId) : Simp :=
  if is_scalar s.heap arr then
    match scalars_find scalars (get_scalar_rep s.heap arr) with
    | some rep =>
      if rep ≠ arr then fuse s rep arr
      else { s with tape := s.tape ++ [arr] }
    | none => { s with tape := s.tape ++ [arr] }
  else { s with tape := s.tape ++ [arr] }

/-- Pass 0 of `compile_simplify`: fuse scalars. -/
def fuse_scalars (s : Simp) : Simp :=
  s.tape.foldl (fuse_scalar_step (collect_scalars s.heap s.tape)) { s with tape := [] }

/-- The body of the inner loop of `maybe_fuse_parents` at the pair `(i, j)`;
`l` is the parents list and the second component the set bits of `mask`. -/
def fuse_pair (l : List (ArrId × Nat)) (i : Nat) (acc : Simp × List Nat) (j : Nat) :
    Simp × List Nat :=
  if j ∈ acc.2 then acc
  else
    let src := (l.getD j (0, 0)).1
    let dst := (l.getD i (0, 0)).1
    if src ≠ dst ∧ array_equivalent acc.1.heap src dst = true then
      (fuse acc.1 dst src, j :: acc.2)
    else acc

/-- The body of the outer loop of `maybe_fuse_parents` at index `i`. -/
def fuse_row (l : List (ArrId × Nat)) (acc : Simp × List Nat) (i : Nat) : Simp × List Nat :=
  if i ∈ acc.2 then acc
  else (List.range' (i + 1) (l.length - (i + 1))).foldl (fuse_pair l i) acc

/-- The loop `for (int i = N - 1; i > 0; --i)` erasing the masked entries. -/
def erase_masked (mask : List Nat) (n : Nat) (l : List (ArrId × Nat)) : List (ArrId × Nat) :=
  (List.range n).reverse.foldl (fun l i => if 0 < i ∧ i ∈ mask then l.eraseIdx i else l) l

/-- The lambda `maybe_fuse_parents`; the boolean is its return value. -/
def maybe_fuse_parents (output_set : List ArrId) (s : Simp) (a : ArrId) : Simp × Bool :=
  match pm_find s.parents_map a with
  | some l =>
    let r := (List.range l.length).foldl (fuse_row l) (s, [])
    let s1 :=
      match pm_find r.1.parents_map a with
      | some _ =>
        { r.1 with parents_map := pm_update r.1.parents_map a (erase_masked r.2 l.length) }
      | none => r.1
    (s1, false)
  | none => (s, decide (a ∉ output_set))

/-- The body of the loop over the tape in one pass of common-subexpression
fusion. -/
def simplify_visit (output_set : List ArrId) (s : Simp) (arr : ArrId) : Simp :=
  let r0 := maybe_fuse_parents output_set s arr
  let r := (s.heap.siblings arr).foldl
    (fun (p : Simp × Bool) sib =>
      let q := maybe_fuse_parents output_set p.1 sib
      (q.1, p.2 && q.2)) r0
  if r.2 then r.1 else { r.1 with tape := r.1.tape ++ [arr] }

/-- One of the passes `1..passes` of `compile_simplify`. -/
def simplify_pass (output_set : List ArrId) (s : Simp) : Simp :=
  s.tape.foldl (simplify_visit output_set) { s with tape := [] }

/-- The function `compile_simplify(tape, parents_map, outputs, passes)`. -/
def compile_simplify (s : Simp) (outputs : List ArrId) (passes : Nat) : Simp :=
  (simplify_pass outputs)^[passes] (fuse_scalars s)

/-! ## compile_replace -/

/-- The failures the code raises. `no_termination` marks a traversal that did
not finish within its fuel. -/
inductive CompileError where
  | different_number_of_inputs
  | out_of_range
  | non_addressable
  | user_failure
  | no_termination
deriving DecidableEq, Repr

/-- The map `trace_to_real`. -/
abbrev TraceMap := List (ArrId × ArrId)

/-- The lookup `trace_to_real.find(k)`. -/
def tm_find : TraceMap → ArrId → Option ArrId
  | [], _ => none
  | (k', v) :: rest, k => if k' = k then some v else tm_find rest k

/-- The statement `trace_to_real.insert({k, v})`, which keeps an existing binding. -/
def tm_insert (m : TraceMap) (k v : ArrId) : TraceMap :=
  match tm_find m k with
  | some _ => m
  | none => m ++ [(k, v)]

/-- The access `trace_to_real.at(k)`, which throws on a missing key. -/
def tm_at (m : TraceMap) (k : ArrId) : Except CompileError ArrId :=
  match tm_find m k with
  | some v => .ok v
  | none => .error .out_of_range

/-- The loops that collect `trace_to_real.at(in.id())` over a list of arrays. -/
def tm_gather (m : TraceMap) : List ArrId → Except CompileError (List ArrId)
  | [] => .ok []
  | a :: rest =>
    match tm_at m a with
    | .error e => .error e
    | .ok v =>
      match tm_gather m rest with
      | .error e => .error e
      | .ok vs => .ok (v :: vs)

/-- The body of the loop of `compile_replace` over the tape. -/
def replace_step (st : Heap × TraceMap) (a : ArrId) : Except CompileError (Heap × TraceMap) :=
  match st.1.primitive a with
  | none => .ok (st.1, tm_insert st.2 a a)
  | some p =>
    match tm_gather st.2 (st.1.inputs a) with
    | .error e => .error e
    | .ok real_inputs =>
      if (st.1.siblings a).isEmpty then
        let r := st.1.new_array (st.1.shape a) (st.1.dtype a) (some p) real_inputs
        .ok (r.1, tm_insert st.2 a r.2)
      else
        let trace_out := st.1.outputs a
        let r := st.1.make_arrays (trace_out.map (fun o => (st.1.shape o, st.1.dtype o))) p
          real_inputs
        .ok (r.1, (trace_out.zip r.2).foldl (fun m e => tm_insert m e.1 e.2) st.2)

/-- The loop of `compile_replace` over the tape. -/
def replace_tape : List ArrId → Heap × TraceMap → Except CompileError (Heap × TraceMap)
  | [], st => .ok st
  | a :: rest, st =>
    match replace_step st a with
    | .error e => .error e
    | .ok st1 => replace_tape rest st1

/-- The seeding loop of `compile_replace`. -/
def seed_inputs (trace_inputs inputs : List ArrId) : TraceMap :=
  (trace_inputs.zip inputs).foldl (fun m e => tm_insert m e.1 e.2) []

/-- The function `compile_replace(tape, trace_inputs, trace_outputs, inputs)`;
the result carries the heap with the arrays it constructed. -/
def compile_replace (h : Heap) (tape trace_inputs trace_outputs inputs : List ArrId) :
    Except CompileError (Heap × List ArrId) :=
  match replace_tape tape (h, seed_inputs trace_inputs inputs) with
  | .error e => .error e
  | .ok st =>
    match tm_gather st.2 trace_outputs with
    | .error e => .error e
    | .ok outs => .ok (st.1, outs)

/-! ## The compiler cache and the public driver -/

/-- The struct `CompilerCache::CacheEntry`. -/
structure CacheEntry where
  inputs : List ArrId
  outputs : List ArrId
  tape : List ArrId
  empty : Bool
deriving DecidableEq, Repr

/-- The value `CacheEntry{}`. -/
def CacheEntry.fresh : CacheEntry := { inputs := [], outputs := [], tape := [], empty := true }

/-- The member `cache_`: per `fun_id`, a list of entries. -/
abbrev Cache := List (Nat × List CacheEntry)

/-- The entries stored under `fun_id`, none when the key is absent. -/
def cache_get : Cache → Nat → Option (List CacheEntry)
  | [], _ => none
  | (k', l) :: rest, k => if k' = k then some l else cache_get rest k

/-- Replace the entries stored under `fun_id`, creating the key when absent. -/
def cache_set : Cache → Nat → List CacheEntry → Cache
  | [], k, l => [(k, l)]
  | (k', l') :: rest, k, l => if k' = k then (k', l) :: rest else (k', l') :: cache_set rest k l

/-- The lambda `is_match` of `CompilerCache::find`. -/
def is_match (h : Heap) (in1 in2 : List ArrId) : Except CompileError Bool :=
  if in1.length ≠ in2.length then .error .different_number_of_inputs
  else .ok ((in1.zip in2).all
    (fun e => decide (h.shape e.1 = h.shape e.2) && decide (h.dtype e.1 = h.dtype e.2)))

/-- The loop of `CompilerCache::find` over the entries: the index of the first
match, none when no entry matches. -/
def scan_entries (h : Heap) (inputs : List ArrId) :
    List CacheEntry → Nat → Except CompileError (Option Nat)
  | [], _ => .ok none
  | e :: rest, i =>
    match is_match h inputs e.inputs with
    | .error err => .error err
    | .ok true => .ok (some i)
    | .ok false => scan_entries h inputs rest (i + 1)

/-- The method `CompilerCache::find(fun_id, inputs)`.  The reference it returns
is the index of the entry in the list under `fun_id`. -/
def cache_find (c : Cache) (h : Heap) (fun_id : Nat) (inputs : List ArrId) :
    Cache × Except CompileError Nat :=
  let entries := (cache_get c fun_id).getD []
  let c1 := cache_set c fun_id entries
  match scan_entries h inputs entries 0 with
  | .error err => (c1, .error err)
  | .ok (some i) => (c1, .ok i)
  | .ok none => (cache_set c fun_id (entries ++ [CacheEntry.fresh]), .ok entries.length)

/-- The method `CompilerCache::erase(fun_id)`. -/
def cache_erase : Cache → Nat → Cache
  | [], _ => []
  | (k', l) :: rest, k => if k' = k then cache_erase rest k else (k', l) :: cache_erase rest k

/-- A user function: `address` is the target function pointer, absent for a
function that is not addressable; `run` builds the graph of the outputs over
the given inputs and is `none` when the function fails. -/
structure CompileFn where
  address : Option Nat
  run : Heap → List ArrId → Option (Heap × List ArrId)

/-- The process state: the arrays, the compiler cache, the flag behind
`compiler_disabled()`, and a counter of the calls of a user function made by
`compile_trace`. -/
structure World where
  heap : Heap
  cache : Cache
  compiler_disabled : Bool
  traces : Nat

/-- Mark an array as a tracer: `set_tracer(true)`. -/
def Heap.set_tracer (h : Heap) (a : ArrId) : Heap :=
  { desc := Function.update h.desc a ({ h.desc a with tracer := true }), next := h.next }

/-- The loop of `compile_trace` that constructs the placeholder inputs. -/
def make_tracers : List ArrId → Heap → Heap × List ArrId
  | [], h => (h, [])
  | a :: rest, h =>
    let r := h.new_array (h.shape a) (h.dtype a) none []
    let r2 := make_tracers rest (r.1.set_tracer r.2)
    (r2.1, r.2 :: r2.2)

/-- The function `compile_trace(fun, inputs)`: the placeholder inputs and the
outputs of the function run on them; `none` when the function fails. -/
def compile_trace (fn : CompileFn) (h : Heap) (inputs : List ArrId) :
    Option (Heap × List ArrId × List ArrId) :=
  let r := make_tracers inputs h
  match fn.run r.1 r.2 with
  | none => none
  | some (h1, outs) => some (h1, r.2, outs)

/-- Overwrite the entry that `find` returned. -/
def cache_put (c : Cache) (fun_id idx : Nat) (e : CacheEntry) : Cache :=
  cache_set c fun_id (((cache_get c fun_id).getD []).set idx e)

/-- The lambda returned by `detail::compile(fun, fun_id)`, run on `inputs`.
The traversal of the traced graph gets as much fuel as there are arrays. -/
def compiled_fun (fn : CompileFn) (fun_id : Nat) (inputs : List ArrId) (w : World) :
    World × Except CompileError (List ArrId) :=
  match cache_find w.cache w.heap fun_id inputs with
  | (c1, .error err) => ({ w with cache := c1 }, .error err)
  | (c1, .ok idx) =>
    let entry := (((cache_get c1 fun_id).getD []).getD idx CacheEntry.fresh)
    let replay := fun (w1 : World) (e : CacheEntry) =>
      match compile_replace w1.heap e.tape e.inputs e.outputs inputs with
      | .error err => (w1, Except.error err)
      | .ok (h2, outs) => ({ w1 with heap := h2 }, Except.ok outs)
    if entry.empty then
      let e1 : CacheEntry := { entry with empty := false }
      let c2 := cache_put c1 fun_id idx e1
      match compile_trace fn w.heap inputs with
      | none =>
        ({ w with cache := c2, traces := w.traces + 1 }, .error .user_failure)
      | some (h1, tin, tout) =>
        let e2 : CacheEntry := { e1 with inputs := tin, outputs := tout }
        match compile_dfs (h1.next + 1) h1 tin tout with
        | none =>
          ({ heap := h1, cache := cache_put c2 fun_id idx e2,
             compiler_disabled := w.compiler_disabled, traces := w.traces + 1 },
           .error .no_termination)
        | some (tape, pm) =>
          let s := compile_simplify { heap := h1, parents_map := pm, tape := tape } tout 3
          let e3 : CacheEntry := { e2 with tape := s.tape }
          replay { heap := s.heap, cache := cache_put c2 fun_id idx e3,
                   compiler_disabled := w.compiler_disabled, traces := w.traces + 1 } e3
    else replay { w with cache := c1 } entry

/-- What `compile` hands back: the user function itself, or the caching lambda. -/
inductive Callable where
  | direct (fn : CompileFn)
  | compiled (fn : CompileFn) (fun_id : Nat)

/-- The function `detail::compile(fun, fun_id)`. -/
def detail_compile (w : World) (fn : CompileFn) (fun_id : Nat) : Callable :=
  if w.compiler_disabled then .direct fn else .compiled fn fun_id

/-- The function `compile(fun)`; `getAddress` throws for a function without a
target pointer. -/
def compile (w : World) (fn : CompileFn) : Except CompileError Callable :=
  if w.compiler_disabled then .ok (.direct fn)
  else
    match fn.address with
    | none => .error .non_addressable
    | some fun_id => .ok (detail_compile w fn fun_id)

/-- Call what `compile` returned. -/
def Callable.call (c : Callable) (inputs : List ArrId) (w : World) :
    World × Except CompileError (List ArrId) :=
  match c with
  | .direct fn =>
    match fn.run w.heap inputs with
    | none => (w, .error .user_failure)
    | some (h1, outs) => ({ w with heap := h1 }, .ok outs)
  | .compiled fn fun_id => compiled_fun fn fun_id inputs w

/-- The function `disable_compile()`. -/
def disable_compile (w : World) : World := { w with compiler_disabled := true }

/-- The function `enable_compile()`. -/
def enable_compile (w : World) : World := { w with compiler_disabled := false }

/-- The function `compile_erase(fun_id)`. -/
def compile_erase (w : World) (fun_id : Nat) : World :=
  { w with cache := cache_erase w.cache fun_id }

/-! ## Classification of primitives and compile_reduce -/

/-- The constant `max_compile_size`. -/
def max_compile_size : Nat := 8

/-- The function `is_unary`. -/
def is_unary (p : Primitive) : Bool :=
  decide (p.kind = PrimKind.Abs) || decide (p.kind = PrimKind.ArcCos) ||
  decide (p.kind = PrimKind.ArcCosh) || decide (p.kind = PrimKind.ArcSin) ||
  decide (p.kind = PrimKind.ArcSinh) || decide (p.kind = PrimKind.ArcTan) ||
  decide (p.kind = PrimKind.ArcTanh) || decide (p.kind = PrimKind.AsType) ||
  decide (p.kind = PrimKind.Ceil) || decide (p.kind = PrimKind.Copy) ||
  decide (p.kind = PrimKind.Cos) || decide (p.kind = PrimKind.Cosh) ||
  decide (p.kind = PrimKind.Remainder) || decide (p.kind = PrimKind.Erf) ||
  decide (p.kind = PrimKind.ErfInv) || decide (p.kind = PrimKind.Exp) ||
  decide (p.kind = PrimKind.Floor) || decide (p.kind = PrimKind.Log) ||
  decide (p.kind = PrimKind.Log1p) || decide (p.kind = PrimKind.LogicalNot) ||
  decide (p.kind = PrimKind.Negative) || decide (p.kind = PrimKind.Round) ||
  decide (p.kind = PrimKind.Sigmoid) || decide (p.kind = PrimKind.Sign) ||
  decide (p.kind = PrimKind.Sin) || decide (p.kind = PrimKind.Sinh) ||
  decide (p.kind = PrimKind.Square) || decide (p.kind = PrimKind.Sqrt) ||
  decide (p.kind = PrimKind.Tan) || decide (p.kind = PrimKind.Tanh)

/-- The function `is_binary`. -/
def is_binary (p : Primitive) : Bool :=
  decide (p.kind = PrimKind.Add) || decide (p.kind = PrimKind.Divide) ||
  decide (p.kind = PrimKind.Equal) || decide (p.kind = PrimKind.Greater) ||
  decide (p.kind = PrimKind.GreaterEqual) || decide (p.kind = PrimKind.Less) ||
  decide (p.kind = PrimKind.LessEqual) || decide (p.kind = PrimKind.LogicalNot) ||
  decide (p.kind = PrimKind.LogicalAnd) || decide (p.kind = PrimKind.LogicalOr) ||
  decide (p.kind = PrimKind.LogAddExp) || decide (p.kind = PrimKind.Maximum) ||
  decide (p.kind = PrimKind.Minimum) || decide (p.kind = PrimKind.Multiply) ||
  decide (p.kind = PrimKind.NotEqual) || decide (p.kind = PrimKind.Power) ||
  decide (p.kind = PrimKind.Subtract)

/-- The function `is_broadcast`. -/
def is_broadcast (p : Primitive) : Bool := decide (p.kind = PrimKind.Broadcast)

/-- The function `is_fusable`. -/
def is_fusable (p : Primitive) : Bool := is_unary p || is_binary p || is_broadcast p

/-- How `compile_reduce` can stop without a result: the exception it throws for
an array recorded with an empty list of parents, and the places at which the
source has undefined behaviour (an iterator before the beginning of the tape,
the first element of an empty vector, `back()` of an empty vector, the
primitive of an array without primitive). -/
inductive ReduceError where
  | parents_empty
  | undefined
deriving DecidableEq, Repr

/-- The locals `cache`, `fused_inputs` and `fused_outputs` of `compile_reduce`. -/
structure Region where
  cache : List ArrId
  fused_inputs : List ArrId
  fused_outputs : List ArrId
deriving DecidableEq, Repr

/-- The loop of `compile_reduce` over the parents of an array: the value of
`continue_fusing` after it.  The state is `all_parents_in`, `all_parents_out`
and `continue_fusing`; the loop is left at the first parent that makes both
flags false. -/
def parents_side (cache : List ArrId) (parents : List (ArrId × Nat)) : Bool :=
  (parents.foldl (fun (st : Bool × Bool × Bool) p =>
    if st.2.2 then
      (st.1 && decide (p.1 ∈ cache), st.2.1 && !decide (p.1 ∈ cache),
        (st.1 && decide (p.1 ∈ cache)) || (st.2.1 && !decide (p.1 ∈ cache)))
    else st) (true, true, true)).2.2

/-- The loop `while (s >= 0)` of `compile_reduce`, entered with `s + 1` as the
counter; the result is the value of `s` at which it stops, which is `-1` when it
runs past the beginning of the tape, and the three locals. -/
def extend_region (h : Heap) (tape : List ArrId) (pm : ParentsMap) :
    Nat → Region → Except ReduceError (Int × Region)
  | 0, r => .ok (-1, r)
  | n + 1, r =>
    match h.primitive (tape.getD n 0) with
    | none => extend_region h tape pm n { r with cache := tape.getD n 0 :: r.cache }
    | some p =>
      if !is_fusable p then .ok ((n : Int), r)
      else
        match pm_find pm (tape.getD n 0) with
        | none =>
          extend_region h tape pm n
            { r with fused_outputs := r.fused_outputs ++ [tape.getD n 0],
                     cache := tape.getD n 0 :: r.cache }
        | some parents =>
          if parents.isEmpty then .error .parents_empty
          else if parents_side r.cache parents then
            extend_region h tape pm n
              { cache := tape.getD n 0 :: r.cache,
                fused_inputs := r.fused_inputs ++ [tape.getD n 0],
                fused_outputs := r.fused_outputs ++ [tape.getD n 0] }
          else .ok ((n : Int), r)

/-- The body of the outer loop of `compile_reduce` at position `i`; the state
is the heap and `new_tape`. -/
def reduce_step (tape : List ArrId) (pm : ParentsMap) (outputs : List ArrId)
    (st : Heap × List ArrId) (i : Nat) : Except ReduceError (Heap × List ArrId) :=
  match extend_region st.1 tape pm (i + 1) { cache := [], fused_inputs := [], fused_outputs := [] } with
  | .error e => .error e
  | .ok (s, r) =>
    if s = (i : Int) then .ok st
    else if s < 0 then .error .undefined
    else
      match outputs.getLast? with
      | none => .error .undefined
      | some o =>
        match st.1.primitive o with
        | none => .error .undefined
        | some po =>
          let made := st.1.make_arrays
            (r.fused_outputs.map (fun x => (st.1.shape x, st.1.dtype x)))
            { pid := st.1.next, kind := PrimKind.Compiled, params := 0, stream := po.stream,
              fused_inputs := r.fused_inputs, fused_outputs := r.fused_outputs,
              fused_tape := (tape.drop s.toNat).take (i + 1 - s.toNat) }
            r.fused_inputs
          match made.2 with
          | [] => .error .undefined
          | c :: _ => .ok (made.1, st.2 ++ c :: r.fused_inputs.reverse)

/-- The outer loop of `compile_reduce`, from position `n - 1` down to 0. -/
def reduce_loop (tape : List ArrId) (pm : ParentsMap) (outputs : List ArrId) :
    Nat → Heap × List ArrId → Except ReduceError (Heap × List ArrId)
  | 0, st => .ok st
  | i + 1, st =>
    match reduce_step tape pm outputs st i with
    | .error e => .error e
    | .ok st1 => reduce_loop tape pm outputs i st1

/-- The function `compile_reduce(tape, parents_map, outputs)`. -/
def compile_reduce (s : Simp) (outputs : List ArrId) : Except ReduceError Simp :=
  match reduce_loop s.tape s.parents_map outputs s.tape.length (s.heap, []) with
  | .error e => .error e
  | .ok st => .ok { heap := st.1, parents_map := s.parents_map, tape := st.2.reverse }

/-- The sub-tape of a `Compiled` node, empty for every other array. -/
def sub_tape (h : Heap) (a : ArrId) : List ArrId :=
  match h.primitive a with
  | some p => if p.kind = PrimKind.Compiled then p.fused_tape else []
  | none => []

/-- The array is a `Compiled` node. -/
def is_compiled (h : Heap) (a : ArrId) : Bool :=
  match h.primitive a with
  | some p => decide (p.kind = PrimKind.Compiled)
  | none => false

/-- The array has a primitive that is not fusable. -/
def not_fusable (h : Heap) (a : ArrId) : Bool :=
  match h.primitive a with
  | some p => !is_fusable p
  | none => false

/-! ## The disable flag at start -/

/-- The lambda `get_val` of `compiler_disabled()`; `env` is what
`std::getenv` returns for MLX_DISABLE_COMPILE, `none` for the null pointer. -/
def get_val (env : Option String) : Bool :=
  match env with
  | some _ => true
  | none => false

/-- The process state at the first query of the flag: the static
`compiler_disabled_` is initialised with `get_val()`, the cache is empty. -/
def World.start (env : Option String) (h : Heap) : World :=
  { heap := h, cache := [], compiler_disabled := get_val env, traces := 0 }

/-! ## Properties the claims speak about -/

/-- Tape validity: every input of every tape array is a declared input or
occurs, itself or through a sibling, at an earlier position of the tape. -/
def TapeValid (h : Heap) (input_set tape : List ArrId) : Prop :=
  ∀ k < tape.length, ∀ x ∈ h.inputs (tape.getD k 0),
    x ∈ input_set ∨ ∃ j < k, x = tape.getD j 0 ∨ x ∈ h.siblings (tape.getD j 0)

instance (h : Heap) (input_set tape : List ArrId) : Decidable (TapeValid h input_set tape) := by
  unfold TapeValid; infer_instance

/-- Every declared output is a declared input or is, itself or through a
sibling, an element of the tape. -/
def OutputsKept (h : Heap) (input_set outputs tape : List ArrId) : Prop :=
  ∀ o ∈ outputs, o ∈ input_set ∨ ∃ b ∈ tape, o = b ∨ o ∈ h.siblings b

instance (h : Heap) (input_set outputs tape : List ArrId) :
    Decidable (OutputsKept h input_set outputs tape) := by
  unfold OutputsKept; infer_instance

/-- The part of a descriptor that `compile_simplify` never writes: everything
but the identities of the inputs (their number is kept). -/
def ArrayDesc.frame (d : ArrayDesc) : ArrayDesc :=
  { d with inputs := List.replicate d.inputs.length 0 }

/-- Two heaps that differ at most in the identities of the inputs of their
arrays. -/
def Heap.SameFrame (h h2 : Heap) : Prop :=
  h2.next = h.next ∧ ∀ x, (h2.desc x).frame = (h.desc x).frame

/-- The test pass 0 applies to a tape array: it stays unless it is a scalar
whose representative in `scalars` is another array. -/
def keeps_scalar (h : Heap) (scalars : ScalarMap) (arr : ArrId) : Bool :=
  if is_scalar h arr then
    match scalars_find scalars (get_scalar_rep h arr) with
    | some rep => decide (rep = arr)
    | none => true
  else true

/-- Soundness of the parents map: every recorded pair `(p, i)` under a key `x`
names a slot with `p.inputs[i]` being `x`. -/
def ParentsSound (h : Heap) (pm : ParentsMap) : Prop :=
  ∀ x l, pm_find pm x = some l → ∀ e ∈ l, (h.inputs e.1)[e.2]? = some x

/-- Completeness of the parents map on the arrays `u`: every input slot of
an array of `u` is recorded under the input it holds. -/
def ParentsComplete (h : Heap) (pm : ParentsMap) (u : List ArrId) : Prop :=
  ∀ p ∈ u, ∀ i x, (h.inputs p)[i]? = some x → ∃ l, pm_find pm x = some l ∧ (p, i) ∈ l

/-- The outputs of one multi-output primitive are constructed with the same
inputs. -/
def SiblingsShareInputs (h : Heap) : Prop :=
  ∀ a, ∀ s ∈ h.siblings a, h.inputs s = h.inputs a

/-- An evaluated array is a detached constant: it has no inputs and no
siblings. -/
def EvaledAreLeaves (h : Heap) : Prop :=
  ∀ a, h.is_evaled a = true → h.inputs a = [] ∧ h.siblings a = []

/-- The graph is acyclic: some rank decreases along every input edge. -/
def Acyclic (h : Heap) : Prop :=
  ∃ r : ArrId → Nat, ∀ p, ∀ x ∈ h.inputs p, r x < r p

/-- The total number of recorded pairs. -/
def pm_count (pm : ParentsMap) : Nat := (pm.map (fun e => e.2.length)).sum

/-- The arrays of a tape together with their siblings. -/
def tape_family (h : Heap) (tape : List ArrId) : List ArrId :=
  tape.flatMap (fun a => a :: h.siblings a)

/-- The parents map `pm2` holds every pair that `pm` holds. -/
def ParentsGrow (pm pm2 : ParentsMap) : Prop :=
  ∀ x l, pm_find pm x = some l → ∃ l2, pm_find pm2 x = some l2 ∧ ∀ e ∈ l, e ∈ l2

/-- No key occurs twice in the representation of the parents map. -/
def KeysNodup (pm : ParentsMap) : Prop := (pm.map Prod.fst).Nodup

/-- The invariant of the traversal: the parents map is sound, it is complete
on the visited arrays, and the visited arrays are the tape with its siblings. -/
def DfsInv (h : Heap) (st : DfsState) : Prop :=
  ParentsSound h st.parents_map ∧ ParentsComplete h st.parents_map st.cache ∧
  st.cache = tape_family h st.tape ∧ KeysNodup st.parents_map

/-- The pair `e` is recorded under the key `x`. -/
def Recorded (pm : ParentsMap) (x : ArrId) (e : ArrId × Nat) : Prop :=
  ∃ l, pm_find pm x = some l ∧ e ∈ l

/-- No array of the heap is an output of a multi-output primitive. -/
def NoSiblings (h : Heap) : Prop := ∀ a, h.siblings a = []

/-- The test of the inner loop of `maybe_fuse_parents` at the pair `(i, j)` of
the parents list `l`: two different arrays that are `array_equivalent`. -/
def fusable_pair (h : Heap) (l : List (ArrId × Nat)) (i j : Nat) : Prop :=
  (l.getD j (0, 0)).1 ≠ (l.getD i (0, 0)).1 ∧
    array_equivalent h (l.getD j (0, 0)).1 (l.getD i (0, 0)).1 = true

/-- No pair of the parents list of `a` passes the test of `maybe_fuse_parents`. -/
def NoFusablePair (h : Heap) (pm : ParentsMap) (a : ArrId) : Prop :=
  ∀ l, pm_find pm a = some l → ∀ i j, i < j → j < l.length → ¬ fusable_pair h l i j

/-- No array is recorded as a parent of itself or of one of its co-outputs. -/
def NoSelfParent (h : Heap) (pm : ParentsMap) : Prop :=
  ∀ a l, pm_find pm a = some l → ∀ e ∈ l, a ∉ h.outputs e.1

/-- The function `r` is a height on the graph: an array stands one above the
highest of its inputs, and the co-outputs of a primitive have the same height. -/
def Ranked (h : Heap) (r : ArrId → Nat) : Prop :=
  (∀ p, r p = ((h.inputs p).map r).foldr max 0 + 1) ∧ ∀ a, ∀ o ∈ h.outputs a, r o = r a

/-- What `compile_simplify` keeps of the state it started from: the frame of
the descriptors, soundness of the parents map, the height of every array and
the uniqueness of the keys. -/
def SimpInv (h0 : Heap) (r : ArrId → Nat) (s : Simp) : Prop :=
  h0.SameFrame s.heap ∧ ParentsSound s.heap s.parents_map ∧ Ranked s.heap r ∧
    KeysNodup s.parents_map

/-- Every array was constructed after its inputs. -/
def Ordered (h : Heap) : Prop := ∀ p, ∀ x ∈ h.inputs p, x < p

/-- The heap `h2` still holds every array of `h`, with the same descriptor up
to the identities of its inputs. -/
def Extends (h h2 : Heap) : Prop :=
  h.next ≤ h2.next ∧ ∀ a, a < h.next → (h2.desc a).frame = (h.desc a).frame

/-- The user function only constructs arrays: the arrays that exist when it is
called keep their descriptors. -/
def Builds (fn : CompileFn) : Prop :=
  ∀ h ins h2 outs, fn.run h ins = some (h2, outs) → Extends h h2

/-- The user function constructs every array after its inputs and returns
arrays that exist. -/
def BuildsInOrder (fn : CompileFn) : Prop :=
  ∀ h ins h2 outs, fn.run h ins = some (h2, outs) → Ordered h →
    Ordered h2 ∧ ∀ o ∈ outs, o < h2.next

/-- Two input lists with the same signature: equal length and elementwise equal
shape and dtype, the first list read in `h2` and the second in `h`. -/
def SameSignature (h2 : Heap) (ys : List ArrId) (h : Heap) (xs : List ArrId) : Prop :=
  List.Forall₂ (fun y x => h2.shape y = h.shape x ∧ h2.dtype y = h.dtype x) ys xs

/-- The tape is ready for replay: every input of a primitive-bearing tape array
is a placeholder input or occurs, itself or through a sibling, at an earlier
position of the tape. -/
def ReplayReady (h : Heap) (tin tape : List ArrId) : Prop :=
  ∀ k < tape.length, (h.primitive (tape.getD k 0)).isSome = true →
    ∀ x ∈ h.inputs (tape.getD k 0),
      x ∈ tin ∨ ∃ j < k, x = tape.getD j 0 ∨ x ∈ h.siblings (tape.getD j 0)

instance (h : Heap) (tin tape : List ArrId) : Decidable (ReplayReady h tin tape) := by
  unfold ReplayReady; infer_instance

/-- Well-formed outputs of primitives: the outputs of an array are pairwise
distinct, its siblings have the same primitive, the same inputs and the same
list of outputs, and an array without primitive has no siblings. -/
def GroupsWF (h : Heap) : Prop :=
  ∀ a, (h.outputs a).Nodup ∧ (h.primitive a = none → h.siblings a = []) ∧
    ∀ s ∈ h.siblings a,
      h.primitive s = h.primitive a ∧ h.inputs s = h.inputs a ∧ h.outputs s = h.outputs a

/-- What `trace_to_real` may hold for a key: the real input it was seeded with,
the key itself for an array without primitive, or an array constructed by the
replay with the shape, dtype and primitive of the key, whose inputs are the
images of the inputs of the key and, when no output of the key was seeded,
whose outputs are the images of the outputs of the key in the same order. -/
def TraceGood (h : Heap) (m0 : TraceMap) (hc : Heap) (m : TraceMap) (key val : ArrId) : Prop :=
  tm_find m0 key = some val ∨
  (h.primitive key = none ∧ val = key) ∨
  ∃ p, h.primitive key = some p ∧ h.next ≤ val ∧ val < hc.next ∧
    hc.shape val = h.shape key ∧ hc.dtype val = h.dtype key ∧ hc.primitive val = some p ∧
    List.Forall₂ (fun x y => tm_find m x = some y) (h.inputs key) (hc.inputs val) ∧
    ((∀ o ∈ h.outputs key, tm_find m0 o = none) →
      List.Forall₂ (fun o r => tm_find m o = some r) (h.outputs key) (hc.outputs val))

/-- The invariant of the loop of `compile_replace` after the arrays `pre` of the
tape: the arrays of the traced graph are untouched, the seed is kept, every
output of a processed array has an image, and every binding is good. -/
def ReplayInv (h : Heap) (m0 : TraceMap) (hc : Heap) (m : TraceMap) (pre : List ArrId) : Prop :=
  (h.next ≤ hc.next ∧ ∀ x, x < h.next → hc.desc x = h.desc x) ∧
  (∀ k v, tm_find m0 k = some v → tm_find m k = some v) ∧
  (∀ b ∈ pre, ∀ o ∈ h.outputs b, ∃ v, tm_find m o = some v) ∧
  ∀ k v, tm_find m k = some v → TraceGood h m0 hc m k v

/-- What `compile_replace` computes, as a relation between the traced arrays
and their images under the final `trace_to_real`: the first occurrence of a
placeholder input maps to the real input at the same index; a tape array that
is not a placeholder input maps to itself when it has no primitive and
otherwise to an array constructed by the call, with the same shape, dtype and
primitive, whose inputs are the images of its inputs and, when none of its
outputs is a placeholder input, whose outputs are the images of its outputs in
the same order. -/
def Substitution (h : Heap) (tape tin ins : List ArrId) (h2 : Heap) (m : TraceMap) : Prop :=
  (∀ i, i < tin.length → (∀ j, j < i → tin.getD j 0 ≠ tin.getD i 0) →
    tm_find m (tin.getD i 0) = some (ins.getD i 0)) ∧
  (∀ a ∈ tape, a ∉ tin → h.primitive a = none → tm_find m a = some a) ∧
  ∀ a ∈ tape, a ∉ tin → ∀ p, h.primitive a = some p →
    ∃ r, tm_find m a = some r ∧ h.next ≤ r ∧ r < h2.next ∧
      h2.shape r = h.shape a ∧ h2.dtype r = h.dtype a ∧ h2.primitive r = some p ∧
      List.Forall₂ (fun x y => tm_find m x = some y) (h.inputs a) (h2.inputs r) ∧
      ((∀ o ∈ h.outputs a, o ∉ tin) →
        List.Forall₂ (fun o y => tm_find m o = some y) (h.outputs a) (h2.outputs r))

/-- Modelled from the claim's words: the primitive kinds that claim C19 lists
as the binary elementwise operations. -/
def binary_kinds : List PrimKind :=
  [PrimKind.Add, PrimKind.Subtract, PrimKind.Multiply, PrimKind.Divide, PrimKind.Power,
   PrimKind.Maximum, PrimKind.Minimum, PrimKind.LogAddExp, PrimKind.LogicalAnd,
   PrimKind.LogicalOr, PrimKind.Equal, PrimKind.NotEqual, PrimKind.Greater,
   PrimKind.GreaterEqual, PrimKind.Less, PrimKind.LessEqual]

/-- Modelled from the claim's words: the stored inputs `in2` have elementwise
equal shape and dtype to `in1`, and there are as many. -/
def signature_matches (h : Heap) (in1 in2 : List ArrId) : Bool :=
  decide (in1.length = in2.length) &&
    (in1.zip in2).all
      (fun e => decide (h.shape e.1 = h.shape e.2) && decide (h.dtype e.1 = h.dtype e.2))

/-- Modelled from the claim's words: the index of the first entry whose stored
inputs match `inputs`, none when no entry matches. -/
def first_match (h : Heap) (inputs : List ArrId) : List CacheEntry → Option Nat
  | [] => none
  | e :: rest =>
    if signature_matches h inputs e.inputs then some 0
    else (first_match h inputs rest).map (fun i => i + 1)

/-- The entries that a lookup scans: those up to and including the first match,
all of them when there is no match. -/
def scanned (h : Heap) (inputs : List ArrId) (entries : List CacheEntry) : List CacheEntry :=
  match first_match h inputs entries with
  | some i => entries.take (i + 1)
  | none => entries

/-- The invariant of the tape during the traversal: the visited identities are
the tape arrays with their siblings, and every input of a tape array is among
the arrays and siblings that precede it in the tape. -/
def TapeInv (h : Heap) (st : DfsState) : Prop :=
  st.cache = tape_family h st.tape ∧
  ∀ pre b post, st.tape = pre ++ b :: post → ∀ x ∈ h.inputs b, x ∈ tape_family h pre

/-- Modelled from the claim's words: the raw bit pattern of a scalar, the bytes
of its one element read as a number. -/
def raw_bits (h : Heap) (a : ArrId) : Nat :=
  (h.desc a).data % 2 ^ (8 * (h.dtype a).size)

/-- The member `inputs_` of the `Compiled` primitive of a node, empty for every
other array. -/
def fused_inputs_of (h : Heap) (a : ArrId) : List ArrId :=
  match h.primitive a with
  | some p => if p.kind = PrimKind.Compiled then p.fused_inputs else []
  | none => []

/-- The member `outputs_` of the `Compiled` primitive of a node, empty for every
other array. -/
def fused_outputs_of (h : Heap) (a : ArrId) : List ArrId :=
  match h.primitive a with
  | some p => if p.kind = PrimKind.Compiled then p.fused_outputs else []
  | none => []

/-! ## Example programs -/

namespace Example

/-- The dtype float32. -/
def float32 : Dtype := ⟨10, 4⟩

/-- A unary operation applied to `x`: a new array with a new primitive object. -/
def unary (k : PrimKind) (h : Heap) (x : ArrId) : Heap × ArrId :=
  h.new_array (h.shape x) (h.dtype x) (some ⟨h.next, k, 0, 0, [], [], []⟩) [x]

/-- A binary operation applied to `x` and `y`. -/
def binary (k : PrimKind) (h : Heap) (x y : ArrId) : Heap × ArrId :=
  h.new_array (h.shape x) (h.dtype x) (some ⟨h.next, k, 0, 0, [], [], []⟩) [x, y]

/-- An evaluated array without primitive holding `bits`. -/
def constant (h : Heap) (shape : List Int) (dt : Dtype) (bits : Nat) : Heap × ArrId :=
  ({ desc := Function.update h.desc h.next
      ({ shape := shape, dtype := dt, primitive := none, inputs := [], siblings := [],
         position := 0, evaled := true, data := bits, tracer := false }),
     next := h.next + 1 }, h.next)

/-- A process with one evaluated float32 array of shape [4], an empty cache and
compilation enabled. -/
def world0 : World :=
  { heap := (constant Heap.empty [4] float32 0).1, cache := [], compiler_disabled := false,
    traces := 0 }

/-- The function `f(x) = [sin(x) + cos(sin(x)), cos(sin(x))]` with every
operation written out: `d = sin(x); s = sin(x); r = d + cos(s); q = cos(d);
return {r, q}`. -/
def f_cse : CompileFn :=
  { address := some 7,
    run := fun h ins =>
      match ins with
      | [x] =>
        let d := unary PrimKind.Sin h x
        let s := unary PrimKind.Sin d.1 x
        let c := unary PrimKind.Cos s.1 s.2
        let r := binary PrimKind.Add c.1 d.2 c.2
        let q := unary PrimKind.Cos r.1 d.2
        some (q.1, [r.2, q.2])
      | _ => none }

/-- The function `f(x) = [x + 2.0f, 2.0f]`, the two constants being two arrays. -/
def f_scalars : CompileFn :=
  { address := some 8,
    run := fun h ins =>
      match ins with
      | [x] =>
        let c1 := constant h [] float32 0x40000000
        let r := binary PrimKind.Add c1.1 x c1.2
        let c2 := constant r.1 [] float32 0x40000000
        some (c2.1, [r.2, c2.2])
      | _ => none }

/-- The function `f(x) = ((x + 2.0f) + 2.0f) + 2.0f` with three constant arrays. -/
def f_three : CompileFn :=
  { address := some 9,
    run := fun h ins =>
      match ins with
      | [x] =>
        let c1 := constant h [] float32 0x40000000
        let r1 := binary PrimKind.Add c1.1 x c1.2
        let c2 := constant r1.1 [] float32 0x40000000
        let r2 := binary PrimKind.Add c2.1 r1.2 c2.2
        let c3 := constant r2.1 [] float32 0x40000000
        let r3 := binary PrimKind.Add c3.1 r2.2 c3.2
        some (r3.1, [r3.2])
      | _ => none }

/-- The function `f(x) = [sin(x), sin(x)]`, the two outputs being two arrays. -/
def f_twice : CompileFn :=
  { address := some 10,
    run := fun h ins =>
      match ins with
      | [x] =>
        let a := unary PrimKind.Sin h x
        let b := unary PrimKind.Sin a.1 x
        some (b.1, [a.2, b.2])
      | _ => none }

/-- The function `f(x) = [x + sin(x), sin(x) + x]` with one `sin(x)`. -/
def f_mirror : CompileFn :=
  { address := some 12,
    run := fun h ins =>
      match ins with
      | [x] =>
        let a := unary PrimKind.Sin h x
        let b := binary PrimKind.Add a.1 x a.2
        let c := binary PrimKind.Add b.1 a.2 x
        some (c.1, [b.2, c.2])
      | _ => none }

/-- A primitive kind with several outputs; the source names none. -/
def two_outputs : PrimKind := ⟨50⟩

/-- A traced graph with a primitive of two outputs: array 0 is the real input
of `world0`, array 1 its placeholder, arrays 2 and 3 are the two outputs of one
primitive over the placeholder, and array 4 is `exp` of the second output. -/
def split_heap : Heap :=
  (unary PrimKind.Exp
    ((make_tracers [0] world0.heap).1.make_arrays [([2], float32), ([2], float32)]
      ⟨2, two_outputs, 0, 0, [], [], []⟩ [1]).1 3).1

/-- A primitive without inputs that is not fusable, such as `arange`. -/
def source (k : PrimKind) (h : Heap) (shape : List Int) (dt : Dtype) : Heap × ArrId :=
  h.new_array shape dt (some ⟨h.next, k, 0, 0, [], [], []⟩) []

/-- The heap with `x0 = arange(4)` and the chain `x(k+1) = exp(xk)` of `n`
unary operations over it: array 0 is the arange, array `k` the k-th exp. -/
def chain_heap : Nat → Heap
  | 0 => (source PrimKind.Arange Heap.empty [4] float32).1
  | n + 1 => (unary PrimKind.Exp (chain_heap n) n).1

/-- The heap of `matmul(a, exp(a))` with `a = arange(4)`: array 0 is the
arange, array 1 the exp and array 2 the matmul. -/
def matmul_heap : Heap :=
  (binary PrimKind.Matmul (unary PrimKind.Exp
    (source PrimKind.Arange Heap.empty [4] float32).1 0).1 0 1).1

/-- The function `f(x) = [exp(arange(4))]`, which does not read its input. -/
def f_source : CompileFn :=
  { address := some 13,
    run := fun h ins =>
      match ins with
      | [_] =>
        let a := source PrimKind.Arange h [4] float32
        let e := unary PrimKind.Exp a.1 a.2
        some (e.1, [e.2])
      | _ => none }

/-- The dtype float16, two bytes wide. -/
def float16 : Dtype := ⟨9, 2⟩

/-- The function `f(x) = (x + 1.0h) + 2.0h` with two float16 constants, whose
bit patterns are 0x3C00 and 0x4000. -/
def f_half : CompileFn :=
  { address := some 14,
    run := fun h ins =>
      match ins with
      | [x] =>
        let c1 := constant h [] float16 0x3C00
        let r1 := binary PrimKind.Add c1.1 x c1.2
        let c2 := constant r1.1 [] float16 0x4000
        let r2 := binary PrimKind.Add c2.1 r1.2 c2.2
        some (r2.1, [r2.2])
      | _ => none }

/-- A function that fails whenever it is called. -/
def f_fails : CompileFn := { address := some 11, run := fun _ _ => none }

/-- The heap after tracing `fn` on the input of `world0`: the placeholder input
is array 1, the arrays the function constructs follow. -/
def traced (fn : CompileFn) : Heap :=
  match compile_trace fn world0.heap [0] with
  | none => Heap.empty
  | some (h1, _, _) => h1

end Example

end Mlx

/-! # Theorems -/

namespace Mlx

open Example

/-! ## The driver on the example programs -/

/-- C1 (the code departs from the claim): `f(x) = [sin(x) + cos(sin(x)),
cos(sin(x))]` and `f(x) = [x + 2.0f, 2.0f]` both run on the input of `world0`,
and `compile` returns the caching wrapper for each, but calling the wrapper on
the same input throws `std::out_of_range` from `compile_replace` instead of
returning arrays equal to `f(xs)`. -/
theorem compiled_call_throws_where_function_runs :
    (f_cse.run world0.heap [0]).isSome = true ∧
    compile world0 f_cse = .ok (.compiled f_cse 7) ∧
    ((Callable.compiled f_cse 7).call [0] world0).2 = .error .out_of_range ∧
    (f_scalars.run world0.heap [0]).isSome = true ∧
    compile world0 f_scalars = .ok (.compiled f_scalars 8) ∧
    ((Callable.compiled f_scalars 8).call [0] world0).2 = .error .out_of_range := by
  refine ⟨rfl, rfl, rfl, rfl, rfl, rfl⟩

/-- C3 (the code departs from the claim): for `d = sin(x); s = sin(x);
r = d + cos(s); q = cos(d); return {r, q}` the tape of `compile_dfs` is valid,
but after `compile_simplify` with 3 passes the tape is `[x, d, r, q]` and `r`
has the inputs `[d, q]`: its input `q` stands after it in the tape. -/
theorem simplify_breaks_tape_order :
    compile_trace f_cse world0.heap [0] = some (traced f_cse, [1], [5, 6]) ∧
    compile_dfs 8 (traced f_cse) [1] [5, 6] =
      some ([1, 2, 3, 4, 5, 6],
        [(2, [(5, 0), (6, 0)]), (1, [(2, 0), (3, 0)]), (4, [(5, 1)]), (3, [(4, 0)])]) ∧
    TapeValid (traced f_cse) [1] [1, 2, 3, 4, 5, 6] ∧
    (compile_simplify
      { heap := traced f_cse,
        parents_map := [(2, [(5, 0), (6, 0)]), (1, [(2, 0), (3, 0)]), (4, [(5, 1)]), (3, [(4, 0)])],
        tape := [1, 2, 3, 4, 5, 6] } [5, 6] 3).tape = [1, 2, 5, 6] ∧
    (compile_simplify
      { heap := traced f_cse,
        parents_map := [(2, [(5, 0), (6, 0)]), (1, [(2, 0), (3, 0)]), (4, [(5, 1)]), (3, [(4, 0)])],
        tape := [1, 2, 3, 4, 5, 6] } [5, 6] 3).heap.inputs 5 = [2, 6] ∧
    ¬ TapeValid
      (compile_simplify
        { heap := traced f_cse,
          parents_map :=
            [(2, [(5, 0), (6, 0)]), (1, [(2, 0), (3, 0)]), (4, [(5, 1)]), (3, [(4, 0)])],
          tape := [1, 2, 3, 4, 5, 6] } [5, 6] 3).heap [1] [1, 2, 5, 6] := by
  refine ⟨rfl, rfl, by decide, rfl, rfl, by decide⟩

/-- C4 (the code departs from the claim): for `f(x) = [x + 2.0f, 2.0f]` with
two constant arrays, pass 0 of `compile_simplify` fuses the second constant,
which is a declared output, into the first and drops it from the tape;
`compile_replace` then finds no counterpart for it and throws. -/
theorem scalar_pass_drops_declared_output :
    compile_trace f_scalars world0.heap [0] = some (traced f_scalars, [1], [3, 4]) ∧
    compile_dfs 6 (traced f_scalars) [1] [3, 4] =
      some ([1, 2, 3, 4], [(1, [(3, 0)]), (2, [(3, 1)])]) ∧
    OutputsKept (traced f_scalars) [1] [3, 4] [1, 2, 3, 4] ∧
    (compile_simplify
      { heap := traced f_scalars, parents_map := [(1, [(3, 0)]), (2, [(3, 1)])],
        tape := [1, 2, 3, 4] } [3, 4] 0).tape = [1, 2, 3] ∧
    (compile_simplify
      { heap := traced f_scalars, parents_map := [(1, [(3, 0)]), (2, [(3, 1)])],
        tape := [1, 2, 3, 4] } [3, 4] 3).tape = [1, 2, 3] ∧
    ¬ OutputsKept
      (compile_simplify
        { heap := traced f_scalars, parents_map := [(1, [(3, 0)]), (2, [(3, 1)])],
          tape := [1, 2, 3, 4] } [3, 4] 3).heap [1] [3, 4] [1, 2, 3] ∧
    compile_replace (traced f_scalars) [1, 2, 3] [1] [3, 4] [0] = .error .out_of_range := by
  refine ⟨rfl, rfl, by decide, rfl, rfl, by decide, rfl⟩

theorem cache_get_set_same (c : Cache) (k : Nat) (l : List CacheEntry) :
    cache_get (cache_set c k l) k = some l := by
  induction c with
  | nil => simp [cache_set, cache_get]
  | cons e rest ih =>
    obtain ⟨k', l'⟩ := e
    by_cases h : k' = k
    · simp [cache_set, cache_get, h]
    · simp [cache_set, cache_get, h, ih]

theorem cache_get_set_other (c : Cache) (k k2 : Nat) (l : List CacheEntry) (hne : k2 ≠ k) :
    cache_get (cache_set c k l) k2 = cache_get c k2 := by
  induction c with
  | nil => simp [cache_set, cache_get, Ne.symm hne]
  | cons e rest ih =>
    obtain ⟨k', l'⟩ := e
    by_cases h : k' = k
    · subst h; simp [cache_set, cache_get, Ne.symm hne]
    · by_cases h2 : k' = k2
      · subst h2; simp [cache_set, cache_get, h]
      · simp [cache_set, cache_get, h, h2, ih]

theorem cache_set_set (c : Cache) (k : Nat) (l l2 : List CacheEntry) :
    cache_set (cache_set c k l) k l2 = cache_set c k l2 := by
  induction c with
  | nil => simp [cache_set]
  | cons e rest ih =>
    obtain ⟨k', l'⟩ := e
    by_cases h : k' = k
    · simp [cache_set, h]
    · simp [cache_set, h, ih]

theorem scan_entries_append (h : Heap) (ins : List ArrId) (l1 l2 : List CacheEntry) (i : Nat) :
    scan_entries h ins (l1 ++ l2) i =
      match scan_entries h ins l1 i with
      | .ok none => scan_entries h ins l2 (i + l1.length)
      | r => r := by
  induction l1 generalizing i with
  | nil => simp [scan_entries]
  | cons e rest ih =>
    simp only [List.cons_append, scan_entries, List.length_cons]
    cases hm : is_match h ins e.inputs with
    | error err => simp
    | ok b =>
      cases b with
      | true => simp
      | false =>
        have h2 := ih (i + 1)
        have h3 : i + 1 + rest.length = i + (rest.length + 1) := by omega
        rw [h3] at h2
        exact h2

theorem compiled_fun_flag (fn : CompileFn) (fun_id : Nat) (inputs : List ArrId) (w : World)
    (b : Bool) :
    compiled_fun fn fun_id inputs { w with compiler_disabled := b } =
      ({ (compiled_fun fn fun_id inputs w).1 with compiler_disabled := b },
        (compiled_fun fn fun_id inputs w).2) := by
  unfold compiled_fun
  dsimp only
  cases hfind : cache_find w.cache w.heap fun_id inputs with
  | mk c1 r =>
    cases r with
    | error e => rfl
    | ok idx =>
      dsimp only
      split
      · cases compile_trace fn w.heap inputs with
        | none => rfl
        | some t =>
          obtain ⟨h1, tin, tout⟩ := t
          dsimp only
          cases compile_dfs (h1.next + 1) h1 tin tout with
          | none => rfl
          | some d =>
            obtain ⟨tape, pm⟩ := d
            dsimp only
            split <;> rfl
      · split <;> rfl

theorem cache_find_miss (c : Cache) (h : Heap) (fun_id : Nat) (inputs : List ArrId)
    (hmiss : scan_entries h inputs ((cache_get c fun_id).getD []) 0 = .ok none) :
    cache_find c h fun_id inputs =
      (cache_set c fun_id ((cache_get c fun_id).getD [] ++ [CacheEntry.fresh]),
        .ok ((cache_get c fun_id).getD []).length) := by
  unfold cache_find
  simp only [hmiss]

/-- The entry a failed trace leaves behind. -/
theorem compiled_fun_failed_trace (fn : CompileFn) (fun_id : Nat) (inputs : List ArrId)
    (w : World)
    (hmiss : scan_entries w.heap inputs ((cache_get w.cache fun_id).getD []) 0 = .ok none)
    (hfail : compile_trace fn w.heap inputs = none) :
    compiled_fun fn fun_id inputs w =
      ({ w with
          cache := cache_set w.cache fun_id
            ((cache_get w.cache fun_id).getD [] ++
              [{ inputs := [], outputs := [], tape := [], empty := false }]),
          traces := w.traces + 1 }, .error .user_failure) := by
  unfold compiled_fun
  rw [cache_find_miss _ _ _ _ hmiss]
  simp only [cache_get_set_same, Option.getD_some, hfail, cache_put, cache_set_set]
  simp [List.getD_eq_getElem?_getD, CacheEntry.fresh]

theorem compile_replace_nil (h : Heap) (inputs : List ArrId) :
    compile_replace h [] [] [] inputs = .ok (h, []) := by
  simp [compile_replace, replace_tape, seed_inputs, tm_gather]

/-- The call that follows a failed trace, from the state the failure left. -/
theorem compiled_fun_after_failed_trace (fn : CompileFn) (fun_id : Nat) (inputs : List ArrId)
    (w : World)
    (hmiss : scan_entries w.heap inputs ((cache_get w.cache fun_id).getD []) 0 = .ok none) :
    compiled_fun fn fun_id inputs
      { w with
          cache := cache_set w.cache fun_id
            ((cache_get w.cache fun_id).getD [] ++
              [{ inputs := [], outputs := [], tape := [], empty := false }]),
          traces := w.traces + 1 } =
      ({ w with
          cache := cache_set w.cache fun_id
            ((cache_get w.cache fun_id).getD [] ++
              [{ inputs := [], outputs := [], tape := [], empty := false }]),
          traces := w.traces + 1 },
        if inputs = [] then .ok [] else .error .different_number_of_inputs) := by
  unfold compiled_fun cache_find
  simp only [cache_get_set_same, Option.getD_some, scan_entries_append, hmiss, scan_entries,
    is_match, cache_set_set]
  by_cases hin : inputs = []
  · subst hin
    simp [List.getD_eq_getElem?_getD, compile_replace_nil, cache_get_set_same, cache_set_set]
  · have hlen : inputs.length ≠ 0 := by
      intro h0; exact hin (List.length_eq_zero.mp h0)
    simp [hlen, hin, cache_get_set_same, cache_set_set]

/-- C5, counterexample: the always-failing function is called through the
wrapper; the failure surfaces, but the cache keeps an entry for it, and the
same call made again fails in the cache lookup without tracing. -/
theorem failed_trace_entry_is_not_removed :
    compile world0 f_fails = .ok (.compiled f_fails 11) ∧
    ((Callable.compiled f_fails 11).call [0] world0).2 = .error .user_failure ∧
    ((Callable.compiled f_fails 11).call [0] world0).1.cache =
      [(11, [{ inputs := [], outputs := [], tape := [], empty := false }])] ∧
    ((Callable.compiled f_fails 11).call [0]
      ((Callable.compiled f_fails 11).call [0] world0).1).2 =
        .error .different_number_of_inputs ∧
    ((Callable.compiled f_fails 11).call [0]
      ((Callable.compiled f_fails 11).call [0] world0).1).1.traces = 1 := by
  refine ⟨rfl, rfl, rfl, rfl, rfl⟩

/-- C5, as the code behaves: when the user function fails while the wrapper is
filling an entry on a miss, the failure surfaces to the caller and the entry
stays in the cache under `fun_id`, marked non-empty and with no inputs, outputs
or tape; the entries of every other `fun_id` are untouched.  The same call made
again does not trace: with a non-empty input list it fails in the lookup with
the different-number-of-inputs error, with an empty input list it matches the
leftover entry and returns the empty list. -/
theorem failed_trace_leaves_entry (fn : CompileFn) (fun_id : Nat) (inputs : List ArrId)
    (w : World)
    (hmiss : scan_entries w.heap inputs ((cache_get w.cache fun_id).getD []) 0 = .ok none)
    (hfail : compile_trace fn w.heap inputs = none) :
    (compiled_fun fn fun_id inputs w).2 = .error .user_failure ∧
    (compiled_fun fn fun_id inputs w).1.traces = w.traces + 1 ∧
    cache_get (compiled_fun fn fun_id inputs w).1.cache fun_id =
      some ((cache_get w.cache fun_id).getD [] ++
        [{ inputs := [], outputs := [], tape := [], empty := false }]) ∧
    (∀ k, k ≠ fun_id →
      cache_get (compiled_fun fn fun_id inputs w).1.cache k = cache_get w.cache k) ∧
    (compiled_fun fn fun_id inputs (compiled_fun fn fun_id inputs w).1).2 =
      (if inputs = [] then .ok [] else .error .different_number_of_inputs) ∧
    (compiled_fun fn fun_id inputs (compiled_fun fn fun_id inputs w).1).1.traces =
      w.traces + 1 ∧
    (compiled_fun fn fun_id inputs (compiled_fun fn fun_id inputs w).1).1.cache =
      (compiled_fun fn fun_id inputs w).1.cache := by
  have e1 := compiled_fun_failed_trace fn fun_id inputs w hmiss hfail
  have e2 := compiled_fun_after_failed_trace fn fun_id inputs w hmiss
  rw [e1]
  dsimp only
  rw [e2]
  refine ⟨rfl, rfl, cache_get_set_same _ _ _, ?_, rfl, rfl, rfl⟩
  intro k hk
  exact cache_get_set_other _ _ _ _ hk

theorem failed_trace_leaves_entry_witness :
    (compiled_fun f_fails 11 [0] world0).2 = .error .user_failure ∧
    (compiled_fun f_fails 11 [0] (compiled_fun f_fails 11 [0] world0).1).1.traces =
      world0.traces + 1 :=
  ⟨(failed_trace_leaves_entry f_fails 11 [0] world0 rfl rfl).1,
   (failed_trace_leaves_entry f_fails 11 [0] world0 rfl rfl).2.2.2.2.2.1⟩

/-- C10, counterexample: a wrapper is obtained while compilation is enabled and
called after `disable_compile()`; the call looks up the cache, stores an entry,
traces the function and replays the tape (the result is the replayed arrays 4
and 5, where the function called directly constructs arrays 1 and 2). -/
theorem wrapper_compiles_after_disable :
    compile world0 f_twice = .ok (.compiled f_twice 10) ∧
    ((Callable.compiled f_twice 10).call [0] (disable_compile world0)).1.traces = 1 ∧
    ((Callable.compiled f_twice 10).call [0] (disable_compile world0)).1.cache =
      [(10, [{ inputs := [1], outputs := [2, 3], tape := [1, 2, 3], empty := false }])] ∧
    ((Callable.compiled f_twice 10).call [0] (disable_compile world0)).2 = .ok [4, 5] ∧
    ((Callable.direct f_twice).call [0] (disable_compile world0)).2 = .ok [1, 2] := by
  refine ⟨rfl, rfl, rfl, rfl, rfl⟩

/-- C10, as the code behaves: the disable flag is read when `compile` is
called, not when the wrapper is called.  A wrapper obtained while compilation
was enabled does after `disable_compile()` exactly what it does with
compilation enabled (cache lookup, trace on a miss, replay); `compile` called
while the flag is set returns the function itself, whose call touches neither
the cache nor the trace counter. -/
theorem disable_flag_is_read_by_compile (fn : CompileFn) (w : World) (c : Callable)
    (hen : w.compiler_disabled = false) (hc : compile w fn = .ok c)
    (inputs : List ArrId) (w2 : World) :
    c.call inputs (disable_compile w2) =
      (disable_compile (c.call inputs (enable_compile w2)).1,
        (c.call inputs (enable_compile w2)).2) ∧
    compile (disable_compile w) fn = .ok (.direct fn) ∧
    ((Callable.direct fn).call inputs w2).1.cache = w2.cache ∧
    ((Callable.direct fn).call inputs w2).1.traces = w2.traces ∧
    ((Callable.direct fn).call inputs w2).2 =
      (match fn.run w2.heap inputs with
       | none => .error .user_failure
       | some r => .ok r.2) := by
  refine ⟨?_, ?_, ?_, ?_, ?_⟩
  · cases hadr : fn.address with
    | none => simp [compile, hen, hadr] at hc
    | some fun_id =>
      have hc2 : c = .compiled fn fun_id := by
        simp [compile, detail_compile, hen, hadr] at hc
        exact hc.symm
      subst hc2
      simp only [Callable.call]
      have h1 := compiled_fun_flag fn fun_id inputs w2 true
      have h2 := compiled_fun_flag fn fun_id inputs w2 false
      simp only [disable_compile, enable_compile]
      rw [h1, h2]
  · simp [compile, disable_compile]
  · simp only [Callable.call]; split <;> rfl
  · simp only [Callable.call]; split <;> rfl
  · simp only [Callable.call]; split <;> simp_all

theorem disable_flag_is_read_by_compile_witness :
    (Callable.compiled f_twice 10).call [0] (disable_compile world0) =
      (disable_compile ((Callable.compiled f_twice 10).call [0] (enable_compile world0)).1,
        ((Callable.compiled f_twice 10).call [0] (enable_compile world0)).2) :=
  (disable_flag_is_read_by_compile f_twice world0 (.compiled f_twice 10) rfl rfl [0] world0).1

/-! ## What `fuse` leaves alone -/

theorem Heap.SameFrame.refl (h : Heap) : h.SameFrame h := ⟨rfl, fun _ => rfl⟩

theorem Heap.SameFrame.trans {h1 h2 h3 : Heap} (a : h1.SameFrame h2) (b : h2.SameFrame h3) :
    h1.SameFrame h3 := ⟨b.1.trans a.1, fun x => (b.2 x).trans (a.2 x)⟩

theorem Heap.SameFrame.symm {h1 h2 : Heap} (a : h1.SameFrame h2) : h2.SameFrame h1 :=
  ⟨a.1.symm, fun x => (a.2 x).symm⟩

theorem set_input_frame (h : Heap) (a : ArrId) (k : Nat) (v : ArrId) :
    h.SameFrame (h.set_input a k v) := by
  refine ⟨rfl, ?_⟩
  intro x
  unfold Heap.set_input
  by_cases hx : x = a
  · subst hx; simp [ArrayDesc.frame]
  · simp [Function.update_noteq hx]

theorem Heap.SameFrame.inputs_length {h h2 : Heap} (f : h.SameFrame h2) (x : ArrId) :
    (h2.inputs x).length = (h.inputs x).length := by
  have e := congrArg (fun d => d.inputs.length) (f.2 x)
  simpa [ArrayDesc.frame] using e

theorem Heap.SameFrame.evaled {h h2 : Heap} (f : h.SameFrame h2) (x : ArrId) :
    (h2.desc x).evaled = (h.desc x).evaled := by
  have e := congrArg ArrayDesc.evaled (f.2 x)
  exact e

theorem Heap.SameFrame.shape {h h2 : Heap} (f : h.SameFrame h2) (x : ArrId) :
    h2.shape x = h.shape x := by
  have e := congrArg ArrayDesc.shape (f.2 x)
  exact e

theorem Heap.SameFrame.dtype {h h2 : Heap} (f : h.SameFrame h2) (x : ArrId) :
    h2.dtype x = h.dtype x := by
  have e := congrArg ArrayDesc.dtype (f.2 x)
  exact e

theorem Heap.SameFrame.data {h h2 : Heap} (f : h.SameFrame h2) (x : ArrId) :
    (h2.desc x).data = (h.desc x).data := by
  have e := congrArg ArrayDesc.data (f.2 x)
  exact e

theorem Heap.SameFrame.primitive {h h2 : Heap} (f : h.SameFrame h2) (x : ArrId) :
    h2.primitive x = h.primitive x := by
  have e := congrArg ArrayDesc.primitive (f.2 x)
  exact e

theorem Heap.SameFrame.siblings {h h2 : Heap} (f : h.SameFrame h2) (x : ArrId) :
    h2.siblings x = h.siblings x := by
  have e := congrArg ArrayDesc.siblings (f.2 x)
  exact e

theorem Heap.SameFrame.position {h h2 : Heap} (f : h.SameFrame h2) (x : ArrId) :
    (h2.desc x).position = (h.desc x).position := by
  have e := congrArg ArrayDesc.position (f.2 x)
  exact e

theorem Heap.SameFrame.outputs {h h2 : Heap} (f : h.SameFrame h2) (x : ArrId) :
    h2.outputs x = h.outputs x := by
  have h1 := f.siblings x
  have h3 := f.position x
  unfold Heap.siblings at h1
  unfold Heap.outputs
  rw [h1, h3]

theorem Heap.SameFrame.is_scalar {h h2 : Heap} (f : h.SameFrame h2) (x : ArrId) :
    is_scalar h2 x = is_scalar h x := by
  have h1 := f.evaled x
  have h3 := f.shape x
  unfold Heap.shape at h3
  unfold Mlx.is_scalar Heap.is_evaled Heap.ndim
  rw [h1, h3]

theorem Heap.SameFrame.get_scalar_rep {h h2 : Heap} (f : h.SameFrame h2) (x : ArrId) :
    get_scalar_rep h2 x = get_scalar_rep h x := by
  have h1 := f.data x
  have h3 := f.dtype x
  unfold Mlx.get_scalar_rep
  rw [h1, h3]

theorem fuse_output_inner_frame (h0 : Heap) (d : ArrId) (ps : List (ArrId × Nat)) (acc : Simp)
    (hacc : h0.SameFrame acc.heap) :
    h0.SameFrame (ps.foldl (repoint d) acc).heap := by
  induction ps generalizing acc with
  | nil => exact hacc
  | cons p rest ih =>
    simp only [List.foldl_cons]
    apply ih
    exact hacc.trans (set_input_frame _ _ _ _)

theorem fuse_output_inner_tape (d : ArrId) (ps : List (ArrId × Nat)) (acc : Simp) :
    (ps.foldl (repoint d) acc).tape = acc.tape := by
  induction ps generalizing acc with
  | nil => rfl
  | cons p rest ih =>
    simp only [List.foldl_cons]
    rw [ih]
    rfl

theorem fuse_output_frame (s : Simp) (e : ArrId × ArrId) :
    s.heap.SameFrame (fuse_output s e).heap := by
  unfold fuse_output
  split
  · exact Heap.SameFrame.refl _
  · exact fuse_output_inner_frame _ _ _ _ (Heap.SameFrame.refl _)

theorem fuse_output_tape (s : Simp) (e : ArrId × ArrId) : (fuse_output s e).tape = s.tape := by
  unfold fuse_output
  split
  · rfl
  · simp only [fuse_output_inner_tape]

theorem fuse_outputs_frame (l : List (ArrId × ArrId)) (s : Simp) :
    s.heap.SameFrame (l.foldl fuse_output s).heap ∧ (l.foldl fuse_output s).tape = s.tape := by
  induction l generalizing s with
  | nil => exact ⟨Heap.SameFrame.refl _, rfl⟩
  | cons e rest ih =>
    simp only [List.foldl_cons]
    obtain ⟨h1, h2⟩ := ih (fuse_output s e)
    exact ⟨(fuse_output_frame s e).trans h1, h2.trans (fuse_output_tape s e)⟩

theorem fuse_frame (s : Simp) (dst src : ArrId) : s.heap.SameFrame (fuse s dst src).heap :=
  (fuse_outputs_frame _ s).1

theorem fuse_tape (s : Simp) (dst src : ArrId) : (fuse s dst src).tape = s.tape :=
  (fuse_outputs_frame _ s).2

/-! ## Pass 0 -/

theorem scalars_find_append (m : ScalarMap) (k k2 : Nat × Nat) (a : ArrId) :
    scalars_find (m ++ [(k, a)]) k2 =
      match scalars_find m k2 with
      | some v => some v
      | none => if k = k2 then some a else none := by
  induction m with
  | nil => simp [scalars_find]
  | cons e rest ih =>
    obtain ⟨k', v⟩ := e
    by_cases h : k' = k2
    · simp [scalars_find, h]
    · simp [scalars_find, h, ih]

theorem scalars_find_insert (m : ScalarMap) (k k2 : Nat × Nat) (a : ArrId) :
    scalars_find (scalars_insert m k a) k2 =
      match scalars_find m k2 with
      | some v => some v
      | none => if k = k2 then some a else none := by
  unfold scalars_insert
  cases hk : scalars_find m k with
  | some v =>
    simp only
    cases hk2 : scalars_find m k2 with
    | some v2 => rfl
    | none =>
      have : k ≠ k2 := by
        intro e; rw [e] at hk; rw [hk] at hk2; cases hk2
      simp [this]
  | none => simp only [scalars_find_append]

/-- The representative stored for a key is the first scalar of the tape that
has the key. -/
theorem scalars_find_collect (h : Heap) (tape : List ArrId) (m : ScalarMap) (k : Nat × Nat) :
    scalars_find
      (tape.foldl
        (fun m a => if is_scalar h a then scalars_insert m (get_scalar_rep h a) a else m) m) k =
      match scalars_find m k with
      | some v => some v
      | none => tape.find? (fun a => is_scalar h a && decide (get_scalar_rep h a = k)) := by
  induction tape generalizing m with
  | nil =>
    simp only [List.foldl_nil, List.find?_nil]
    cases scalars_find m k <;> rfl
  | cons a rest ih =>
    simp only [List.foldl_cons, List.find?_cons]
    rw [ih]
    by_cases hs : is_scalar h a = true
    · simp only [hs, if_true, scalars_find_insert, Bool.true_and]
      cases hm : scalars_find m k with
      | some v => rfl
      | none =>
        by_cases hk : get_scalar_rep h a = k
        · simp [hk]
        · simp [hk]
    · simp only [hs, Bool.false_eq_true, if_false, Bool.false_and]

/-- After pass 0 the tape is the original tape without the scalars that have
another array as representative; the test is the one on the original heap. -/
theorem fuse_scalars_fold (h0 : Heap) (sc : ScalarMap) (l : List ArrId) (acc : Simp)
    (hacc : h0.SameFrame acc.heap) :
    (l.foldl (fuse_scalar_step sc) acc).tape = acc.tape ++ l.filter (keeps_scalar h0 sc) ∧
    h0.SameFrame (l.foldl (fuse_scalar_step sc) acc).heap := by
  induction l generalizing acc with
  | nil => simp [hacc]
  | cons a rest ih =>
    simp only [List.foldl_cons]
    have hstep : (fuse_scalar_step sc acc a).tape =
        acc.tape ++ (if keeps_scalar h0 sc a then [a] else []) ∧
        h0.SameFrame (fuse_scalar_step sc acc a).heap := by
      unfold fuse_scalar_step keeps_scalar
      rw [hacc.is_scalar a, hacc.get_scalar_rep a]
      by_cases hs : is_scalar h0 a = true
      · simp only [hs, if_true]
        cases hf : scalars_find sc (get_scalar_rep h0 a) with
        | none => simp [hacc]
        | some rep =>
          by_cases hr : rep = a
          · simp [hr, hacc]
          · simp only [ne_eq, hr, not_false_eq_true, if_true, decide_False, Bool.false_eq_true,
              if_false, List.append_nil]
            exact ⟨fuse_tape _ _ _, hacc.trans (fuse_frame _ _ _)⟩
      · simp [hs, hacc]
    obtain ⟨h1, h2⟩ := ih (fuse_scalar_step sc acc a) hstep.2
    refine ⟨?_, h2⟩
    rw [h1, hstep.1, List.filter_cons]
    by_cases hk : keeps_scalar h0 sc a = true
    · simp [hk]
    · simp [hk]

theorem fuse_scalars_tape (s : Simp) :
    (fuse_scalars s).tape = s.tape.filter (keeps_scalar s.heap (collect_scalars s.heap s.tape)) := by
  unfold fuse_scalars
  have := (fuse_scalars_fold s.heap (collect_scalars s.heap s.tape) s.tape
    { s with tape := [] } (Heap.SameFrame.refl _)).1
  simpa using this

theorem compile_simplify_zero (s : Simp) (outputs : List ArrId) :
    compile_simplify s outputs 0 = fuse_scalars s := rfl

/-- C7, counterexample: in the tape of `f(x) = ((x + 2.0f) + 2.0f) + 2.0f` the
second and the third constant (arrays 4 and 6) are two distinct evaluated
zero-dimensional arrays with the same dtype and bits; after pass 0 neither of
the two is in the tape, both were fused into the first constant (array 2). -/
theorem pass0_drops_both_of_two_equal_scalars :
    compile_dfs 9 (traced f_three) [1] [7] =
      some ([1, 2, 3, 4, 5, 6, 7],
        [(5, [(7, 0)]), (3, [(5, 0)]), (1, [(3, 0)]), (2, [(3, 1)]), (4, [(5, 1)]),
         (6, [(7, 1)])]) ∧
    is_scalar (traced f_three) 4 = true ∧ is_scalar (traced f_three) 6 = true ∧
    (traced f_three).dtype 4 = (traced f_three).dtype 6 ∧
    ((traced f_three).desc 4).data = ((traced f_three).desc 6).data ∧
    (compile_simplify
      { heap := traced f_three,
        parents_map := [(5, [(7, 0)]), (3, [(5, 0)]), (1, [(3, 0)]), (2, [(3, 1)]),
          (4, [(5, 1)]), (6, [(7, 1)])],
        tape := [1, 2, 3, 4, 5, 6, 7] } [7] 0).tape = [1, 2, 3, 5, 7] ∧
    ¬ ((4 ∈ [1, 2, 3, 5, 7] ∧ 6 ∉ [1, 2, 3, 5, 7]) ∨ (4 ∉ [1, 2, 3, 5, 7] ∧ 6 ∈ [1, 2, 3, 5, 7])) := by
  refine ⟨rfl, rfl, rfl, rfl, rfl, rfl, by decide⟩

theorem get_scalar_rep_congr (h : Heap) (a b : ArrId) (hdt : h.dtype a = h.dtype b)
    (hbits : (h.desc a).data = (h.desc b).data) : get_scalar_rep h a = get_scalar_rep h b := by
  unfold get_scalar_rep
  rw [hdt, hbits]

/-- C7, as the code behaves: let `a` and `b` be two distinct evaluated
zero-dimensional arrays with the same dtype and the same bits, `a` standing in
the tape with no scalar of the same key (dtype discriminant and bits as
`get_scalar_rep` reads them) before it.  After pass 0 `a` is in the tape and
`b`, wherever it stood, is not. -/
theorem pass0_keeps_first_of_equal_scalars (s : Simp) (outputs pre rest : List ArrId)
    (a b : ArrId) (htape : s.tape = pre ++ a :: rest) (hne : a ≠ b)
    (hsa : is_scalar s.heap a = true) (hsb : is_scalar s.heap b = true)
    (hdt : s.heap.dtype a = s.heap.dtype b)
    (hbits : (s.heap.desc a).data = (s.heap.desc b).data)
    (hfirst : ∀ c ∈ pre, is_scalar s.heap c = true →
      get_scalar_rep s.heap c ≠ get_scalar_rep s.heap a) :
    a ∈ (compile_simplify s outputs 0).tape ∧ b ∉ (compile_simplify s outputs 0).tape := by
  rw [compile_simplify_zero, fuse_scalars_tape]
  have hrep : scalars_find (collect_scalars s.heap s.tape) (get_scalar_rep s.heap a) = some a := by
    unfold collect_scalars
    rw [scalars_find_collect]
    simp only [scalars_find, htape, List.find?_append, List.find?_cons]
    have hpre : pre.find?
        (fun c => is_scalar s.heap c && decide (get_scalar_rep s.heap c = get_scalar_rep s.heap a))
        = none := by
      rw [List.find?_eq_none]
      intro c hc
      by_cases hs : is_scalar s.heap c = true
      · simp [hs, hfirst c hc hs]
      · simp [hs]
    rw [hpre]
    simp [hsa]
  have hka : keeps_scalar s.heap (collect_scalars s.heap s.tape) a = true := by
    unfold keeps_scalar
    simp [hsa, hrep]
  have hkb : keeps_scalar s.heap (collect_scalars s.heap s.tape) b = false := by
    unfold keeps_scalar
    rw [← get_scalar_rep_congr s.heap a b hdt hbits]
    simp [hsb, hrep, hne]
  constructor
  · rw [List.mem_filter]
    exact ⟨by rw [htape]; simp, hka⟩
  · rw [List.mem_filter]
    intro hmem
    rw [hkb] at hmem
    exact Bool.noConfusion hmem.2

theorem pass0_keeps_first_of_equal_scalars_witness :
    2 ∈ (compile_simplify
      { heap := traced f_scalars, parents_map := [(1, [(3, 0)]), (2, [(3, 1)])],
        tape := [1, 2, 3, 4] } [3, 4] 0).tape ∧
    4 ∉ (compile_simplify
      { heap := traced f_scalars, parents_map := [(1, [(3, 0)]), (2, [(3, 1)])],
        tape := [1, 2, 3, 4] } [3, 4] 0).tape :=
  pass0_keeps_first_of_equal_scalars
    { heap := traced f_scalars, parents_map := [(1, [(3, 0)]), (2, [(3, 1)])],
      tape := [1, 2, 3, 4] } [3, 4] [1] [3, 4] 2 4 rfl (by decide) rfl rfl rfl rfl
    (by decide)

/-! ## The parents map as a finite map -/

theorem pm_find_update (pm : ParentsMap) (k k2 : ArrId)
    (f : List (ArrId × Nat) → List (ArrId × Nat)) :
    pm_find (pm_update pm k f) k2 =
      if k2 = k then some (f ((pm_find pm k).getD [])) else pm_find pm k2 := by
  induction pm with
  | nil =>
    by_cases h : k2 = k
    · subst h; simp [pm_update, pm_find]
    · simp [pm_update, pm_find, h, Ne.symm h]
  | cons e rest ih =>
    obtain ⟨k', l⟩ := e
    by_cases h1 : k' = k
    · subst h1
      by_cases h2 : k2 = k'
      · subst h2; simp [pm_update, pm_find]
      · simp [pm_update, pm_find, h2, Ne.symm h2]
    · by_cases h2 : k2 = k
      · subst h2
        simp [pm_update, pm_find, h1, ih]
      · by_cases h3 : k' = k2
        · simp [pm_update, pm_find, h1, h2, h3]
        · simp [pm_update, pm_find, h1, h2, h3, ih]

theorem pm_find_push (pm : ParentsMap) (k k2 : ArrId) (v : ArrId × Nat) :
    pm_find (pm_push pm k v) k2 =
      if k2 = k then some ((pm_find pm k).getD [] ++ [v]) else pm_find pm k2 :=
  pm_find_update pm k k2 _

theorem pm_find_erase (pm : ParentsMap) (k k2 : ArrId) :
    pm_find (pm_erase pm k) k2 = if k2 = k then none else pm_find pm k2 := by
  induction pm with
  | nil => simp [pm_erase, pm_find]
  | cons e rest ih =>
    obtain ⟨k', l⟩ := e
    by_cases h1 : k' = k
    · subst h1
      by_cases h2 : k2 = k'
      · subst h2; simpa [pm_erase, pm_find] using ih
      · simp [pm_erase, pm_find, ih, h2, Ne.symm h2]
    · by_cases h2 : k2 = k
      · subst h2
        simp [pm_erase, pm_find, h1, ih]
      · by_cases h3 : k' = k2
        · simp [pm_erase, pm_find, h1, h2, h3]
        · simp [pm_erase, pm_find, h1, h2, h3, ih]

theorem pm_update_same (pm : ParentsMap) (k : ArrId)
    (f : List (ArrId × Nat) → List (ArrId × Nat)) (l : List (ArrId × Nat))
    (hk : pm_find pm k = some l) (hf : f l = l) : pm_update pm k f = pm := by
  induction pm with
  | nil => simp [pm_find] at hk
  | cons e rest ih =>
    obtain ⟨k', l'⟩ := e
    by_cases h1 : k' = k
    · subst h1
      simp only [pm_find, if_true, Option.some.injEq] at hk
      subst hk
      simp [pm_update, hf]
    · simp only [pm_find, h1, if_false] at hk
      simp [pm_update, h1, ih hk]

/-! ## The heap under `set_input` -/

theorem inputs_set_input (h : Heap) (a q : ArrId) (k : Nat) (v : ArrId) :
    (h.set_input a k v).inputs q = if q = a then (h.inputs a).set k v else h.inputs q := by
  unfold Heap.set_input Heap.inputs
  by_cases hq : q = a
  · subst hq; simp
  · simp [Function.update_noteq hq, hq]

theorem slot_set_input (h : Heap) (a q : ArrId) (k i : Nat) (v : ArrId) :
    ((h.set_input a k v).inputs q)[i]? =
      if q = a ∧ i = k ∧ k < (h.inputs a).length then some v else (h.inputs q)[i]? := by
  rw [inputs_set_input]
  by_cases hq : q = a
  · subst hq
    simp only [if_true, true_and]
    rw [List.getElem?_set]
    by_cases hk : k = i
    · subst hk
      by_cases hl : k < (h.inputs q).length
      · simp [hl]
      · simp [hl, Nat.le_of_not_lt hl]
    · simp [hk, Ne.symm hk]
  · simp [hq]

/-! ## What `fuse` does to the parents map and to the input slots -/

theorem repoint_fold_find (d : ArrId) (ps : List (ArrId × Nat)) (acc : Simp)
    (l0 : List (ArrId × Nat)) (hd : pm_find acc.parents_map d = some l0) (x : ArrId) :
    pm_find (ps.foldl (repoint d) acc).parents_map x =
      if x = d then some (l0 ++ ps) else pm_find acc.parents_map x := by
  induction ps generalizing acc l0 with
  | nil =>
    by_cases hx : x = d
    · subst hx; simp [hd]
    · simp [hx]
  | cons p rest ih =>
    simp only [List.foldl_cons]
    have hd2 : pm_find (repoint d acc p).parents_map d = some (l0 ++ [p]) := by
      simp [repoint, pm_find_push, hd]
    rw [ih (repoint d acc p) (l0 ++ [p]) hd2]
    by_cases hx : x = d
    · simp [hx]
    · simp [hx, repoint, pm_find_push]

theorem repoint_fold_length (d : ArrId) (ps : List (ArrId × Nat)) (acc : Simp) (q : ArrId) :
    ((ps.foldl (repoint d) acc).heap.inputs q).length = (acc.heap.inputs q).length := by
  induction ps generalizing acc with
  | nil => rfl
  | cons p rest ih =>
    simp only [List.foldl_cons]
    rw [ih]
    simp only [repoint, inputs_set_input]
    split
    · rename_i hq; subst hq; simp
    · rfl

theorem repoint_fold_slot (d : ArrId) (ps : List (ArrId × Nat)) (acc : Simp) (q : ArrId)
    (i : Nat) :
    ((ps.foldl (repoint d) acc).heap.inputs q)[i]? =
      if (q, i) ∈ ps ∧ i < (acc.heap.inputs q).length then some d
      else (acc.heap.inputs q)[i]? := by
  induction ps generalizing acc with
  | nil => simp
  | cons p rest ih =>
    simp only [List.foldl_cons]
    rw [ih]
    have hlen : ((repoint d acc p).heap.inputs q).length = (acc.heap.inputs q).length := by
      simp only [repoint, inputs_set_input]
      split
      · rename_i hq; subst hq; simp
      · rfl
    rw [hlen]
    have hslot : ((repoint d acc p).heap.inputs q)[i]? =
        if q = p.1 ∧ i = p.2 ∧ p.2 < (acc.heap.inputs p.1).length then some d
        else (acc.heap.inputs q)[i]? := by
      simp only [repoint]
      exact slot_set_input _ _ _ _ _ _
    rw [hslot]
    obtain ⟨p1, p2⟩ := p
    by_cases hin : (q, i) ∈ rest ∧ i < (acc.heap.inputs q).length
    · have : (q, i) ∈ (p1, p2) :: rest ∧ i < (acc.heap.inputs q).length :=
        ⟨List.mem_cons_of_mem _ hin.1, hin.2⟩
      simp [hin, this]
    · rw [if_neg hin]
      by_cases hp : q = p1 ∧ i = p2 ∧ p2 < (acc.heap.inputs p1).length
      · obtain ⟨h1, h2, h3⟩ := hp
        subst h1 h2
        simp [h3]
      · rw [if_neg hp]
        have : ¬ ((q, i) ∈ (p1, p2) :: rest ∧ i < (acc.heap.inputs q).length) := by
          rintro ⟨hm, hl⟩
          rcases List.mem_cons.mp hm with heq | hm2
          · injection heq with h1 h2
            subst h1 h2
            exact hp ⟨rfl, rfl, hl⟩
          · exact hin ⟨hm2, hl⟩
        rw [if_neg this]

/-- The parents map after `fuse_output` at the pair (source, destination). -/
theorem fuse_output_find (s : Simp) (e : ArrId × ArrId) (ps : List (ArrId × Nat))
    (hs : pm_find s.parents_map e.1 = some ps) (x : ArrId) :
    pm_find (fuse_output s e).parents_map x =
      if x = e.1 then none
      else if x = e.2 then some ((pm_find s.parents_map e.2).getD [] ++ ps)
      else pm_find s.parents_map x := by
  unfold fuse_output
  simp only [hs]
  rw [pm_find_erase]
  by_cases h1 : x = e.1
  · simp [h1]
  · simp only [h1, if_false]
    rw [repoint_fold_find e.2 ps _ ((pm_find s.parents_map e.2).getD [])
      (by simp [pm_find_update])]
    by_cases h2 : x = e.2
    · simp [h2]
    · simp [h2, pm_find_update]

theorem fuse_output_find_none (s : Simp) (e : ArrId × ArrId)
    (hs : pm_find s.parents_map e.1 = none) : fuse_output s e = s := by
  unfold fuse_output
  simp only [hs]

/-- The input slots after `fuse_output`. -/
theorem fuse_output_slot (s : Simp) (e : ArrId × ArrId) (ps : List (ArrId × Nat))
    (hs : pm_find s.parents_map e.1 = some ps) (q : ArrId) (i : Nat) :
    ((fuse_output s e).heap.inputs q)[i]? =
      if (q, i) ∈ ps ∧ i < (s.heap.inputs q).length then some e.2
      else (s.heap.inputs q)[i]? := by
  unfold fuse_output
  simp only [hs]
  rw [repoint_fold_slot]

theorem fuse_output_sound (s : Simp) (e : ArrId × ArrId)
    (hsound : ParentsSound s.heap s.parents_map) :
    ParentsSound (fuse_output s e).heap (fuse_output s e).parents_map := by
  cases hs : pm_find s.parents_map e.1 with
  | none => rw [fuse_output_find_none s e hs]; exact hsound
  | some ps =>
    intro x l hx p hp
    rw [fuse_output_find s e ps hs] at hx
    rw [fuse_output_slot s e ps hs]
    by_cases h1 : x = e.1
    · simp [h1] at hx
    · simp only [h1, if_false] at hx
      by_cases h2 : x = e.2
      · simp only [h2, if_true, Option.some.injEq] at hx
        subst hx
        rcases List.mem_append.mp hp with hp0 | hp1
        · -- an old parent of the destination
          cases hd : pm_find s.parents_map e.2 with
          | none => simp [hd] at hp0
          | some l0 =>
            simp only [hd, Option.getD_some] at hp0
            have := hsound e.2 l0 hd p hp0
            split
            · simp [h2]
            · rw [this, h2]
        · -- a parent moved over from the source
          have hslot := hsound e.1 ps hs p hp1
          have hlt : p.2 < (s.heap.inputs p.1).length := by
            by_contra hc
            rw [List.getElem?_eq_none (Nat.le_of_not_lt hc)] at hslot
            cases hslot
          have : (p.1, p.2) ∈ ps ∧ p.2 < (s.heap.inputs p.1).length := ⟨hp1, hlt⟩
          rw [if_pos this, h2]
      · simp only [h2, if_false] at hx
        have hslot := hsound x l hx p hp
        have : ¬ ((p.1, p.2) ∈ ps ∧ p.2 < (s.heap.inputs p.1).length) := by
          rintro ⟨hm, _⟩
          have h3 := hsound e.1 ps hs p hm
          rw [hslot] at h3
          injection h3 with h3
          exact h1 h3
        rw [if_neg this, hslot]

theorem fuse_sound (s : Simp) (dst src : ArrId) (hsound : ParentsSound s.heap s.parents_map) :
    ParentsSound (fuse s dst src).heap (fuse s dst src).parents_map := by
  unfold fuse
  generalize (s.heap.outputs src).zip (s.heap.outputs dst) = l
  induction l generalizing s with
  | nil => exact hsound
  | cons e rest ih =>
    simp only [List.foldl_cons]
    exact ih _ (fuse_output_sound s e hsound)

/-! ## Soundness of the parents map through `compile_simplify` -/

theorem foldl_inv {α β : Type} (P : β → Prop) (f : β → α → β) (l : List α) (b : β)
    (hb : P b) (hstep : ∀ b a, a ∈ l → P b → P (f b a)) : P (l.foldl f b) := by
  induction l generalizing b with
  | nil => exact hb
  | cons a rest ih =>
    simp only [List.foldl_cons]
    exact ih _ (hstep b a (List.mem_cons_self _ _) hb)
      (fun b2 a2 ha2 hb2 => hstep b2 a2 (List.mem_cons_of_mem _ ha2) hb2)

theorem erase_masked_succ (mask : List Nat) (n : Nat) (l : List (ArrId × Nat)) :
    erase_masked mask (n + 1) l =
      erase_masked mask n (if 0 < n ∧ n ∈ mask then l.eraseIdx n else l) := by
  unfold erase_masked
  rw [List.range_succ, List.reverse_append]
  simp

theorem erase_masked_sublist (mask : List Nat) (n : Nat) (l : List (ArrId × Nat)) :
    (erase_masked mask n l).Sublist l := by
  induction n generalizing l with
  | zero => simp [erase_masked]
  | succ n ih =>
    rw [erase_masked_succ]
    split
    · exact (ih _).trans (List.eraseIdx_sublist _ _)
    · exact ih _

theorem fuse_pair_sound (l : List (ArrId × Nat)) (i : Nat) (acc : Simp × List Nat) (j : Nat)
    (h : ParentsSound acc.1.heap acc.1.parents_map) :
    ParentsSound (fuse_pair l i acc j).1.heap (fuse_pair l i acc j).1.parents_map := by
  unfold fuse_pair
  split
  · exact h
  · dsimp only
    split
    · exact fuse_sound _ _ _ h
    · exact h

theorem fuse_row_sound (l : List (ArrId × Nat)) (acc : Simp × List Nat) (i : Nat)
    (h : ParentsSound acc.1.heap acc.1.parents_map) :
    ParentsSound (fuse_row l acc i).1.heap (fuse_row l acc i).1.parents_map := by
  unfold fuse_row
  split
  · exact h
  · exact foldl_inv (fun (a : Simp × List Nat) => ParentsSound a.1.heap a.1.parents_map)
      _ _ _ h (fun b a _ hb => fuse_pair_sound l i b a hb)

theorem update_sublist_sound (h : Heap) (pm : ParentsMap) (a : ArrId)
    (f : List (ArrId × Nat) → List (ArrId × Nat)) (l0 : List (ArrId × Nat))
    (hfind : pm_find pm a = some l0) (hsub : (f l0).Sublist l0) (hs : ParentsSound h pm) :
    ParentsSound h (pm_update pm a f) := by
  intro x l hx e he
  rw [pm_find_update] at hx
  by_cases hxa : x = a
  · subst hxa
    simp only [if_true, hfind, Option.getD_some, Option.some.injEq] at hx
    subst hx
    exact hs x l0 hfind e (hsub.subset he)
  · simp only [hxa, if_false] at hx
    exact hs x l hx e he

theorem maybe_fuse_parents_sound (output_set : List ArrId) (s : Simp) (a : ArrId)
    (h : ParentsSound s.heap s.parents_map) :
    ParentsSound (maybe_fuse_parents output_set s a).1.heap
      (maybe_fuse_parents output_set s a).1.parents_map := by
  unfold maybe_fuse_parents
  split
  · rename_i l hl
    dsimp only
    have hloop : ParentsSound ((List.range l.length).foldl (fuse_row l) (s, [])).1.heap
        ((List.range l.length).foldl (fuse_row l) (s, [])).1.parents_map :=
      foldl_inv (fun (a : Simp × List Nat) => ParentsSound a.1.heap a.1.parents_map) _ _ _ h
        (fun b a _ hb => fuse_row_sound l b a hb)
    split
    · rename_i live hlive
      exact update_sublist_sound _ _ _ _ live hlive (erase_masked_sublist _ _ _) hloop
    · exact hloop
  · exact h

theorem simplify_visit_sound (output_set : List ArrId) (s : Simp) (arr : ArrId)
    (h : ParentsSound s.heap s.parents_map) :
    ParentsSound (simplify_visit output_set s arr).heap
      (simplify_visit output_set s arr).parents_map := by
  unfold simplify_visit
  dsimp only
  have hsib : ParentsSound
      ((s.heap.siblings arr).foldl
        (fun (p : Simp × Bool) sib =>
          ((maybe_fuse_parents output_set p.1 sib).1,
            p.2 && (maybe_fuse_parents output_set p.1 sib).2))
        (maybe_fuse_parents output_set s arr)).1.heap
      ((s.heap.siblings arr).foldl
        (fun (p : Simp × Bool) sib =>
          ((maybe_fuse_parents output_set p.1 sib).1,
            p.2 && (maybe_fuse_parents output_set p.1 sib).2))
        (maybe_fuse_parents output_set s arr)).1.parents_map :=
    foldl_inv (fun (a : Simp × Bool) => ParentsSound a.1.heap a.1.parents_map) _ _ _
      (maybe_fuse_parents_sound output_set s arr h)
      (fun b a _ hb => maybe_fuse_parents_sound output_set b.1 a hb)
  split
  · exact hsib
  · exact hsib

theorem simplify_pass_sound (output_set : List ArrId) (s : Simp)
    (h : ParentsSound s.heap s.parents_map) :
    ParentsSound (simplify_pass output_set s).heap (simplify_pass output_set s).parents_map := by
  unfold simplify_pass
  have h0 : ParentsSound ({ s with tape := [] } : Simp).heap
      ({ s with tape := [] } : Simp).parents_map := h
  exact foldl_inv (fun (a : Simp) => ParentsSound a.heap a.parents_map) _ _ _ h0
    (fun b a _ hb => simplify_visit_sound output_set b a hb)

theorem fuse_scalar_step_sound (sc : ScalarMap) (s : Simp) (arr : ArrId)
    (h : ParentsSound s.heap s.parents_map) :
    ParentsSound (fuse_scalar_step sc s arr).heap (fuse_scalar_step sc s arr).parents_map := by
  unfold fuse_scalar_step
  split
  · split
    · split
      · exact fuse_sound _ _ _ h
      · exact h
    · exact h
  · exact h

theorem fuse_scalars_sound (s : Simp) (h : ParentsSound s.heap s.parents_map) :
    ParentsSound (fuse_scalars s).heap (fuse_scalars s).parents_map := by
  unfold fuse_scalars
  have h0 : ParentsSound ({ s with tape := [] } : Simp).heap
      ({ s with tape := [] } : Simp).parents_map := h
  exact foldl_inv (fun (a : Simp) => ParentsSound a.heap a.parents_map) _ _ _ h0
    (fun b a _ hb => fuse_scalar_step_sound _ b a hb)

theorem compile_simplify_sound (s : Simp) (outputs : List ArrId) (passes : Nat)
    (h : ParentsSound s.heap s.parents_map) :
    ParentsSound (compile_simplify s outputs passes).heap
      (compile_simplify s outputs passes).parents_map := by
  unfold compile_simplify
  induction passes with
  | zero => exact fuse_scalars_sound s h
  | succ n ih =>
    rw [Function.iterate_succ_apply']
    exact simplify_pass_sound outputs _ ih

/-! ## The traversal `compile_dfs` -/

theorem foldlM_option_inv {α σ : Type} (P : List α → σ → Prop) (f : σ → α → Option σ)
    (l : List α) (s r : σ) (pre : List α) (hs : P pre s) (hr : l.foldlM f s = some r)
    (hstep : ∀ p a s s2, a ∈ l → P p s → f s a = some s2 → P (p ++ [a]) s2) :
    P (pre ++ l) r := by
  induction l generalizing s pre with
  | nil =>
    simp only [List.foldlM_nil] at hr
    cases hr
    simpa using hs
  | cons a rest ih =>
    simp only [List.foldlM_cons] at hr
    cases hfa : f s a with
    | none => simp [hfa] at hr
    | some s2 =>
      simp only [hfa, Option.bind_eq_bind, Option.some_bind] at hr
      have h2 := hstep pre a s s2 (List.mem_cons_self _ _) hs hfa
      have h3 := ih s2 (pre ++ [a]) h2 hr
        (fun p a2 s3 s4 ha2 => hstep p a2 s3 s4 (List.mem_cons_of_mem _ ha2))
      simpa using h3

theorem ParentsGrow.same (pm : ParentsMap) : ParentsGrow pm pm :=
  fun _ l hl => ⟨l, hl, fun _ he => he⟩

theorem ParentsGrow.chain {a b c : ParentsMap} (h1 : ParentsGrow a b) (h2 : ParentsGrow b c) :
    ParentsGrow a c := by
  intro x l hl
  obtain ⟨l2, hl2, hsub⟩ := h1 x l hl
  obtain ⟨l3, hl3, hsub3⟩ := h2 x l2 hl2
  exact ⟨l3, hl3, fun e he => hsub3 e (hsub e he)⟩

theorem pm_push_grow (pm : ParentsMap) (k : ArrId) (v : ArrId × Nat) :
    ParentsGrow pm (pm_push pm k v) := by
  intro x l hl
  rw [pm_find_push]
  by_cases hx : x = k
  · subst hx
    exact ⟨l ++ [v], by simp [hl], fun e he => List.mem_append_left _ he⟩
  · exact ⟨l, by simp [hx, hl], fun _ he => he⟩

theorem pm_push_mem (pm : ParentsMap) (k : ArrId) (v : ArrId × Nat) :
    ∃ l, pm_find (pm_push pm k v) k = some l ∧ v ∈ l :=
  ⟨(pm_find pm k).getD [] ++ [v], by simp [pm_find_push], by simp⟩

theorem pm_update_keys (pm : ParentsMap) (k : ArrId)
    (f : List (ArrId × Nat) → List (ArrId × Nat)) :
    (pm_update pm k f).map Prod.fst =
      if k ∈ pm.map Prod.fst then pm.map Prod.fst else pm.map Prod.fst ++ [k] := by
  induction pm with
  | nil => simp [pm_update]
  | cons e rest ih =>
    obtain ⟨k', l⟩ := e
    by_cases h1 : k' = k
    · subst h1; simp [pm_update]
    · have h2 : k ≠ k' := Ne.symm h1
      simp only [pm_update, h1, if_false, List.map_cons, ih, List.mem_cons, h2, false_or]
      split <;> simp

theorem pm_update_nodup (pm : ParentsMap) (k : ArrId)
    (f : List (ArrId × Nat) → List (ArrId × Nat)) (h : KeysNodup pm) :
    KeysNodup (pm_update pm k f) := by
  unfold KeysNodup at *
  rw [pm_update_keys]
  split
  · exact h
  · rename_i hk
    rw [List.nodup_append]
    refine ⟨h, List.nodup_singleton _, ?_⟩
    intro a ha hb
    simp only [List.mem_singleton] at hb
    subst hb
    exact hk ha

theorem pm_erase_keys_sublist (pm : ParentsMap) (k : ArrId) :
    ((pm_erase pm k).map Prod.fst).Sublist (pm.map Prod.fst) := by
  induction pm with
  | nil => simp [pm_erase]
  | cons e rest ih =>
    obtain ⟨k', l⟩ := e
    by_cases h1 : k' = k
    · simp only [pm_erase, h1, if_true, List.map_cons]
      exact ih.trans (List.sublist_cons_self _ _)
    · simp only [pm_erase, h1, if_false, List.map_cons]
      exact ih.cons₂ _

theorem pm_erase_nodup (pm : ParentsMap) (k : ArrId) (h : KeysNodup pm) :
    KeysNodup (pm_erase pm k) :=
  (pm_erase_keys_sublist pm k).nodup h

theorem ParentsSound.push {h : Heap} {pm : ParentsMap} (hs : ParentsSound h pm) (x p : ArrId)
    (i : Nat) (hslot : (h.inputs p)[i]? = some x) : ParentsSound h (pm_push pm x (p, i)) := by
  intro y l hy e he
  rw [pm_find_push] at hy
  by_cases hyx : y = x
  · subst hyx
    simp only [if_true, Option.some.injEq] at hy
    subst hy
    rcases List.mem_append.mp he with h1 | h1
    · cases hf : pm_find pm y with
      | none => simp [hf] at h1
      | some l0 =>
        simp only [hf, Option.getD_some] at h1
        exact hs y l0 hf e h1
    · simp only [List.mem_singleton] at h1
      subst h1
      exact hslot
  · simp only [hyx, if_false] at hy
    exact hs y l hy e he

theorem ParentsComplete.grow {h : Heap} {pm pm2 : ParentsMap} {u : List ArrId}
    (hc : ParentsComplete h pm u) (hg : ParentsGrow pm pm2) : ParentsComplete h pm2 u := by
  intro p hp i x hx
  obtain ⟨l, hl, hmem⟩ := hc p hp i x hx
  obtain ⟨l2, hl2, hsub⟩ := hg x l hl
  exact ⟨l2, hl2, hsub _ hmem⟩

theorem Recorded.of_grow {pm pm2 : ParentsMap} {x : ArrId} {e : ArrId × Nat}
    (hr : Recorded pm x e) (hg : ParentsGrow pm pm2) : Recorded pm2 x e := by
  obtain ⟨l, hl, he⟩ := hr
  obtain ⟨l2, hl2, hsub⟩ := hg x l hl
  exact ⟨l2, hl2, hsub e he⟩

theorem push_siblings_spec (h : Heap) (x : ArrId) (i : Nat) (sibs : List ArrId)
    (pm0 : ParentsMap) :
    ParentsGrow pm0 (sibs.foldl (fun pm sib => pm_push pm x (sib, i)) pm0) ∧
    (∀ sib ∈ sibs, Recorded (sibs.foldl (fun pm sib => pm_push pm x (sib, i)) pm0) x (sib, i)) ∧
    (ParentsSound h pm0 → (∀ sib ∈ sibs, (h.inputs sib)[i]? = some x) →
      ParentsSound h (sibs.foldl (fun pm sib => pm_push pm x (sib, i)) pm0)) ∧
    (KeysNodup pm0 → KeysNodup (sibs.foldl (fun pm sib => pm_push pm x (sib, i)) pm0)) := by
  induction sibs generalizing pm0 with
  | nil => exact ⟨ParentsGrow.same _, by simp, fun hs _ => hs, fun hn => hn⟩
  | cons s rest ih =>
    simp only [List.foldl_cons]
    obtain ⟨g, r, snd, nd⟩ := ih (pm_push pm0 x (s, i))
    refine ⟨(pm_push_grow pm0 x (s, i)).chain g, ?_, ?_, ?_⟩
    · intro sib hsib
      rcases List.mem_cons.mp hsib with h1 | h1
      · subst h1
        obtain ⟨l, hl, hmem⟩ := pm_push_mem pm0 x (sib, i)
        exact Recorded.of_grow ⟨l, hl, hmem⟩ g
      · exact r sib h1
    · intro hs hslots
      exact snd (hs.push x s i (hslots s (List.mem_cons_self _ _)))
        (fun sib hsib => hslots sib (List.mem_cons_of_mem _ hsib))
    · intro hn
      exact nd (pm_update_nodup _ _ _ hn)

theorem record_edge_spec (h : Heap) (hsib : SiblingsShareInputs h) (a : ArrId)
    (pm : ParentsMap) (e : Nat × ArrId) (he : (h.inputs a)[e.1]? = some e.2) :
    ParentsGrow pm (record_edge h a pm e) ∧
    Recorded (record_edge h a pm e) e.2 (a, e.1) ∧
    (∀ sib ∈ h.siblings a, Recorded (record_edge h a pm e) e.2 (sib, e.1)) ∧
    (ParentsSound h pm → ParentsSound h (record_edge h a pm e)) ∧
    (KeysNodup pm → KeysNodup (record_edge h a pm e)) := by
  unfold record_edge
  obtain ⟨g, r, snd, nd⟩ :=
    push_siblings_spec h e.2 e.1 (h.siblings a) (pm_push pm e.2 (a, e.1))
  refine ⟨(pm_push_grow _ _ _).chain g, ?_, r, ?_, ?_⟩
  · obtain ⟨l, hl, hmem⟩ := pm_push_mem pm e.2 (a, e.1)
    exact Recorded.of_grow ⟨l, hl, hmem⟩ g
  · intro hs
    refine snd (hs.push e.2 a e.1 he) ?_
    intro sib hs2
    rw [hsib a sib hs2]
    exact he
  · intro hn
    exact nd (pm_update_nodup _ _ _ hn)

theorem tape_family_append (h : Heap) (t : List ArrId) (a : ArrId) :
    tape_family h (t ++ [a]) = tape_family h t ++ a :: h.siblings a := by
  simp [tape_family, List.flatMap_append]

/-- The invariant of the traversal is kept by `recurse`, which only adds to the
parents map and to the visited set. -/
theorem recurse_inv (h : Heap) (ins : List ArrId) (hsib : SiblingsShareInputs h) :
    ∀ (fuel : Nat) (a : ArrId) (st st2 : DfsState), recurse h ins fuel a st = some st2 →
      DfsInv h st →
      DfsInv h st2 ∧ ParentsGrow st.parents_map st2.parents_map ∧
        (∀ x ∈ st.cache, x ∈ st2.cache) := by
  intro fuel
  induction fuel with
  | zero => intro a st st2 hr; simp [recurse] at hr
  | succ fuel ih =>
    intro a st st2 hr hinv
    simp only [recurse] at hr
    by_cases hc : a ∈ st.cache
    · simp only [hc, if_true, Option.some.injEq] at hr
      subst hr
      exact ⟨hinv, ParentsGrow.same _, fun _ hx => hx⟩
    · simp only [hc, if_false] at hr
      cases hf : (h.inputs a).enum.foldlM
          (dfs_edge h ins a (fun x s => recurse h ins fuel x s)) st with
      | none => simp [hf] at hr
      | some s =>
        simp only [hf, Option.some.injEq] at hr
        subst hr
        have key := foldlM_option_inv
          (fun (pre : List (Nat × ArrId)) (s : DfsState) =>
            DfsInv h s ∧ ParentsGrow st.parents_map s.parents_map ∧
            (∀ x ∈ st.cache, x ∈ s.cache) ∧
            ∀ e ∈ pre, Recorded s.parents_map e.2 (a, e.1) ∧
              ∀ sib ∈ h.siblings a, Recorded s.parents_map e.2 (sib, e.1))
          (dfs_edge h ins a (fun x s => recurse h ins fuel x s))
          (h.inputs a).enum st s []
          ⟨hinv, ParentsGrow.same _, fun _ hx => hx, by simp⟩ hf
          (by
            intro p e s1 s2 he hP hstep
            obtain ⟨hI, hG, hC, hR⟩ := hP
            have hslot : (h.inputs a)[e.1]? = some e.2 := List.mem_enum_iff_getElem?.mp he
            obtain ⟨g, ra, rs, snd, nd⟩ := record_edge_spec h hsib a s1.parents_map e hslot
            have hI1 : DfsInv h { s1 with parents_map := record_edge h a s1.parents_map e } :=
              ⟨snd hI.1, hI.2.1.grow g, hI.2.2.1, nd hI.2.2.2⟩
            unfold dfs_edge at hstep
            dsimp only at hstep
            by_cases hin : a ∈ ins
            · simp only [hin, if_true, Option.some.injEq] at hstep
              subst hstep
              refine ⟨hI1, hG.chain g, hC, ?_⟩
              intro e2 he2
              rcases List.mem_append.mp he2 with h1 | h1
              · exact ⟨(hR e2 h1).1.of_grow g, fun sib hs => ((hR e2 h1).2 sib hs).of_grow g⟩
              · simp only [List.mem_singleton] at h1
                subst h1
                exact ⟨ra, rs⟩
            · simp only [hin, if_false] at hstep
              obtain ⟨hI2, hG2, hC2⟩ := ih e.2 _ s2 hstep hI1
              refine ⟨hI2, (hG.chain g).chain hG2, fun x hx => hC2 x (hC x hx), ?_⟩
              intro e2 he2
              rcases List.mem_append.mp he2 with h1 | h1
              · exact ⟨((hR e2 h1).1.of_grow g).of_grow hG2,
                  fun sib hs => (((hR e2 h1).2 sib hs).of_grow g).of_grow hG2⟩
              · simp only [List.mem_singleton] at h1
                subst h1
                exact ⟨ra.of_grow hG2, fun sib hs => (rs sib hs).of_grow hG2⟩)
        simp only [List.nil_append] at key
        obtain ⟨hI, hG, hC, hR⟩ := key
        refine ⟨⟨hI.1, ?_, ?_, hI.2.2.2⟩, hG, ?_⟩
        · intro p hp i x hx
          simp only [dfs_finish, List.mem_append, List.mem_cons] at hp
          rcases hp with h1 | h1 | h1
          · exact hI.2.1 p h1 i x hx
          · subst h1
            exact (hR (i, x) (List.mem_enum_iff_getElem?.mpr hx)).1
          · have hx2 : (h.inputs a)[i]? = some x := by rw [← hsib a p h1]; exact hx
            exact (hR (i, x) (List.mem_enum_iff_getElem?.mpr hx2)).2 p h1
        · simp only [dfs_finish]
          rw [tape_family_append, hI.2.2.1]
        · intro x hx
          simp only [dfs_finish, List.mem_append]
          exact Or.inl (hC x hx)

/-- The parents map of `compile_dfs` is sound, and it is complete on the tape
and its siblings. -/
theorem compile_dfs_parents (fuel : Nat) (h : Heap) (ins outs tape : List ArrId)
    (pm : ParentsMap) (hsib : SiblingsShareInputs h)
    (hdfs : compile_dfs fuel h ins outs = some (tape, pm)) :
    ParentsSound h pm ∧ ParentsComplete h pm (tape_family h tape) ∧ KeysNodup pm := by
  unfold compile_dfs at hdfs
  cases hf : outs.foldlM (fun s a => recurse h ins fuel a s)
      { tape := [], parents_map := [], cache := [] } with
  | none => simp [hf] at hdfs
  | some s =>
    simp only [hf, Option.some.injEq, Prod.mk.injEq] at hdfs
    obtain ⟨h1, h2⟩ := hdfs
    subst h1 h2
    have hstart : DfsInv h { tape := [], parents_map := [], cache := [] } := by
      refine ⟨?_, ?_, rfl, ?_⟩
      · intro x l hx; simp [pm_find] at hx
      · intro p hp; simp at hp
      · simp [KeysNodup]
    have key := foldlM_option_inv (fun (_ : List ArrId) (s : DfsState) => DfsInv h s)
      (fun s a => recurse h ins fuel a s) outs _ s [] hstart hf
      (fun _ a s1 s2 _ hP hstep => (recurse_inv h ins hsib fuel a s1 s2 hstep hP).1)
    obtain ⟨k1, k2, k3, k4⟩ := key
    refine ⟨k1, ?_, k4⟩
    rw [← k3]
    exact k2

/-! ## Completeness of the parents map through pass 0 -/

theorem fuse_output_complete (s : Simp) (e : ArrId × ArrId) (u : List ArrId) (hne : e.1 ≠ e.2)
    (hc : ParentsComplete s.heap s.parents_map u) :
    ParentsComplete (fuse_output s e).heap (fuse_output s e).parents_map u := by
  cases hs : pm_find s.parents_map e.1 with
  | none => rw [fuse_output_find_none s e hs]; exact hc
  | some ps =>
    intro p hp i x hx
    rw [fuse_output_slot s e ps hs] at hx
    have hne2 : e.2 ≠ e.1 := Ne.symm hne
    by_cases hin : (p, i) ∈ ps ∧ i < (s.heap.inputs p).length
    · rw [if_pos hin] at hx
      injection hx with hx
      subst hx
      refine ⟨(pm_find s.parents_map e.2).getD [] ++ ps, ?_, List.mem_append_right _ hin.1⟩
      rw [fuse_output_find s e ps hs]
      simp [hne2]
    · rw [if_neg hin] at hx
      obtain ⟨l, hl, hmem⟩ := hc p hp i x hx
      have hlt : i < (s.heap.inputs p).length := by
        by_contra hc2
        rw [List.getElem?_eq_none (Nat.le_of_not_lt hc2)] at hx
        cases hx
      have hx1 : x ≠ e.1 := by
        intro h1
        subst h1
        rw [hs] at hl
        injection hl with hl
        subst hl
        exact hin ⟨hmem, hlt⟩
      rw [fuse_output_find s e ps hs]
      by_cases hx2 : x = e.2
      · subst hx2
        refine ⟨(pm_find s.parents_map e.2).getD [] ++ ps, by simp [hx1], ?_⟩
        rw [hl]
        exact List.mem_append_left _ hmem
      · exact ⟨l, by simp [hx1, hx2, hl], hmem⟩

theorem outputs_of_single (h : Heap) (a : ArrId) (hs : h.siblings a = []) :
    h.outputs a = [a] := by
  unfold Heap.siblings at hs
  unfold Heap.outputs
  rw [hs]
  simp

theorem is_scalar_evaled (h : Heap) (a : ArrId) (hs : is_scalar h a = true) :
    h.is_evaled a = true := by
  unfold is_scalar at hs
  simp only [Bool.and_eq_true] at hs
  exact hs.1

theorem collect_scalars_are_scalars (h : Heap) (tape : List ArrId) (k : Nat × Nat)
    (rep : ArrId) (hf : scalars_find (collect_scalars h tape) k = some rep) :
    is_scalar h rep = true := by
  unfold collect_scalars at hf
  rw [scalars_find_collect] at hf
  simp only [scalars_find] at hf
  have := List.find?_some hf
  simp only [Bool.and_eq_true] at this
  exact this.1

theorem fuse_scalars_complete (s : Simp) (u : List ArrId) (hleaf : EvaledAreLeaves s.heap)
    (hc : ParentsComplete s.heap s.parents_map u) :
    ParentsComplete (fuse_scalars s).heap (fuse_scalars s).parents_map u := by
  unfold fuse_scalars
  have h0 : s.heap.SameFrame ({ s with tape := [] } : Simp).heap ∧
      ParentsComplete ({ s with tape := [] } : Simp).heap
        ({ s with tape := [] } : Simp).parents_map u := ⟨Heap.SameFrame.refl _, hc⟩
  have key := foldl_inv
    (fun (a : Simp) => s.heap.SameFrame a.heap ∧ ParentsComplete a.heap a.parents_map u)
    (fuse_scalar_step (collect_scalars s.heap s.tape)) s.tape _ h0
    (by
      intro b arr _ hb
      obtain ⟨hfr, hcb⟩ := hb
      unfold fuse_scalar_step
      split
      · rename_i hsc
        split
        · rename_i rep hrep
          split
          · rename_i hne
            have hsa : is_scalar s.heap arr = true := by rw [← hfr.is_scalar arr]; exact hsc
            have hsr : is_scalar s.heap rep = true :=
              collect_scalars_are_scalars s.heap s.tape _ rep hrep
            have e1 : b.heap.siblings arr = [] := by
              rw [hfr.siblings arr]
              exact (hleaf arr (is_scalar_evaled _ _ hsa)).2
            have e2 : b.heap.siblings rep = [] := by
              rw [hfr.siblings rep]
              exact (hleaf rep (is_scalar_evaled _ _ hsr)).2
            have hfuse : fuse b rep arr = fuse_output b (arr, rep) := by
              unfold fuse
              rw [outputs_of_single _ _ e1, outputs_of_single _ _ e2]
              rfl
            rw [hfuse]
            exact ⟨hfr.trans (fuse_output_frame b _),
              fuse_output_complete b (arr, rep) u (Ne.symm hne) hcb⟩
          · exact ⟨hfr, hcb⟩
        · exact ⟨hfr, hcb⟩
      · exact ⟨hfr, hcb⟩)
  exact key.2

theorem fuse_scalars_frame (s : Simp) : s.heap.SameFrame (fuse_scalars s).heap := by
  unfold fuse_scalars
  exact (fuse_scalars_fold s.heap (collect_scalars s.heap s.tape) s.tape
    { s with tape := [] } (Heap.SameFrame.refl _)).2

theorem tape_family_frame {h h2 : Heap} (f : h.SameFrame h2) (t : List ArrId) :
    tape_family h2 t = tape_family h t := by
  unfold tape_family
  congr 1
  funext a
  rw [f.siblings a]

theorem tape_family_filter_subset (h : Heap) (t : List ArrId) (p : ArrId → Bool) (x : ArrId)
    (hx : x ∈ tape_family h (t.filter p)) : x ∈ tape_family h t := by
  unfold tape_family at *
  rw [List.mem_flatMap] at *
  obtain ⟨a, ha, hxa⟩ := hx
  exact ⟨a, (List.mem_filter.mp ha).1, hxa⟩

/-! ## Heaps built by the single-output constructor -/

theorem NoSiblings.share {h : Heap} (hn : NoSiblings h) : SiblingsShareInputs h := by
  intro a s hs
  rw [hn a] at hs
  cases hs

theorem NoSiblings.empty : NoSiblings Heap.empty := fun _ => rfl

theorem NoSiblings.new_array {h : Heap} (hn : NoSiblings h) (shape : List Int) (dt : Dtype)
    (p : Option Primitive) (ins : List ArrId) : NoSiblings (h.new_array shape dt p ins).1 := by
  intro a
  unfold Heap.new_array Heap.siblings
  by_cases ha : a = h.next
  · subst ha; simp
  · simp only [Function.update_noteq ha]
    exact hn a

theorem NoSiblings.set_tracer {h : Heap} (hn : NoSiblings h) (a : ArrId) :
    NoSiblings (h.set_tracer a) := by
  intro x
  unfold Heap.set_tracer Heap.siblings
  by_cases ha : x = a
  · subst ha; simp only [Function.update_same]; exact hn x
  · simp only [Function.update_noteq ha]
    exact hn x

theorem NoSiblings.constant {h : Heap} (hn : NoSiblings h) (shape : List Int) (dt : Dtype)
    (bits : Nat) : NoSiblings (Example.constant h shape dt bits).1 := by
  intro a
  unfold Example.constant Heap.siblings
  by_cases ha : a = h.next
  · subst ha; simp
  · simp only [Function.update_noteq ha]
    exact hn a

theorem NoSiblings.unary {h : Heap} (hn : NoSiblings h) (k : PrimKind) (x : ArrId) :
    NoSiblings (Example.unary k h x).1 := hn.new_array _ _ _ _

theorem NoSiblings.binary {h : Heap} (hn : NoSiblings h) (k : PrimKind) (x y : ArrId) :
    NoSiblings (Example.binary k h x y).1 := hn.new_array _ _ _ _

theorem world0_no_siblings : NoSiblings world0.heap := NoSiblings.empty.constant _ _ _

theorem traced_cse_no_siblings : NoSiblings (traced f_cse) :=
  (((((world0_no_siblings.new_array _ _ _ _).set_tracer _).unary _ _).unary _ _).unary _ _
    |>.binary _ _ _).unary _ _

/-! ## C9 -/

/-- C9, counterexample: for `f(x) = [sin(x), sin(x)]` one pass of
common-subexpression fusion fuses the second output into the first and erases
it from the parents list of `x`; it stays in the tape because it is a declared
output.  Afterwards array 3 is in the tape with `inputs[0]` being array 1, but
the pair (3, 0) is not in the parents list of array 1. -/
theorem cse_pass_unrecords_kept_output :
    compile_dfs 5 (traced f_twice) [1] [2, 3] = some ([1, 2, 3], [(1, [(2, 0), (3, 0)])]) ∧
    (compile_simplify
      { heap := traced f_twice, parents_map := [(1, [(2, 0), (3, 0)])], tape := [1, 2, 3] }
      [2, 3] 1).tape = [1, 2, 3] ∧
    ((compile_simplify
      { heap := traced f_twice, parents_map := [(1, [(2, 0), (3, 0)])], tape := [1, 2, 3] }
      [2, 3] 1).heap.inputs 3)[0]? = some 1 ∧
    pm_find (compile_simplify
      { heap := traced f_twice, parents_map := [(1, [(2, 0), (3, 0)])], tape := [1, 2, 3] }
      [2, 3] 1).parents_map 1 = some [(2, 0)] ∧
    (3, 0) ∉ [((2 : ArrId), (0 : Nat))] := by
  refine ⟨rfl, rfl, rfl, rfl, by decide⟩

/-- C9, as the code behaves: on the result of `compile_dfs` for a graph whose
co-outputs share their inputs, after `compile_simplify` with any number of
passes every pair `(p, i)` recorded under `x` has `p.inputs[i]` being `x`.
With `passes = 0`, and evaluated arrays being detached constants, the converse
holds as well for every array `p` of the tape or sibling of a tape array: each
of its input slots is recorded under the input it holds. -/
theorem simplify_keeps_parents_sound (fuel : Nat) (h : Heap) (ins outs tape : List ArrId)
    (pm : ParentsMap) (passes : Nat) (hsib : SiblingsShareInputs h)
    (hdfs : compile_dfs fuel h ins outs = some (tape, pm)) :
    ParentsSound (compile_simplify { heap := h, parents_map := pm, tape := tape } outs passes).heap
      (compile_simplify { heap := h, parents_map := pm, tape := tape } outs passes).parents_map ∧
    (EvaledAreLeaves h →
      ParentsComplete
        (compile_simplify { heap := h, parents_map := pm, tape := tape } outs 0).heap
        (compile_simplify { heap := h, parents_map := pm, tape := tape } outs 0).parents_map
        (tape_family
          (compile_simplify { heap := h, parents_map := pm, tape := tape } outs 0).heap
          (compile_simplify { heap := h, parents_map := pm, tape := tape } outs 0).tape)) := by
  obtain ⟨hs, hc, _⟩ := compile_dfs_parents fuel h ins outs tape pm hsib hdfs
  refine ⟨compile_simplify_sound _ outs passes hs, ?_⟩
  intro hleaf
  rw [compile_simplify_zero]
  have hc2 := fuse_scalars_complete { heap := h, parents_map := pm, tape := tape }
    (tape_family h tape) hleaf hc
  intro p hp
  apply hc2 p
  rw [tape_family_frame (fuse_scalars_frame _), fuse_scalars_tape] at hp
  exact tape_family_filter_subset _ _ _ _ hp

theorem simplify_keeps_parents_sound_witness :
    ParentsSound
      (compile_simplify
        { heap := traced f_cse,
          parents_map :=
            [(2, [(5, 0), (6, 0)]), (1, [(2, 0), (3, 0)]), (4, [(5, 1)]), (3, [(4, 0)])],
          tape := [1, 2, 3, 4, 5, 6] } [5, 6] 3).heap
      (compile_simplify
        { heap := traced f_cse,
          parents_map :=
            [(2, [(5, 0), (6, 0)]), (1, [(2, 0), (3, 0)]), (4, [(5, 1)]), (3, [(4, 0)])],
          tape := [1, 2, 3, 4, 5, 6] } [5, 6] 3).parents_map :=
  (simplify_keeps_parents_sound 8 (traced f_cse) [1] [5, 6] [1, 2, 3, 4, 5, 6]
    [(2, [(5, 0), (6, 0)]), (1, [(2, 0), (3, 0)]), (4, [(5, 1)]), (3, [(4, 0)])] 3
    traced_cse_no_siblings.share rfl).1

/-! ## Counting the recorded pairs -/

theorem pm_count_cons (e : ArrId × List (ArrId × Nat)) (pm : ParentsMap) :
    pm_count (e :: pm) = e.2.length + pm_count pm := by
  simp [pm_count]

theorem pm_count_update_found (pm : ParentsMap) (k : ArrId)
    (f : List (ArrId × Nat) → List (ArrId × Nat)) (l : List (ArrId × Nat))
    (hk : pm_find pm k = some l) :
    pm_count (pm_update pm k f) + l.length = pm_count pm + (f l).length := by
  induction pm with
  | nil => simp [pm_find] at hk
  | cons e rest ih =>
    obtain ⟨k', l'⟩ := e
    by_cases h1 : k' = k
    · subst h1
      simp only [pm_find, if_true, Option.some.injEq] at hk
      subst hk
      simp only [pm_update, if_true, pm_count_cons]
      omega
    · simp only [pm_find, h1, if_false] at hk
      simp only [pm_update, h1, if_false, pm_count_cons]
      have := ih hk
      omega

theorem pm_count_update_missing (pm : ParentsMap) (k : ArrId)
    (f : List (ArrId × Nat) → List (ArrId × Nat)) (hk : pm_find pm k = none) :
    pm_count (pm_update pm k f) = pm_count pm + (f []).length := by
  induction pm with
  | nil => simp [pm_update, pm_count]
  | cons e rest ih =>
    obtain ⟨k', l'⟩ := e
    by_cases h1 : k' = k
    · simp [pm_find, h1] at hk
    · simp only [pm_find, h1, if_false] at hk
      simp only [pm_update, h1, if_false, pm_count_cons]
      have := ih hk
      omega

theorem pm_count_push (pm : ParentsMap) (k : ArrId) (v : ArrId × Nat) :
    pm_count (pm_push pm k v) = pm_count pm + 1 := by
  unfold pm_push
  cases hk : pm_find pm k with
  | none => rw [pm_count_update_missing _ _ _ hk]; simp
  | some l =>
    have := pm_count_update_found pm k (fun l => l ++ [v]) l hk
    simp only [List.length_append, List.length_singleton] at this
    omega

theorem pm_count_touch (pm : ParentsMap) (k : ArrId) :
    pm_count (pm_update pm k id) = pm_count pm := by
  cases hk : pm_find pm k with
  | none => rw [pm_count_update_missing _ _ _ hk]; simp
  | some l =>
    have := pm_count_update_found pm k id l hk
    simp only [id_eq] at this
    omega

theorem pm_count_erase_le (pm : ParentsMap) (k : ArrId) :
    pm_count (pm_erase pm k) + ((pm_find pm k).getD []).length ≤ pm_count pm := by
  induction pm with
  | nil => simp [pm_erase, pm_find, pm_count]
  | cons e rest ih =>
    obtain ⟨k', l'⟩ := e
    by_cases h1 : k' = k
    · simp only [pm_erase, h1, if_true, pm_find, Option.getD_some, pm_count_cons]
      have : pm_count (pm_erase rest k) ≤ pm_count rest := by omega
      omega
    · simp only [pm_erase, h1, if_false, pm_find, pm_count_cons]
      omega

theorem repoint_fold_count (d : ArrId) (ps : List (ArrId × Nat)) (acc : Simp) :
    pm_count (ps.foldl (repoint d) acc).parents_map = pm_count acc.parents_map + ps.length := by
  induction ps generalizing acc with
  | nil => simp
  | cons p rest ih =>
    simp only [List.foldl_cons, List.length_cons]
    rw [ih]
    simp only [repoint, pm_count_push]
    omega

theorem fuse_output_count (s : Simp) (e : ArrId × ArrId) :
    pm_count (fuse_output s e).parents_map ≤ pm_count s.parents_map := by
  cases hs : pm_find s.parents_map e.1 with
  | none => rw [fuse_output_find_none s e hs]
  | some ps =>
    unfold fuse_output
    simp only [hs]
    have h1 := pm_count_erase_le
      (ps.foldl (repoint e.2) { s with parents_map := pm_update s.parents_map e.2 id }).parents_map
      e.1
    have h2 := repoint_fold_count e.2 ps { s with parents_map := pm_update s.parents_map e.2 id }
    have h3 := repoint_fold_find e.2 ps { s with parents_map := pm_update s.parents_map e.2 id }
      ((pm_find s.parents_map e.2).getD []) (by simp [pm_find_update]) e.1
    have h4 : ps.length ≤ ((pm_find
        (ps.foldl (repoint e.2)
          { s with parents_map := pm_update s.parents_map e.2 id }).parents_map e.1).getD
        []).length := by
      rw [h3]
      by_cases h12 : e.1 = e.2
      · simp [h12]
      · simp [h12, pm_find_update, hs]
    simp only [pm_count_touch] at h2
    omega

theorem fuse_count (s : Simp) (dst src : ArrId) :
    pm_count (fuse s dst src).parents_map ≤ pm_count s.parents_map := by
  unfold fuse
  generalize (s.heap.outputs src).zip (s.heap.outputs dst) = l
  induction l generalizing s with
  | nil => exact Nat.le_refl _
  | cons e rest ih =>
    simp only [List.foldl_cons]
    exact Nat.le_trans (ih _) (fuse_output_count s e)

theorem fuse_pair_count (l : List (ArrId × Nat)) (i : Nat) (acc : Simp × List Nat) (j : Nat) :
    pm_count (fuse_pair l i acc j).1.parents_map ≤ pm_count acc.1.parents_map := by
  unfold fuse_pair
  split
  · exact Nat.le_refl _
  · dsimp only
    split
    · exact fuse_count _ _ _
    · exact Nat.le_refl _

theorem foldl_count_le {α β : Type} (c : β → Nat) (f : β → α → β) (l : List α) (b : β)
    (hstep : ∀ b a, c (f b a) ≤ c b) : c (l.foldl f b) ≤ c b := by
  induction l generalizing b with
  | nil => exact Nat.le_refl _
  | cons a rest ih =>
    simp only [List.foldl_cons]
    exact Nat.le_trans (ih _) (hstep b a)

theorem fuse_row_count (l : List (ArrId × Nat)) (acc : Simp × List Nat) (i : Nat) :
    pm_count (fuse_row l acc i).1.parents_map ≤ pm_count acc.1.parents_map := by
  unfold fuse_row
  split
  · exact Nat.le_refl _
  · exact foldl_count_le (fun (a : Simp × List Nat) => pm_count a.1.parents_map) _ _ _
      (fun b a => fuse_pair_count l i b a)

theorem fuse_rows_count (l : List (ArrId × Nat)) (is : List Nat) (acc : Simp × List Nat) :
    pm_count (is.foldl (fuse_row l) acc).1.parents_map ≤ pm_count acc.1.parents_map :=
  foldl_count_le (fun (a : Simp × List Nat) => pm_count a.1.parents_map) _ _ _
    (fun b a => fuse_row_count l b a)

theorem erase_masked_length_le (mask : List Nat) (n : Nat) (l : List (ArrId × Nat)) :
    (erase_masked mask n l).length ≤ l.length :=
  (erase_masked_sublist mask n l).length_le

theorem erase_masked_length_lt (mask : List Nat) (n : Nat) (l : List (ArrId × Nat)) (j : Nat)
    (hj : j ∈ mask) (h0 : 0 < j) (hn : j < n) (hl : j < l.length) :
    (erase_masked mask n l).length < l.length := by
  induction n generalizing l with
  | zero => omega
  | succ n ih =>
    rw [erase_masked_succ]
    by_cases hjn : j = n
    · subst hjn
      rw [if_pos ⟨h0, hj⟩]
      have h1 := erase_masked_length_le mask j (l.eraseIdx j)
      have h2 : (l.eraseIdx j).length = l.length - 1 := by
        rw [List.length_eraseIdx, if_pos hl]
      omega
    · have hlt : j < n := by omega
      split
      · by_cases hnl : n < l.length
        · have h2 : (l.eraseIdx n).length = l.length - 1 := by
            rw [List.length_eraseIdx, if_pos hnl]
          have := ih (l.eraseIdx n) hlt (by omega)
          omega
        · rw [List.eraseIdx_of_length_le (Nat.le_of_not_lt hnl)]
          exact ih l hlt hl
      · exact ih l hlt hl

theorem maybe_fuse_parents_count (output_set : List ArrId) (s : Simp) (a : ArrId) :
    pm_count (maybe_fuse_parents output_set s a).1.parents_map ≤ pm_count s.parents_map := by
  unfold maybe_fuse_parents
  split
  · rename_i l hl
    dsimp only
    have hloop := fuse_rows_count l (List.range l.length) (s, [])
    split
    · rename_i live hlive
      have h1 := pm_count_update_found _ a
        (erase_masked ((List.range l.length).foldl (fuse_row l) (s, [])).2 l.length) live hlive
      have h2 := erase_masked_length_le
        ((List.range l.length).foldl (fuse_row l) (s, [])).2 l.length live
      simp only at hloop ⊢
      omega
    · exact hloop
  · exact Nat.le_refl _

theorem simplify_visit_count (output_set : List ArrId) (s : Simp) (arr : ArrId) :
    pm_count (simplify_visit output_set s arr).parents_map ≤ pm_count s.parents_map := by
  unfold simplify_visit
  dsimp only
  have hsib := foldl_count_le (fun (a : Simp × Bool) => pm_count a.1.parents_map)
    (fun (p : Simp × Bool) sib =>
      ((maybe_fuse_parents output_set p.1 sib).1,
        p.2 && (maybe_fuse_parents output_set p.1 sib).2))
    (s.heap.siblings arr) (maybe_fuse_parents output_set s arr)
    (fun b a => maybe_fuse_parents_count output_set b.1 a)
  have h0 := maybe_fuse_parents_count output_set s arr
  split
  · exact Nat.le_trans hsib h0
  · exact Nat.le_trans hsib h0

theorem simplify_visits_count (output_set : List ArrId) (t : List ArrId) (s : Simp) :
    pm_count (t.foldl (simplify_visit output_set) s).parents_map ≤ pm_count s.parents_map :=
  foldl_count_le (fun (a : Simp) => pm_count a.parents_map) _ _ _
    (fun b a => simplify_visit_count output_set b a)

/-! ## A pass that fuses nothing, and a pass that fuses something -/

theorem foldl_inv_prefix {α β : Type} (P : List α → β → Prop) (f : β → α → β) (l : List α)
    (b : β) (pre : List α) (hb : P pre b)
    (hstep : ∀ p a b, a ∈ l → P p b → P (p ++ [a]) (f b a)) : P (pre ++ l) (l.foldl f b) := by
  induction l generalizing b pre with
  | nil => simpa using hb
  | cons a rest ih =>
    simp only [List.foldl_cons]
    have h2 := hstep pre a b (List.mem_cons_self _ _) hb
    have h3 := ih (f b a) (pre ++ [a]) h2
      (fun p a2 b2 ha2 => hstep p a2 b2 (List.mem_cons_of_mem _ ha2))
    simpa using h3

theorem fuse_output_find_other (s : Simp) (e : ArrId × ArrId) (x : ArrId) (h1 : x ≠ e.1)
    (h2 : x ≠ e.2) : pm_find (fuse_output s e).parents_map x = pm_find s.parents_map x := by
  cases hs : pm_find s.parents_map e.1 with
  | none => rw [fuse_output_find_none s e hs]
  | some ps =>
    rw [fuse_output_find s e ps hs]
    simp [h1, h2]

theorem fuse_find_other (s : Simp) (dst src x : ArrId) (h1 : x ∉ s.heap.outputs src)
    (h2 : x ∉ s.heap.outputs dst) :
    pm_find (fuse s dst src).parents_map x = pm_find s.parents_map x := by
  unfold fuse
  have hz : ∀ e ∈ (s.heap.outputs src).zip (s.heap.outputs dst), x ≠ e.1 ∧ x ≠ e.2 := by
    intro e he
    obtain ⟨e1, e2⟩ := e
    have := List.of_mem_zip he
    exact ⟨fun hx => h1 (hx ▸ this.1), fun hx => h2 (hx ▸ this.2)⟩
  generalize (s.heap.outputs src).zip (s.heap.outputs dst) = l at hz
  clear h1 h2
  induction l generalizing s with
  | nil => rfl
  | cons e rest ih =>
    simp only [List.foldl_cons]
    rw [ih _ (fun e2 he2 => hz e2 (List.mem_cons_of_mem _ he2))]
    exact fuse_output_find_other s e x (hz e (List.mem_cons_self _ _)).1
      (hz e (List.mem_cons_self _ _)).2

theorem getD_mem (l : List (ArrId × Nat)) (i : Nat) (hi : i < l.length) :
    l.getD i (0, 0) ∈ l := by
  rw [List.getD_eq_getElem l _ hi]
  exact List.getElem_mem hi

/-- The mask bits that the loops of `maybe_fuse_parents` set are valid indices
other than 0. -/
theorem fuse_rows_mask (l : List (ArrId × Nat)) (s : Simp) :
    ∀ m ∈ ((List.range l.length).foldl (fuse_row l) (s, [])).2, 0 < m ∧ m < l.length := by
  apply foldl_inv (fun (acc : Simp × List Nat) => ∀ m ∈ acc.2, 0 < m ∧ m < l.length)
  · intro m hm; cases hm
  · intro acc i _ hacc
    unfold fuse_row
    split
    · exact hacc
    · apply foldl_inv (fun (acc : Simp × List Nat) => ∀ m ∈ acc.2, 0 < m ∧ m < l.length)
      · exact hacc
      · intro acc2 j hj hacc2
        unfold fuse_pair
        split
        · exact hacc2
        · dsimp only
          split
          · intro m hm
            rcases List.mem_cons.mp hm with h1 | h1
            · subst h1
              rw [List.mem_range'_1] at hj
              omega
            · exact hacc2 m h1
          · exact hacc2

/-- While the loops of `maybe_fuse_parents` set no mask bit they change
nothing, and every pair they went through failed the test. -/
theorem fuse_rows_quiet (l : List (ArrId × Nat)) (s : Simp)
    (hq : ((List.range l.length).foldl (fuse_row l) (s, [])).2 = []) :
    ((List.range l.length).foldl (fuse_row l) (s, [])).1 = s ∧
    ∀ i j, i < j → j < l.length → ¬ fusable_pair s.heap l i j := by
  have key := foldl_inv_prefix
    (fun (pre : List Nat) (acc : Simp × List Nat) =>
      acc.2 = [] → acc.1 = s ∧
        ∀ i ∈ pre, ∀ j ∈ List.range' (i + 1) (l.length - (i + 1)), ¬ fusable_pair s.heap l i j)
    (fuse_row l) (List.range l.length) (s, []) []
    (fun _ => ⟨rfl, fun i hi => by cases hi⟩)
    (by
      intro pre i acc _ hP
      unfold fuse_row
      split
      · rename_i hmem
        intro hnil
        rw [hnil] at hmem
        cases hmem
      · have inner := foldl_inv_prefix
          (fun (prej : List Nat) (acc2 : Simp × List Nat) =>
            acc2.2 = [] → acc2.1 = s ∧
              (∀ i2 ∈ pre, ∀ j ∈ List.range' (i2 + 1) (l.length - (i2 + 1)),
                ¬ fusable_pair s.heap l i2 j) ∧
              ∀ j ∈ prej, ¬ fusable_pair s.heap l i j)
          (fuse_pair l i) (List.range' (i + 1) (l.length - (i + 1))) acc []
          (fun hnil => ⟨(hP hnil).1, (hP hnil).2, fun j hj => by cases hj⟩)
          (by
            intro prej j acc2 _ hQ
            unfold fuse_pair
            split
            · rename_i hmem
              intro hnil
              rw [hnil] at hmem
              cases hmem
            · dsimp only
              split
              · intro hnil
                cases hnil
              · rename_i hcond
                intro hnil
                obtain ⟨q1, q2, q3⟩ := hQ hnil
                refine ⟨q1, q2, ?_⟩
                intro j2 hj2
                rcases List.mem_append.mp hj2 with h1 | h1
                · exact q3 j2 h1
                · simp only [List.mem_singleton] at h1
                  subst h1
                  rw [q1] at hcond
                  exact hcond)
        simp only [List.nil_append] at inner
        intro hnil
        obtain ⟨q1, q2, q3⟩ := inner hnil
        refine ⟨q1, ?_⟩
        intro i2 hi2
        rcases List.mem_append.mp hi2 with h1 | h1
        · exact q2 i2 h1
        · simp only [List.mem_singleton] at h1
          subst h1
          exact q3)
  simp only [List.nil_append] at key
  obtain ⟨k1, k2⟩ := key hq
  refine ⟨k1, ?_⟩
  intro i j hij hj
  apply k2 i (List.mem_range.mpr (by omega)) j
  rw [List.mem_range'_1]
  omega

/-- The loops of `maybe_fuse_parents` at `a` leave the parents list of `a`
alone when `a` is not an output of one of its recorded parents. -/
theorem fuse_rows_find_self (l : List (ArrId × Nat)) (s : Simp) (a : ArrId)
    (hself : ∀ e ∈ l, a ∉ s.heap.outputs e.1) :
    pm_find ((List.range l.length).foldl (fuse_row l) (s, [])).1.parents_map a =
      pm_find s.parents_map a := by
  have key := foldl_inv
    (fun (acc : Simp × List Nat) =>
      s.heap.SameFrame acc.1.heap ∧ pm_find acc.1.parents_map a = pm_find s.parents_map a)
    (fuse_row l) (List.range l.length) (s, []) ⟨Heap.SameFrame.refl _, rfl⟩
    (by
      intro acc i hi hacc
      unfold fuse_row
      split
      · exact hacc
      · apply foldl_inv
          (fun (acc : Simp × List Nat) =>
            s.heap.SameFrame acc.1.heap ∧
              pm_find acc.1.parents_map a = pm_find s.parents_map a)
        · exact hacc
        · intro acc2 j hj hacc2
          unfold fuse_pair
          split
          · exact hacc2
          · dsimp only
            split
            · obtain ⟨hf, hfind⟩ := hacc2
              have hi2 : i < l.length := List.mem_range.mp hi
              have hj2 : j < l.length := by
                rw [List.mem_range'_1] at hj
                omega
              refine ⟨hf.trans (fuse_frame _ _ _), ?_⟩
              rw [fuse_find_other _ _ _ a ?_ ?_]
              · exact hfind
              · rw [hf.outputs]
                exact hself _ (getD_mem l j hj2)
              · rw [hf.outputs]
                exact hself _ (getD_mem l i hi2)
            · exact hacc2)
  exact key.2

theorem erase_masked_nil (n : Nat) (l : List (ArrId × Nat)) : erase_masked [] n l = l := by
  induction n generalizing l with
  | zero => simp [erase_masked]
  | succ n ih =>
    rw [erase_masked_succ]
    simp [ih]

/-- One call of `maybe_fuse_parents` either changes nothing, and then no pair
of the parents list passes the test, or it lowers the number of recorded
pairs. -/
theorem maybe_fuse_parents_step (output_set : List ArrId) (s : Simp) (a : ArrId)
    (hself : ∀ l, pm_find s.parents_map a = some l → ∀ e ∈ l, a ∉ s.heap.outputs e.1) :
    ((maybe_fuse_parents output_set s a).1 = s ∧ NoFusablePair s.heap s.parents_map a) ∨
    pm_count (maybe_fuse_parents output_set s a).1.parents_map < pm_count s.parents_map := by
  unfold maybe_fuse_parents
  cases hfind : pm_find s.parents_map a with
  | none =>
    left
    refine ⟨rfl, ?_⟩
    intro l hl
    rw [hfind] at hl
    cases hl
  | some l =>
    dsimp only
    have hlive := fuse_rows_find_self l s a (hself l hfind)
    rw [hfind] at hlive
    simp only [hlive]
    cases hmask : ((List.range l.length).foldl (fuse_row l) (s, [])).2 with
    | nil =>
      left
      obtain ⟨q1, q2⟩ := fuse_rows_quiet l s hmask
      have hupd : pm_update ((List.range l.length).foldl (fuse_row l) (s, [])).1.parents_map a
          (erase_masked [] l.length) =
          ((List.range l.length).foldl (fuse_row l) (s, [])).1.parents_map :=
        pm_update_same _ _ _ l hlive (erase_masked_nil _ _)
      rw [hupd, q1]
      refine ⟨rfl, ?_⟩
      intro l2 hl2 i j hij hj
      rw [hfind] at hl2
      injection hl2 with hl2
      subst hl2
      exact q2 i j hij hj
    | cons m rest =>
      right
      have hvalid := fuse_rows_mask l s m (by rw [hmask]; exact List.mem_cons_self _ _)
      have h1 := pm_count_update_found
        ((List.range l.length).foldl (fuse_row l) (s, [])).1.parents_map a
        (erase_masked (m :: rest) l.length) l hlive
      have h2 := erase_masked_length_lt (m :: rest) l.length l m (List.mem_cons_self _ _)
        hvalid.1 hvalid.2 hvalid.2
      have h3 := fuse_rows_count l (List.range l.length) (s, [])
      simp only at h3 ⊢
      omega

/-- One step of a pass either leaves the descriptors and the parents map as
they are, and then neither the array nor a sibling has a fusable pair of
parents, or it lowers the number of recorded pairs. -/
theorem simplify_visit_step (output_set : List ArrId) (s : Simp) (arr : ArrId)
    (hself : NoSelfParent s.heap s.parents_map) :
    ((simplify_visit output_set s arr).heap = s.heap ∧
      (simplify_visit output_set s arr).parents_map = s.parents_map ∧
      NoFusablePair s.heap s.parents_map arr ∧
      ∀ sib ∈ s.heap.siblings arr, NoFusablePair s.heap s.parents_map sib) ∨
    pm_count (simplify_visit output_set s arr).parents_map < pm_count s.parents_map := by
  have hfold := foldl_inv_prefix
    (fun (pre : List ArrId) (p : Simp × Bool) =>
      (p.1 = s ∧ NoFusablePair s.heap s.parents_map arr ∧
        ∀ sib ∈ pre, NoFusablePair s.heap s.parents_map sib) ∨
      pm_count p.1.parents_map < pm_count s.parents_map)
    (fun (p : Simp × Bool) sib =>
      ((maybe_fuse_parents output_set p.1 sib).1,
        p.2 && (maybe_fuse_parents output_set p.1 sib).2))
    (s.heap.siblings arr) (maybe_fuse_parents output_set s arr) []
    (by
      rcases maybe_fuse_parents_step output_set s arr (hself arr) with h1 | h1
      · exact Or.inl ⟨h1.1, h1.2, fun sib hs => by cases hs⟩
      · exact Or.inr h1)
    (by
      intro pre sib p _ hP
      dsimp only
      rcases hP with ⟨e1, e2, e3⟩ | hlt
      · rw [e1]
        rcases maybe_fuse_parents_step output_set s sib (hself sib) with h1 | h1
        · left
          refine ⟨h1.1, e2, ?_⟩
          intro sib2 hs2
          rcases List.mem_append.mp hs2 with h3 | h3
          · exact e3 sib2 h3
          · simp only [List.mem_singleton] at h3
            subst h3
            exact h1.2
        · exact Or.inr h1
      · right
        exact Nat.lt_of_le_of_lt (maybe_fuse_parents_count output_set p.1 sib) hlt)
  simp only [List.nil_append] at hfold
  unfold simplify_visit
  dsimp only
  rcases hfold with ⟨e1, e2, e3⟩ | hlt
  · left
    split
    · rw [e1]; exact ⟨rfl, rfl, e2, e3⟩
    · rw [e1]; exact ⟨rfl, rfl, e2, e3⟩
  · right
    split
    · exact hlt
    · exact hlt

/-- A pass that keeps the number of recorded pairs went through the whole tape
without finding a fusable pair of parents. -/
theorem simplify_pass_quiet (output_set : List ArrId) (s : Simp)
    (hself : NoSelfParent s.heap s.parents_map)
    (hcount : pm_count (simplify_pass output_set s).parents_map = pm_count s.parents_map) :
    ∀ a ∈ s.tape, NoFusablePair s.heap s.parents_map a ∧
      ∀ sib ∈ s.heap.siblings a, NoFusablePair s.heap s.parents_map sib := by
  have hfold := foldl_inv_prefix
    (fun (pre : List ArrId) (acc : Simp) =>
      (acc.heap = s.heap ∧ acc.parents_map = s.parents_map ∧
        ∀ a ∈ pre, NoFusablePair s.heap s.parents_map a ∧
          ∀ sib ∈ s.heap.siblings a, NoFusablePair s.heap s.parents_map sib) ∨
      pm_count acc.parents_map < pm_count s.parents_map)
    (simplify_visit output_set) s.tape { s with tape := [] } []
    (Or.inl ⟨rfl, rfl, fun a ha => by cases ha⟩)
    (by
      intro pre a acc _ hP
      rcases hP with ⟨e1, e2, e3⟩ | hlt
      · have hself2 : NoSelfParent acc.heap acc.parents_map := by rw [e1, e2]; exact hself
        rcases simplify_visit_step output_set acc a hself2 with h1 | h1
        · left
          obtain ⟨q1, q2, q3, q4⟩ := h1
          rw [e1, e2] at q3 q4
          refine ⟨q1.trans e1, q2.trans e2, ?_⟩
          intro a2 ha2
          rcases List.mem_append.mp ha2 with h3 | h3
          · exact e3 a2 h3
          · simp only [List.mem_singleton] at h3
            subst h3
            exact ⟨q3, q4⟩
        · right
          rw [e2] at h1
          exact h1
      · right
        exact Nat.lt_of_le_of_lt (simplify_visit_count output_set acc a) hlt)
  simp only [List.nil_append] at hfold
  rcases hfold with ⟨_, _, e3⟩ | hlt
  · exact e3
  · unfold simplify_pass at hcount
    omega

/-! ## Heights are kept by `compile_simplify` -/

theorem fuse_output_inputs_rank (s : Simp) (e : ArrId × ArrId) (r : ArrId → Nat)
    (hsound : ParentsSound s.heap s.parents_map) (hr : r e.2 = r e.1) (p : ArrId) :
    ((fuse_output s e).heap.inputs p).map r = (s.heap.inputs p).map r := by
  cases hs : pm_find s.parents_map e.1 with
  | none => rw [fuse_output_find_none s e hs]
  | some ps =>
    apply List.ext_getElem?
    intro i
    rw [List.getElem?_map, List.getElem?_map, fuse_output_slot s e ps hs]
    split
    · rename_i hin
      have := hsound e.1 ps hs (p, i) hin.1
      dsimp only at this
      rw [this]
      simp [hr]
    · rfl

theorem Ranked.of_frame {h h2 : Heap} {r : ArrId → Nat} (hr : Ranked h r) (f : h.SameFrame h2)
    (hin : ∀ p, (h2.inputs p).map r = (h.inputs p).map r) : Ranked h2 r := by
  refine ⟨?_, ?_⟩
  · intro p
    rw [hin p]
    exact hr.1 p
  · intro a o ho
    rw [f.outputs] at ho
    exact hr.2 a o ho

theorem repoint_fold_nodup (d : ArrId) (ps : List (ArrId × Nat)) (acc : Simp)
    (hn : KeysNodup acc.parents_map) : KeysNodup (ps.foldl (repoint d) acc).parents_map := by
  induction ps generalizing acc with
  | nil => exact hn
  | cons p rest ih =>
    simp only [List.foldl_cons]
    exact ih _ (pm_update_nodup _ _ _ hn)

theorem fuse_output_nodup (s : Simp) (e : ArrId × ArrId) (hn : KeysNodup s.parents_map) :
    KeysNodup (fuse_output s e).parents_map := by
  unfold fuse_output
  split
  · exact hn
  · exact pm_erase_nodup _ _ (repoint_fold_nodup _ _ _ (pm_update_nodup _ _ _ hn))

theorem fuse_output_inv (h0 : Heap) (r : ArrId → Nat) (s : Simp) (e : ArrId × ArrId)
    (hr : r e.2 = r e.1) (hinv : SimpInv h0 r s) : SimpInv h0 r (fuse_output s e) := by
  obtain ⟨hf, hs, hrk, hn⟩ := hinv
  exact ⟨hf.trans (fuse_output_frame s e), fuse_output_sound s e hs,
    hrk.of_frame (fuse_output_frame s e) (fuse_output_inputs_rank s e r hs hr),
    fuse_output_nodup s e hn⟩

theorem fuse_inv (h0 : Heap) (r : ArrId → Nat) (s : Simp) (dst src : ArrId)
    (hr : r src = r dst) (hinv : SimpInv h0 r s) : SimpInv h0 r (fuse s dst src) := by
  unfold fuse
  have hz : ∀ e ∈ (s.heap.outputs src).zip (s.heap.outputs dst), r e.2 = r e.1 := by
    intro e he
    obtain ⟨e1, e2⟩ := e
    have := List.of_mem_zip he
    rw [hinv.2.2.1.2 src e1 this.1, hinv.2.2.1.2 dst e2 this.2, hr]
  generalize (s.heap.outputs src).zip (s.heap.outputs dst) = l at hz
  induction l generalizing s with
  | nil => exact hinv
  | cons e rest ih =>
    simp only [List.foldl_cons]
    exact ih _ (fuse_output_inv h0 r s e (hz e (List.mem_cons_self _ _)) hinv)
      (fun e2 he2 => hz e2 (List.mem_cons_of_mem _ he2))

theorem zip_all_eq (l1 l2 : List ArrId) (hlen : l1.length = l2.length)
    (hall : (l1.zip l2).any (fun e => decide (e.1 ≠ e.2)) = false) : l1 = l2 := by
  induction l1 generalizing l2 with
  | nil =>
    cases l2 with
    | nil => rfl
    | cons b t => simp at hlen
  | cons a t ih =>
    cases l2 with
    | nil => simp at hlen
    | cons b t2 =>
      simp only [List.zip_cons_cons, List.any_cons, Bool.or_eq_false_iff, decide_eq_false_iff_not,
        ne_eq, not_not] at hall
      simp only [List.length_cons, Nat.add_right_cancel_iff] at hlen
      rw [hall.1, ih t2 hlen hall.2]

theorem zip_any_self (l : List ArrId) : (l.zip l).any (fun e => decide (e.1 ≠ e.2)) = false := by
  induction l with
  | nil => rfl
  | cons a t ih =>
    simp only [List.zip_cons_cons, List.any_cons, ih, Bool.or_false]
    simp

/-- What `array_equivalent` tests. -/
theorem array_equivalent_iff (h : Heap) (a b : ArrId) :
    array_equivalent h a b = true ↔
      ∃ pa pb, h.primitive a = some pa ∧ h.primitive b = some pb ∧ pa.pid ≠ pb.pid ∧
        pa.kind = pb.kind ∧ h.inputs a = h.inputs b ∧ is_equivalent pa pb = true := by
  constructor
  · intro hae
    unfold array_equivalent at hae
    cases ha : h.primitive a with
    | none => simp [ha] at hae
    | some pa =>
      cases hb : h.primitive b with
      | none => simp [ha, hb] at hae
      | some pb =>
        simp only [ha, hb] at hae
        by_cases h1 : pa.pid = pb.pid
        · rw [if_pos h1] at hae; cases hae
        rw [if_neg h1] at hae
        by_cases h2 : pa.kind ≠ pb.kind
        · rw [if_pos h2] at hae; cases hae
        rw [if_neg h2] at hae
        by_cases h3 : (h.inputs a).length ≠ (h.inputs b).length
        · rw [if_pos h3] at hae; cases hae
        rw [if_neg h3] at hae
        by_cases h4 : ((h.inputs a).zip (h.inputs b)).any (fun e => decide (e.1 ≠ e.2)) = true
        · rw [if_pos h4] at hae; cases hae
        rw [if_neg h4] at hae
        exact ⟨pa, pb, rfl, rfl, h1, not_not.mp h2,
          zip_all_eq _ _ (not_not.mp h3) ((Bool.not_eq_true _).mp h4), hae⟩
  · rintro ⟨pa, pb, ha, hb, h1, h2, h3, h4⟩
    unfold array_equivalent
    simp only [ha, hb]
    rw [if_neg h1, if_neg (not_not.mpr h2), if_neg (by rw [h3]; simp),
      if_neg (by rw [h3, zip_any_self]; simp)]
    exact h4

theorem Ranked.eq_of_inputs {h : Heap} {r : ArrId → Nat} (hr : Ranked h r) (a b : ArrId)
    (hin : h.inputs a = h.inputs b) : r a = r b := by
  rw [hr.1 a, hr.1 b, hin]

theorem fuse_pair_inv (h0 : Heap) (r : ArrId → Nat) (l : List (ArrId × Nat)) (i : Nat)
    (acc : Simp × List Nat) (j : Nat) (hinv : SimpInv h0 r acc.1) :
    SimpInv h0 r (fuse_pair l i acc j).1 := by
  unfold fuse_pair
  split
  · exact hinv
  · dsimp only
    split
    · rename_i hcond
      obtain ⟨pa, pb, _, _, _, _, hin, _⟩ := (array_equivalent_iff _ _ _).mp hcond.2
      exact fuse_inv h0 r _ _ _ (hinv.2.2.1.eq_of_inputs _ _ hin) hinv
    · exact hinv

theorem fuse_row_inv (h0 : Heap) (r : ArrId → Nat) (l : List (ArrId × Nat))
    (acc : Simp × List Nat) (i : Nat) (hinv : SimpInv h0 r acc.1) :
    SimpInv h0 r (fuse_row l acc i).1 := by
  unfold fuse_row
  split
  · exact hinv
  · exact foldl_inv (fun (a : Simp × List Nat) => SimpInv h0 r a.1) _ _ _ hinv
      (fun b a _ hb => fuse_pair_inv h0 r l i b a hb)

theorem maybe_fuse_parents_inv (h0 : Heap) (r : ArrId → Nat) (output_set : List ArrId)
    (s : Simp) (a : ArrId) (hinv : SimpInv h0 r s) :
    SimpInv h0 r (maybe_fuse_parents output_set s a).1 := by
  unfold maybe_fuse_parents
  split
  · rename_i l hl
    dsimp only
    have hloop : SimpInv h0 r ((List.range l.length).foldl (fuse_row l) (s, [])).1 :=
      foldl_inv (fun (a : Simp × List Nat) => SimpInv h0 r a.1) _ _ _ hinv
        (fun b a _ hb => fuse_row_inv h0 r l b a hb)
    split
    · rename_i live hlive
      obtain ⟨q1, q2, q3, q4⟩ := hloop
      exact ⟨q1, update_sublist_sound _ _ _ _ live hlive (erase_masked_sublist _ _ _) q2, q3,
        pm_update_nodup _ _ _ q4⟩
    · exact hloop
  · exact hinv

theorem simplify_visit_inv (h0 : Heap) (r : ArrId → Nat) (output_set : List ArrId)
    (s : Simp) (arr : ArrId) (hinv : SimpInv h0 r s) :
    SimpInv h0 r (simplify_visit output_set s arr) := by
  unfold simplify_visit
  dsimp only
  have hsib := foldl_inv (fun (a : Simp × Bool) => SimpInv h0 r a.1)
    (fun (p : Simp × Bool) sib =>
      ((maybe_fuse_parents output_set p.1 sib).1,
        p.2 && (maybe_fuse_parents output_set p.1 sib).2))
    (s.heap.siblings arr) (maybe_fuse_parents output_set s arr)
    (maybe_fuse_parents_inv h0 r output_set s arr hinv)
    (fun b a _ hb => maybe_fuse_parents_inv h0 r output_set b.1 a hb)
  split
  · exact hsib
  · exact hsib

theorem simplify_pass_inv (h0 : Heap) (r : ArrId → Nat) (output_set : List ArrId) (s : Simp)
    (hinv : SimpInv h0 r s) : SimpInv h0 r (simplify_pass output_set s) := by
  unfold simplify_pass
  have h1 : SimpInv h0 r { s with tape := [] } := hinv
  exact foldl_inv (fun (a : Simp) => SimpInv h0 r a) _ _ _ h1
    (fun b a _ hb => simplify_visit_inv h0 r output_set b a hb)

theorem fuse_scalars_inv (h0 : Heap) (r : ArrId → Nat) (s : Simp) (hleaf : EvaledAreLeaves h0)
    (hinv : SimpInv h0 r s) : SimpInv h0 r (fuse_scalars s) := by
  unfold fuse_scalars
  have h1 : SimpInv h0 r { s with tape := [] } := hinv
  apply foldl_inv (fun (a : Simp) => SimpInv h0 r a) _ _ _ h1
  intro b arr _ hb
  unfold fuse_scalar_step
  split
  · rename_i hsc
    split
    · rename_i rep hrep
      split
      · have hsr : is_scalar s.heap rep = true :=
          collect_scalars_are_scalars s.heap s.tape _ rep hrep
        have hf0 : h0.SameFrame s.heap := hinv.1
        have e1 : b.heap.inputs arr = [] := by
          have hl := hb.1.inputs_length arr
          have : is_scalar h0 arr = true := by rw [← hb.1.is_scalar arr]; exact hsc
          rw [(hleaf arr (is_scalar_evaled _ _ this)).1] at hl
          exact List.length_eq_zero.mp hl
        have e2 : b.heap.inputs rep = [] := by
          have hl := hb.1.inputs_length rep
          have : is_scalar h0 rep = true := by rw [← hf0.is_scalar rep]; exact hsr
          rw [(hleaf rep (is_scalar_evaled _ _ this)).1] at hl
          exact List.length_eq_zero.mp hl
        exact fuse_inv h0 r b rep arr (hb.2.2.1.eq_of_inputs _ _ (e1.trans e2.symm)) hb
      · exact hb
    · exact hb
  · exact hb

theorem compile_simplify_inv (h0 : Heap) (r : ArrId → Nat) (s : Simp) (outputs : List ArrId)
    (passes : Nat) (hleaf : EvaledAreLeaves h0) (hinv : SimpInv h0 r s) :
    SimpInv h0 r (compile_simplify s outputs passes) := by
  unfold compile_simplify
  induction passes with
  | zero => exact fuse_scalars_inv h0 r s hleaf hinv
  | succ n ih =>
    rw [Function.iterate_succ_apply']
    exact simplify_pass_inv h0 r outputs _ ih

/-! ## Heights exist on an acyclic graph -/

theorem exists_height (h : Heap) (hac : Acyclic h) :
    ∃ r : ArrId → Nat, ∀ p, r p = ((h.inputs p).map r).foldr max 0 + 1 := by
  obtain ⟨rk, hrk⟩ := hac
  have wf : WellFounded (fun x p : ArrId => x ∈ h.inputs p) :=
    Subrelation.wf (fun {x p} hxp => hrk p x hxp) (InvImage.wf rk Nat.lt_wfRel.wf)
  refine ⟨wf.fix (fun p visit =>
    ((h.inputs p).attach.map (fun x => visit x.1 x.2)).foldr max 0 + 1), ?_⟩
  intro p
  rw [WellFounded.fix_eq]
  congr 2
  exact List.attach_map_val (h.inputs p) _

theorem mem_outputs (h : Heap) (a o : ArrId) (ho : o ∈ h.outputs a) :
    o = a ∨ o ∈ h.siblings a := by
  unfold Heap.outputs at ho
  unfold Heap.siblings
  rcases List.mem_append.mp ho with h1 | h1
  · exact Or.inr (List.mem_of_mem_take h1)
  · rcases List.mem_cons.mp h1 with h2 | h2
    · exact Or.inl h2
    · exact Or.inr (List.mem_of_mem_drop h2)

theorem exists_ranked (h : Heap) (hac : Acyclic h) (hsib : SiblingsShareInputs h) :
    ∃ r, Ranked h r := by
  obtain ⟨r, hr⟩ := exists_height h hac
  refine ⟨r, hr, ?_⟩
  intro a o ho
  rcases mem_outputs h a o ho with h1 | h1
  · rw [h1]
  · rw [hr o, hr a, hsib a o h1]

/-- An array that is recorded as a parent stands above the key it is recorded
under, so the key is none of its outputs. -/
theorem no_self_parent (h : Heap) (pm : ParentsMap) (r : ArrId → Nat) (hs : ParentsSound h pm)
    (hr : Ranked h r) : NoSelfParent h pm := by
  intro a l hl e he hmem
  have hslot := hs a l hl e he
  have hin : a ∈ h.inputs e.1 := List.getElem?_mem hslot
  have h1 : r a = r e.1 := hr.2 e.1 a hmem
  have h2 : r a < r e.1 := by
    rw [hr.1 e.1]
    have : r a ≤ ((h.inputs e.1).map r).foldr max 0 := by
      generalize h.inputs e.1 = ins at hin
      induction ins with
      | nil => cases hin
      | cons x t ih =>
        simp only [List.map_cons, List.foldr_cons]
        rcases List.mem_cons.mp hin with h3 | h3
        · rw [h3]; exact Nat.le_max_left _ _
        · exact Nat.le_trans (ih h3) (Nat.le_max_right _ _)
    omega
  omega

/-! ## Equal maps record equally many pairs -/

theorem mem_iff_pm_find (pm : ParentsMap) (hn : KeysNodup pm) (k : ArrId)
    (l : List (ArrId × Nat)) : (k, l) ∈ pm ↔ pm_find pm k = some l := by
  induction pm with
  | nil => simp [pm_find]
  | cons e rest ih =>
    obtain ⟨k', l'⟩ := e
    have hn2 : KeysNodup rest := by
      unfold KeysNodup at hn ⊢
      exact (List.nodup_cons.mp hn).2
    have hk' : k' ∉ rest.map Prod.fst := by
      unfold KeysNodup at hn
      exact (List.nodup_cons.mp hn).1
    by_cases h1 : k' = k
    · subst h1
      simp only [pm_find, if_true, Option.some.injEq, List.mem_cons, Prod.mk.injEq, true_and]
      constructor
      · rintro (h2 | h2)
        · exact h2.symm
        · exact absurd (List.mem_map_of_mem Prod.fst h2) hk'
      · intro h2; exact Or.inl h2.symm
    · simp only [pm_find, h1, if_false, List.mem_cons, Prod.mk.injEq]
      rw [← ih hn2]
      constructor
      · rintro (h2 | h2)
        · exact absurd h2.1.symm h1
        · exact h2
      · intro h2; exact Or.inr h2

theorem pm_count_ext (pm pm2 : ParentsMap) (hn : KeysNodup pm) (hn2 : KeysNodup pm2)
    (hext : ∀ x, pm_find pm2 x = pm_find pm x) : pm_count pm2 = pm_count pm := by
  have hperm : pm2.Perm pm := by
    rw [List.perm_ext_iff_of_nodup (List.Nodup.of_map _ hn2) (List.Nodup.of_map _ hn)]
    intro e
    obtain ⟨k, l⟩ := e
    rw [mem_iff_pm_find pm2 hn2, mem_iff_pm_find pm hn, hext]
  unfold pm_count
  exact (hperm.map _).sum_eq

/-! ## More on heaps built by the constructors -/

theorem Ordered.acyclic {h : Heap} (ho : Ordered h) : Acyclic h := ⟨fun x => x, ho⟩

theorem Ordered.heap_empty : Ordered Heap.empty := by
  intro p x hx
  cases hx

theorem Ordered.cons_array {h : Heap} (ho : Ordered h) (shape : List Int) (dt : Dtype)
    (p : Option Primitive) (ins : List ArrId) (hins : ∀ x ∈ ins, x < h.next) :
    Ordered (h.new_array shape dt p ins).1 := by
  intro a x hx
  unfold Heap.new_array Heap.inputs at hx
  by_cases ha : a = h.next
  · subst ha
    simp only [Function.update_same] at hx
    exact hins x hx
  · simp only [Function.update_noteq ha] at hx
    exact ho a x hx

theorem Ordered.mark_tracer {h : Heap} (ho : Ordered h) (a : ArrId) : Ordered (h.set_tracer a) := by
  intro p x hx
  unfold Heap.set_tracer Heap.inputs at hx
  by_cases ha : p = a
  · subst ha
    simp only [Function.update_same] at hx
    exact ho p x hx
  · simp only [Function.update_noteq ha] at hx
    exact ho p x hx

theorem Ordered.cons_constant {h : Heap} (ho : Ordered h) (shape : List Int) (dt : Dtype)
    (bits : Nat) : Ordered (Example.constant h shape dt bits).1 := by
  intro a x hx
  unfold Example.constant Heap.inputs at hx
  by_cases ha : a = h.next
  · subst ha
    simp only [Function.update_same] at hx
    cases hx
  · simp only [Function.update_noteq ha] at hx
    exact ho a x hx

theorem EvaledAreLeaves.of_empty : EvaledAreLeaves Heap.empty := by
  intro a ha
  cases ha

theorem EvaledAreLeaves.add_array {h : Heap} (hl : EvaledAreLeaves h) (shape : List Int)
    (dt : Dtype) (p : Option Primitive) (ins : List ArrId) :
    EvaledAreLeaves (h.new_array shape dt p ins).1 := by
  intro a ha
  unfold Heap.new_array Heap.is_evaled at ha
  unfold Heap.new_array Heap.inputs Heap.siblings
  by_cases hx : a = h.next
  · subst hx
    simp only [Function.update_same] at ha
    cases ha
  · simp only [Function.update_noteq hx] at ha ⊢
    exact hl a ha

theorem EvaledAreLeaves.add_tracer {h : Heap} (hl : EvaledAreLeaves h) (a : ArrId) :
    EvaledAreLeaves (h.set_tracer a) := by
  intro x hx
  unfold Heap.set_tracer Heap.is_evaled at hx
  unfold Heap.set_tracer Heap.inputs Heap.siblings
  by_cases ha : x = a
  · subst ha
    simp only [Function.update_same] at hx ⊢
    exact hl x hx
  · simp only [Function.update_noteq ha] at hx ⊢
    exact hl x hx

theorem EvaledAreLeaves.add_constant {h : Heap} (hl : EvaledAreLeaves h) (shape : List Int)
    (dt : Dtype) (bits : Nat) : EvaledAreLeaves (Example.constant h shape dt bits).1 := by
  intro a ha
  unfold Example.constant Heap.is_evaled at ha
  unfold Example.constant Heap.inputs Heap.siblings
  by_cases hx : a = h.next
  · subst hx
    simp
  · simp only [Function.update_noteq hx] at ha ⊢
    exact hl a ha

theorem world0_ordered : Ordered world0.heap := Ordered.heap_empty.cons_constant _ _ _

theorem world0_leaves : EvaledAreLeaves world0.heap := EvaledAreLeaves.of_empty.add_constant _ _ _

theorem traced_mirror_no_siblings : NoSiblings (traced f_mirror) :=
  ((((world0_no_siblings.new_array _ _ _ _).set_tracer _).unary _ _).binary _ _ _).binary _ _ _

theorem traced_mirror_ordered : Ordered (traced f_mirror) :=
  (((((world0_ordered.cons_array _ _ _ _ (by decide)).mark_tracer _).cons_array _ _ _ _
    (by decide)).cons_array _ _ _ _ (by decide)).cons_array _ _ _ _ (by decide))

theorem traced_mirror_leaves : EvaledAreLeaves (traced f_mirror) :=
  ((((world0_leaves.add_array _ _ _ _).add_tracer _).add_array _ _ _ _).add_array _ _ _ _
    ).add_array _ _ _ _

/-! ## C8 -/

theorem is_equivalent_symm (pa pb : Primitive) (hk : pa.kind = pb.kind)
    (h : is_equivalent pa pb = true) : is_equivalent pb pa = true := by
  unfold is_equivalent at h ⊢
  by_cases hc : pa.kind = PrimKind.Compiled
  · simp [hc] at h
  · have hc2 : ¬ pb.kind = PrimKind.Compiled := by rw [← hk]; exact hc
    simp only [hc, if_false, Bool.and_eq_true, decide_eq_true_eq] at h
    simp only [hc2, if_false, Bool.and_eq_true, decide_eq_true_eq]
    exact ⟨h.1.symm, h.2.symm⟩

theorem mem_tape_family (h : Heap) (t : List ArrId) (x : ArrId) (hx : x ∈ tape_family h t) :
    ∃ a ∈ t, x = a ∨ x ∈ h.siblings a := by
  unfold tape_family at hx
  rw [List.mem_flatMap] at hx
  obtain ⟨a, ha, hxa⟩ := hx
  exact ⟨a, ha, List.mem_cons.mp hxa⟩

/-- Two entries of a parents list without fusable pair are not equivalent in
both directions. -/
theorem no_fusable_pair_mem (h : Heap) (l : List (ArrId × Nat))
    (hno : ∀ i j, i < j → j < l.length → ¬ fusable_pair h l i j) (e1 e2 : ArrId × Nat)
    (h1 : e1 ∈ l) (h2 : e2 ∈ l) (hne : e1.1 ≠ e2.1) :
    ¬ (array_equivalent h e1.1 e2.1 = true ∧ array_equivalent h e2.1 e1.1 = true) := by
  obtain ⟨i1, hi1, he1⟩ := List.getElem_of_mem h1
  obtain ⟨i2, hi2, he2⟩ := List.getElem_of_mem h2
  have g1 : l.getD i1 (0, 0) = e1 := by rw [List.getD_eq_getElem l _ hi1]; exact he1
  have g2 : l.getD i2 (0, 0) = e2 := by rw [List.getD_eq_getElem l _ hi2]; exact he2
  rintro ⟨a1, a2⟩
  rcases Nat.lt_trichotomy i1 i2 with hlt | heq | hgt
  · apply hno i1 i2 hlt hi2
    unfold fusable_pair
    rw [g1, g2]
    exact ⟨Ne.symm hne, a2⟩
  · subst heq
    rw [g1] at g2
    exact hne (by rw [g2])
  · apply hno i2 i1 hgt hi1
    unfold fusable_pair
    rw [g1, g2]
    exact ⟨hne, a1⟩

/-- C8, counterexample: for `f(x) = [sin(x), sin(x)]` the state after
`compile_simplify` with 3 passes is a fixed point of the pass (tape, parents map
and inputs stay as they are), and its tape holds the two outputs, arrays 2 and
3: two distinct arrays with primitives of the same kind that report
`is_equivalent` and with the same input list. -/
theorem fixed_point_keeps_equal_outputs :
    (compile_simplify
      { heap := traced f_twice, parents_map := [(1, [(2, 0), (3, 0)])], tape := [1, 2, 3] }
      [2, 3] 3).tape = [1, 2, 3] ∧
    (compile_simplify
      { heap := traced f_twice, parents_map := [(1, [(2, 0), (3, 0)])], tape := [1, 2, 3] }
      [2, 3] 3).parents_map = [(1, [(2, 0)])] ∧
    (simplify_pass [2, 3] (compile_simplify
      { heap := traced f_twice, parents_map := [(1, [(2, 0), (3, 0)])], tape := [1, 2, 3] }
      [2, 3] 3)).tape = [1, 2, 3] ∧
    (simplify_pass [2, 3] (compile_simplify
      { heap := traced f_twice, parents_map := [(1, [(2, 0), (3, 0)])], tape := [1, 2, 3] }
      [2, 3] 3)).parents_map = [(1, [(2, 0)])] ∧
    [1, 2, 3].map (simplify_pass [2, 3] (compile_simplify
      { heap := traced f_twice, parents_map := [(1, [(2, 0), (3, 0)])], tape := [1, 2, 3] }
      [2, 3] 3)).heap.inputs = [[], [1], [1]] ∧
    (compile_simplify
      { heap := traced f_twice, parents_map := [(1, [(2, 0), (3, 0)])], tape := [1, 2, 3] }
      [2, 3] 3).heap.primitive 2 = some ⟨2, PrimKind.Sin, 0, 0, [], [], []⟩ ∧
    (compile_simplify
      { heap := traced f_twice, parents_map := [(1, [(2, 0), (3, 0)])], tape := [1, 2, 3] }
      [2, 3] 3).heap.primitive 3 = some ⟨3, PrimKind.Sin, 0, 0, [], [], []⟩ ∧
    is_equivalent ⟨2, PrimKind.Sin, 0, 0, [], [], []⟩ ⟨3, PrimKind.Sin, 0, 0, [], [], []⟩ = true ∧
    (compile_simplify
      { heap := traced f_twice, parents_map := [(1, [(2, 0), (3, 0)])], tape := [1, 2, 3] }
      [2, 3] 3).heap.inputs 2 = [1] ∧
    (compile_simplify
      { heap := traced f_twice, parents_map := [(1, [(2, 0), (3, 0)])], tape := [1, 2, 3] }
      [2, 3] 3).heap.inputs 3 = [1] := by
  refine ⟨rfl, rfl, rfl, rfl, rfl, rfl, rfl, rfl, rfl, rfl⟩

/-- C8, as the code behaves: take the result of `compile_dfs` on an acyclic
graph (co-outputs sharing their inputs, evaluated arrays being detached
constants) and run `compile_simplify` with any number of passes.  If a further
common-subexpression pass leaves the parents map as it is, then no tape array,
and no sibling of a tape array, has among its recorded parents two distinct
arrays whose primitives are different objects of the same kind that report
`is_equivalent` and whose input lists are equal. -/
theorem fixed_point_has_no_equivalent_parents (fuel : Nat) (h : Heap)
    (ins outs tape : List ArrId) (pm : ParentsMap) (passes : Nat)
    (hsib : SiblingsShareInputs h) (hac : Acyclic h) (hleaf : EvaledAreLeaves h)
    (hdfs : compile_dfs fuel h ins outs = some (tape, pm))
    (hfix : ∀ x,
      pm_find (simplify_pass outs
        (compile_simplify { heap := h, parents_map := pm, tape := tape } outs passes)).parents_map
        x =
      pm_find
        (compile_simplify { heap := h, parents_map := pm, tape := tape } outs passes).parents_map
        x)
    (x : ArrId)
    (hx : x ∈ tape_family
      (compile_simplify { heap := h, parents_map := pm, tape := tape } outs passes).heap
      (compile_simplify { heap := h, parents_map := pm, tape := tape } outs passes).tape)
    (l : List (ArrId × Nat))
    (hl : pm_find
      (compile_simplify { heap := h, parents_map := pm, tape := tape } outs passes).parents_map
      x = some l)
    (e1 e2 : ArrId × Nat) (h1 : e1 ∈ l) (h2 : e2 ∈ l) (hne : e1.1 ≠ e2.1)
    (pa pb : Primitive)
    (hpa : (compile_simplify { heap := h, parents_map := pm, tape := tape } outs
      passes).heap.primitive e1.1 = some pa)
    (hpb : (compile_simplify { heap := h, parents_map := pm, tape := tape } outs
      passes).heap.primitive e2.1 = some pb)
    (hpid : pa.pid ≠ pb.pid) (hkind : pa.kind = pb.kind)
    (heq : is_equivalent pa pb = true) :
    (compile_simplify { heap := h, parents_map := pm, tape := tape } outs passes).heap.inputs
        e1.1 ≠
      (compile_simplify { heap := h, parents_map := pm, tape := tape } outs passes).heap.inputs
        e2.1 := by
  obtain ⟨r, hr⟩ := exists_ranked h hac hsib
  obtain ⟨hs, _, hn⟩ := compile_dfs_parents fuel h ins outs tape pm hsib hdfs
  have hinv0 : SimpInv h r { heap := h, parents_map := pm, tape := tape } :=
    ⟨Heap.SameFrame.refl _, hs, hr, hn⟩
  have hinv := compile_simplify_inv h r _ outs passes hleaf hinv0
  generalize compile_simplify { heap := h, parents_map := pm, tape := tape } outs passes = S
    at hfix hx hl hpa hpb hinv ⊢
  have hinv2 := simplify_pass_inv h r outs S hinv
  have hself := no_self_parent S.heap S.parents_map r hinv.2.1 hinv.2.2.1
  have hcount := pm_count_ext S.parents_map (simplify_pass outs S).parents_map hinv.2.2.2
    hinv2.2.2.2 hfix
  have hquiet := simplify_pass_quiet outs S hself hcount
  obtain ⟨a, ha, hxa⟩ := mem_tape_family _ _ _ hx
  have hno : NoFusablePair S.heap S.parents_map x := by
    rcases hxa with h3 | h3
    · rw [h3]; exact (hquiet a ha).1
    · exact (hquiet a ha).2 x h3
  intro hin
  apply no_fusable_pair_mem S.heap l (hno l hl) e1 e2 h1 h2 hne
  constructor
  · exact (array_equivalent_iff _ _ _).mpr ⟨pa, pb, hpa, hpb, hpid, hkind, hin, heq⟩
  · exact (array_equivalent_iff _ _ _).mpr
      ⟨pb, pa, hpb, hpa, Ne.symm hpid, hkind.symm, hin.symm, is_equivalent_symm pa pb hkind heq⟩

theorem fixed_point_has_no_equivalent_parents_witness :
    (compile_simplify
      { heap := traced f_mirror,
        parents_map := [(1, [(3, 0), (2, 0), (4, 1)]), (2, [(3, 1), (4, 0)])],
        tape := [1, 2, 3, 4] } [3, 4] 3).heap.inputs 3 ≠
    (compile_simplify
      { heap := traced f_mirror,
        parents_map := [(1, [(3, 0), (2, 0), (4, 1)]), (2, [(3, 1), (4, 0)])],
        tape := [1, 2, 3, 4] } [3, 4] 3).heap.inputs 4 :=
  fixed_point_has_no_equivalent_parents 9 (traced f_mirror) [1] [3, 4] [1, 2, 3, 4]
    [(1, [(3, 0), (2, 0), (4, 1)]), (2, [(3, 1), (4, 0)])] 3
    traced_mirror_no_siblings.share traced_mirror_ordered.acyclic traced_mirror_leaves rfl
    (fun _ => rfl) 1 (by decide) [(3, 0), (2, 0), (4, 1)] rfl (3, 0) (4, 1) (by decide)
    (by decide) (by decide) ⟨3, PrimKind.Add, 0, 0, [], [], []⟩
    ⟨4, PrimKind.Add, 0, 0, [], [], []⟩ rfl rfl (by decide) rfl rfl

/-! ## The frame of the heap through `compile_simplify` -/

theorem fuse_pair_frame (l : List (ArrId × Nat)) (i : Nat) (acc : Simp × List Nat) (j : Nat) :
    acc.1.heap.SameFrame (fuse_pair l i acc j).1.heap := by
  unfold fuse_pair
  split
  · exact Heap.SameFrame.refl _
  · dsimp only
    split
    · exact fuse_frame _ _ _
    · exact Heap.SameFrame.refl _

theorem foldl_frame {α β : Type} (g : β → Heap) (f : β → α → β) (l : List α) (b : β)
    (hstep : ∀ b a, (g b).SameFrame (g (f b a))) : (g b).SameFrame (g (l.foldl f b)) := by
  induction l generalizing b with
  | nil => exact Heap.SameFrame.refl _
  | cons a rest ih =>
    simp only [List.foldl_cons]
    exact (hstep b a).trans (ih _)

theorem fuse_row_frame (l : List (ArrId × Nat)) (acc : Simp × List Nat) (i : Nat) :
    acc.1.heap.SameFrame (fuse_row l acc i).1.heap := by
  unfold fuse_row
  split
  · exact Heap.SameFrame.refl _
  · exact foldl_frame (fun (a : Simp × List Nat) => a.1.heap) _ _ _
      (fun b a => fuse_pair_frame l i b a)

theorem maybe_fuse_parents_frame (output_set : List ArrId) (s : Simp) (a : ArrId) :
    s.heap.SameFrame (maybe_fuse_parents output_set s a).1.heap := by
  unfold maybe_fuse_parents
  split
  · rename_i l hl
    dsimp only
    have hloop := foldl_frame (fun (a : Simp × List Nat) => a.1.heap) (fuse_row l)
      (List.range l.length) (s, []) (fun b a => fuse_row_frame l b a)
    split
    · exact hloop
    · exact hloop
  · exact Heap.SameFrame.refl _

theorem simplify_visit_frame (output_set : List ArrId) (s : Simp) (arr : ArrId) :
    s.heap.SameFrame (simplify_visit output_set s arr).heap := by
  unfold simplify_visit
  dsimp only
  have hsib := foldl_frame (fun (a : Simp × Bool) => a.1.heap)
    (fun (p : Simp × Bool) sib =>
      ((maybe_fuse_parents output_set p.1 sib).1,
        p.2 && (maybe_fuse_parents output_set p.1 sib).2))
    (s.heap.siblings arr) (maybe_fuse_parents output_set s arr)
    (fun b a => maybe_fuse_parents_frame output_set b.1 a)
  have h0 := maybe_fuse_parents_frame output_set s arr
  split
  · exact h0.trans hsib
  · exact h0.trans hsib

theorem simplify_pass_frame (output_set : List ArrId) (s : Simp) :
    s.heap.SameFrame (simplify_pass output_set s).heap := by
  unfold simplify_pass
  exact foldl_frame (fun (a : Simp) => a.heap) (simplify_visit output_set) s.tape
    { s with tape := [] } (fun b a => simplify_visit_frame output_set b a)

theorem compile_simplify_frame (s : Simp) (outputs : List ArrId) (passes : Nat) :
    s.heap.SameFrame (compile_simplify s outputs passes).heap := by
  unfold compile_simplify
  induction passes with
  | zero => exact fuse_scalars_frame s
  | succ n ih =>
    rw [Function.iterate_succ_apply']
    exact ih.trans (simplify_pass_frame outputs _)

/-! ## Heaps that grow -/

theorem Extends.self (h : Heap) : Extends h h := ⟨Nat.le_refl _, fun _ _ => rfl⟩

theorem Extends.compose {h1 h2 h3 : Heap} (a : Extends h1 h2) (b : Extends h2 h3) :
    Extends h1 h3 :=
  ⟨Nat.le_trans a.1 b.1, fun x hx => (b.2 x (Nat.lt_of_lt_of_le hx a.1)).trans (a.2 x hx)⟩

theorem Heap.SameFrame.extends {h h2 : Heap} (f : h.SameFrame h2) : Extends h h2 :=
  ⟨Nat.le_of_eq f.1.symm, fun x _ => f.2 x⟩

theorem Extends.shape_eq {h h2 : Heap} (e : Extends h h2) (a : ArrId) (ha : a < h.next) :
    h2.shape a = h.shape a := by
  have := congrArg ArrayDesc.shape (e.2 a ha)
  exact this

theorem Extends.dtype_eq {h h2 : Heap} (e : Extends h h2) (a : ArrId) (ha : a < h.next) :
    h2.dtype a = h.dtype a := by
  have := congrArg ArrayDesc.dtype (e.2 a ha)
  exact this

theorem extends_new_array (h : Heap) (shape : List Int) (dt : Dtype) (p : Option Primitive)
    (ins : List ArrId) : Extends h (h.new_array shape dt p ins).1 := by
  refine ⟨Nat.le_succ _, ?_⟩
  intro a ha
  unfold Heap.new_array
  have : a ≠ h.next := Nat.ne_of_lt ha
  simp only [Function.update_noteq this]

theorem extends_set_tracer (h : Heap) (a : ArrId) (ha : h.next ≤ a) :
    Extends h (h.set_tracer a) := by
  refine ⟨Nat.le_refl _, ?_⟩
  intro x hx
  unfold Heap.set_tracer
  have : x ≠ a := by omega
  simp only [Function.update_noteq this]

theorem extends_make_arrays (h : Heap) (sig : List (List Int × Dtype)) (p : Primitive)
    (ins : List ArrId) : Extends h (h.make_arrays sig p ins).1 := by
  refine ⟨Nat.le_add_right _ _, ?_⟩
  intro a ha
  unfold Heap.make_arrays
  have : ¬ (h.next ≤ a ∧ a < h.next + sig.length) := by omega
  simp only [this, if_false]

theorem replace_step_extends (st st2 : Heap × TraceMap) (a : ArrId)
    (hr : replace_step st a = .ok st2) : Extends st.1 st2.1 := by
  unfold replace_step at hr
  split at hr
  · injection hr with hr; subst hr; exact Extends.self _
  · split at hr
    · cases hr
    · split at hr
      · injection hr with hr; subst hr; exact extends_new_array _ _ _ _ _
      · injection hr with hr; subst hr; exact extends_make_arrays _ _ _ _

theorem replace_tape_extends (tape : List ArrId) (st st2 : Heap × TraceMap)
    (hr : replace_tape tape st = .ok st2) : Extends st.1 st2.1 := by
  induction tape generalizing st with
  | nil =>
    simp only [replace_tape] at hr
    injection hr with hr; subst hr; exact Extends.self _
  | cons a rest ih =>
    simp only [replace_tape] at hr
    cases hs : replace_step st a with
    | error e => simp [hs] at hr
    | ok st1 =>
      simp only [hs] at hr
      exact (replace_step_extends st st1 a hs).compose (ih st1 hr)

theorem compile_replace_extends (h h2 : Heap) (tape tin tout ins outs : List ArrId)
    (hr : compile_replace h tape tin tout ins = .ok (h2, outs)) : Extends h h2 := by
  unfold compile_replace at hr
  cases hs : replace_tape tape (h, seed_inputs tin ins) with
  | error e => simp [hs] at hr
  | ok st =>
    simp only [hs] at hr
    cases hg : tm_gather st.2 tout with
    | error e => simp [hg] at hr
    | ok o =>
      simp only [hg, Except.ok.injEq, Prod.mk.injEq] at hr
      have := replace_tape_extends tape _ st hs
      rw [hr.1] at this
      exact this

/-! ## Tracing and the signature test -/

theorem make_tracers_spec (xs : List ArrId) (h : Heap) (hxs : ∀ a ∈ xs, a < h.next) :
    Extends h (make_tracers xs h).1 ∧
    List.Forall₂
      (fun t x => t < (make_tracers xs h).1.next ∧ (x < h.next →
        (make_tracers xs h).1.shape t = h.shape x ∧ (make_tracers xs h).1.dtype t = h.dtype x))
      (make_tracers xs h).2 xs := by
  induction xs generalizing h with
  | nil => exact ⟨Extends.self _, List.Forall₂.nil⟩
  | cons a rest ih =>
    have hext1 : Extends h ((h.new_array (h.shape a) (h.dtype a) none []).1.set_tracer h.next) := by
      refine ⟨Nat.le_succ _, ?_⟩
      intro x hx
      have hne : x ≠ h.next := Nat.ne_of_lt hx
      unfold Heap.set_tracer Heap.new_array
      simp only [Function.update_noteq hne]
    have hhead : ((h.new_array (h.shape a) (h.dtype a) none []).1.set_tracer h.next).shape h.next
          = h.shape a ∧
        ((h.new_array (h.shape a) (h.dtype a) none []).1.set_tracer h.next).dtype h.next
          = h.dtype a := by
      unfold Heap.set_tracer Heap.new_array Heap.shape Heap.dtype
      simp
    have hnext : ((h.new_array (h.shape a) (h.dtype a) none []).1.set_tracer h.next).next
        = h.next + 1 := rfl
    obtain ⟨e2, f2⟩ := ih ((h.new_array (h.shape a) (h.dtype a) none []).1.set_tracer h.next)
      (fun x hx => by
        rw [hnext]
        exact Nat.lt_succ_of_lt (hxs x (List.mem_cons_of_mem _ hx)))
    simp only [make_tracers]
    rw [show (h.new_array (h.shape a) (h.dtype a) none []).2 = h.next from rfl]
    refine ⟨hext1.compose e2, ?_⟩
    refine List.Forall₂.cons ⟨?_, fun _ => ⟨?_, ?_⟩⟩ ?_
    · have := e2.1
      rw [hnext] at this
      exact this
    · rw [e2.shape_eq h.next (by rw [hnext]; exact Nat.lt_succ_self _)]
      exact hhead.1
    · rw [e2.dtype_eq h.next (by rw [hnext]; exact Nat.lt_succ_self _)]
      exact hhead.2
    · refine f2.imp ?_
      intro t x ⟨q1, q2⟩
      refine ⟨q1, fun hx => ?_⟩
      have hx1 : x < ((h.new_array (h.shape a) (h.dtype a) none []).1.set_tracer h.next).next := by
        rw [hnext]; exact Nat.lt_succ_of_lt hx
      rw [(q2 hx1).1, (q2 hx1).2, hext1.shape_eq x hx, hext1.dtype_eq x hx]
      exact ⟨rfl, rfl⟩

theorem zip_all_congr (h h2 : Heap) (ys xs : List ArrId) (hsig : SameSignature h2 ys h xs)
    (es : List ArrId) (hes : ∀ a ∈ es, h2.shape a = h.shape a ∧ h2.dtype a = h.dtype a) :
    (ys.zip es).all
        (fun e => decide (h2.shape e.1 = h2.shape e.2) && decide (h2.dtype e.1 = h2.dtype e.2)) =
      (xs.zip es).all
        (fun e => decide (h.shape e.1 = h.shape e.2) && decide (h.dtype e.1 = h.dtype e.2)) := by
  unfold SameSignature at hsig
  induction hsig generalizing es with
  | nil => simp
  | cons hyx _ ih =>
    cases es with
    | nil => simp
    | cons e rest =>
      simp only [List.zip_cons_cons, List.all_cons]
      rw [ih rest (fun a ha => hes a (List.mem_cons_of_mem _ ha)), hyx.1, hyx.2,
        (hes e (List.mem_cons_self _ _)).1, (hes e (List.mem_cons_self _ _)).2]

theorem is_match_congr (h h2 : Heap) (ys xs : List ArrId) (hsig : SameSignature h2 ys h xs)
    (es : List ArrId) (hes : ∀ a ∈ es, h2.shape a = h.shape a ∧ h2.dtype a = h.dtype a) :
    is_match h2 ys es = is_match h xs es := by
  unfold is_match
  rw [zip_all_congr h h2 ys xs hsig es hes, List.Forall₂.length_eq hsig]

theorem scan_entries_congr (h h2 : Heap) (ys xs : List ArrId) (hsig : SameSignature h2 ys h xs)
    (l : List CacheEntry)
    (hl : ∀ e ∈ l, ∀ a ∈ e.inputs, h2.shape a = h.shape a ∧ h2.dtype a = h.dtype a) (i : Nat) :
    scan_entries h2 ys l i = scan_entries h xs l i := by
  induction l generalizing i with
  | nil => rfl
  | cons e rest ih =>
    simp only [scan_entries]
    rw [is_match_congr h h2 ys xs hsig e.inputs (hl e (List.mem_cons_self _ _)),
      ih (fun e2 he2 => hl e2 (List.mem_cons_of_mem _ he2))]

theorem is_match_same (h : Heap) (ys ts : List ArrId)
    (hf : List.Forall₂ (fun y t => h.shape y = h.shape t ∧ h.dtype y = h.dtype t) ys ts) :
    is_match h ys ts = .ok true := by
  unfold is_match
  rw [if_neg (by rw [List.Forall₂.length_eq hf]; simp)]
  congr 1
  induction hf with
  | nil => rfl
  | cons hyt _ ih =>
    simp only [List.zip_cons_cons, List.all_cons, ih, hyt.1, hyt.2]
    simp

theorem forall2_join {P Q R : ArrId → ArrId → Prop} (ys ts xs : List ArrId)
    (hp : List.Forall₂ P ys xs) (hq : List.Forall₂ Q ts xs)
    (hr : ∀ y t x, x ∈ xs → P y x → Q t x → R y t) : List.Forall₂ R ys ts := by
  induction hp generalizing ts with
  | nil =>
    cases hq
    exact List.Forall₂.nil
  | cons hyx _ ih =>
    cases hq with
    | cons htx hrest =>
      exact List.Forall₂.cons (hr _ _ _ (List.mem_cons_self _ _) hyx htx)
        (ih _ hrest (fun y t x hx => hr y t x (List.mem_cons_of_mem _ hx)))

/-- The wrapper on a miss, once the trace has returned. -/
theorem compiled_fun_traced (fn : CompileFn) (fun_id : Nat) (xs : List ArrId) (w : World)
    (h1 : Heap) (tin tout : List ArrId)
    (hmiss : scan_entries w.heap xs ((cache_get w.cache fun_id).getD []) 0 = .ok none)
    (htrace : compile_trace fn w.heap xs = some (h1, tin, tout)) :
    compiled_fun fn fun_id xs w =
      match compile_dfs (h1.next + 1) h1 tin tout with
      | none =>
        ({ heap := h1,
           cache := cache_set w.cache fun_id ((cache_get w.cache fun_id).getD [] ++
             [{ inputs := tin, outputs := tout, tape := [], empty := false }]),
           compiler_disabled := w.compiler_disabled, traces := w.traces + 1 },
          .error .no_termination)
      | some (tape, pm) =>
        match compile_replace
            (compile_simplify { heap := h1, parents_map := pm, tape := tape } tout 3).heap
            (compile_simplify { heap := h1, parents_map := pm, tape := tape } tout 3).tape
            tin tout xs with
        | .error err =>
          ({ heap := (compile_simplify { heap := h1, parents_map := pm, tape := tape } tout 3).heap,
             cache := cache_set w.cache fun_id ((cache_get w.cache fun_id).getD [] ++
               [{ inputs := tin, outputs := tout,
                  tape := (compile_simplify { heap := h1, parents_map := pm, tape := tape }
                    tout 3).tape,
                  empty := false }]),
             compiler_disabled := w.compiler_disabled, traces := w.traces + 1 }, .error err)
        | .ok (h2, outs) =>
          ({ heap := h2,
             cache := cache_set w.cache fun_id ((cache_get w.cache fun_id).getD [] ++
               [{ inputs := tin, outputs := tout,
                  tape := (compile_simplify { heap := h1, parents_map := pm, tape := tape }
                    tout 3).tape,
                  empty := false }]),
             compiler_disabled := w.compiler_disabled, traces := w.traces + 1 }, .ok outs) := by
  unfold compiled_fun
  rw [cache_find_miss _ _ _ _ hmiss]
  simp only [cache_get_set_same, Option.getD_some, htrace, cache_put, cache_set_set]
  cases hd : compile_dfs (h1.next + 1) h1 tin tout with
  | none => simp [List.getD_eq_getElem?_getD, CacheEntry.fresh]
  | some d =>
    obtain ⟨tape, pm⟩ := d
    simp only [List.getD_eq_getElem?_getD, CacheEntry.fresh]
    cases hr : compile_replace
        (compile_simplify { heap := h1, parents_map := pm, tape := tape } tout 3).heap
        (compile_simplify { heap := h1, parents_map := pm, tape := tape } tout 3).tape
        tin tout xs with
    | error err => simp [hr]
    | ok r =>
      obtain ⟨h2, outs⟩ := r
      simp [hr]

theorem cache_set_same (c : Cache) (k : Nat) (l : List CacheEntry)
    (hk : cache_get c k = some l) : cache_set c k l = c := by
  induction c with
  | nil => simp [cache_get] at hk
  | cons e rest ih =>
    obtain ⟨k', l'⟩ := e
    by_cases h1 : k' = k
    · simp only [cache_get, h1, if_true, Option.some.injEq] at hk
      subst hk
      simp [cache_set, h1]
    · simp only [cache_get, h1, if_false] at hk
      simp [cache_set, h1, ih hk]

/-- What the first call leaves behind when the trace returns: one more entry
under `fun_id`, filled with the placeholder inputs, and one more trace. -/
theorem first_call_summary (fn : CompileFn) (fun_id : Nat) (xs : List ArrId) (w : World)
    (h1 : Heap) (tin tout : List ArrId)
    (hmiss : scan_entries w.heap xs ((cache_get w.cache fun_id).getD []) 0 = .ok none)
    (htrace : compile_trace fn w.heap xs = some (h1, tin, tout)) :
    ∃ e hF out,
      compiled_fun fn fun_id xs w =
        ({ heap := hF,
           cache := cache_set w.cache fun_id ((cache_get w.cache fun_id).getD [] ++ [e]),
           compiler_disabled := w.compiler_disabled, traces := w.traces + 1 }, out) ∧
      e.inputs = tin ∧ e.empty = false ∧ Extends h1 hF := by
  rw [compiled_fun_traced fn fun_id xs w h1 tin tout hmiss htrace]
  cases hd : compile_dfs (h1.next + 1) h1 tin tout with
  | none =>
    exact ⟨{ inputs := tin, outputs := tout, tape := [], empty := false }, h1, _, rfl, rfl, rfl,
      Extends.self _⟩
  | some d =>
    obtain ⟨tape, pm⟩ := d
    have hfr := (compile_simplify_frame { heap := h1, parents_map := pm, tape := tape }
      tout 3).extends
    dsimp only
    cases hr : compile_replace
        (compile_simplify { heap := h1, parents_map := pm, tape := tape } tout 3).heap
        (compile_simplify { heap := h1, parents_map := pm, tape := tape } tout 3).tape
        tin tout xs with
    | error err =>
      exact ⟨{ inputs := tin, outputs := tout,
               tape := (compile_simplify { heap := h1, parents_map := pm, tape := tape }
                 tout 3).tape,
               empty := false }, _, _, rfl, rfl, rfl, hfr⟩
    | ok r =>
      obtain ⟨h2, outs⟩ := r
      exact ⟨{ inputs := tin, outputs := tout,
               tape := (compile_simplify { heap := h1, parents_map := pm, tape := tape }
                 tout 3).tape,
               empty := false }, h2, _, rfl, rfl, rfl,
        hfr.compose (compile_replace_extends _ _ _ _ _ _ _ hr)⟩

/-- The wrapper on a hit: no trace, the stored tape is replayed. -/
theorem compiled_fun_hit (fn : CompileFn) (fun_id : Nat) (ys : List ArrId) (w : World)
    (old : List CacheEntry) (e : CacheEntry)
    (hget : cache_get w.cache fun_id = some (old ++ [e]))
    (hscan : scan_entries w.heap ys old 0 = .ok none)
    (hmatch : is_match w.heap ys e.inputs = .ok true) (hne : e.empty = false) :
    cache_find w.cache w.heap fun_id ys = (w.cache, .ok old.length) ∧
    compiled_fun fn fun_id ys w =
      match compile_replace w.heap e.tape e.inputs e.outputs ys with
      | .error err => (w, .error err)
      | .ok (h2, outs) => ({ w with heap := h2 }, .ok outs) := by
  have hfind : cache_find w.cache w.heap fun_id ys = (w.cache, .ok old.length) := by
    unfold cache_find
    simp only [hget, Option.getD_some, scan_entries_append, hscan, scan_entries, hmatch,
      cache_set_same _ _ _ hget, Nat.zero_add]
  refine ⟨hfind, ?_⟩
  unfold compiled_fun
  rw [hfind]
  simp only [hget, Option.getD_some]
  have hent : (old ++ [e]).getD old.length CacheEntry.fresh = e := by
    simp [List.getD_eq_getElem?_getD]
  rw [hent]
  simp only [hne, Bool.false_eq_true, if_false]

/-! ## The traversal finishes on graphs built in order -/

theorem foldlM_some {α σ : Type} (f : σ → α → Option σ) (l : List α) (s : σ)
    (hstep : ∀ s a, a ∈ l → ∃ s2, f s a = some s2) : ∃ r, l.foldlM f s = some r := by
  induction l generalizing s with
  | nil => exact ⟨s, rfl⟩
  | cons a rest ih =>
    obtain ⟨s2, hs2⟩ := hstep s a (List.mem_cons_self _ _)
    obtain ⟨r, hr⟩ := ih s2 (fun s3 a2 ha2 => hstep s3 a2 (List.mem_cons_of_mem _ ha2))
    exact ⟨r, by simp [List.foldlM_cons, hs2, hr]⟩

theorem recurse_terminates (h : Heap) (ins : List ArrId) (ho : Ordered h) :
    ∀ (fuel : Nat) (a : ArrId) (st : DfsState), a < fuel →
      ∃ st2, recurse h ins fuel a st = some st2 := by
  intro fuel
  induction fuel with
  | zero => intro a st ha; exact absurd ha (Nat.not_lt_zero _)
  | succ fuel ih =>
    intro a st ha
    simp only [recurse]
    by_cases hc : a ∈ st.cache
    · exact ⟨st, by simp [hc]⟩
    · simp only [hc, if_false]
      obtain ⟨r, hr⟩ := foldlM_some
        (dfs_edge h ins a (fun x s => recurse h ins fuel x s)) (h.inputs a).enum st
        (by
          intro s e he
          unfold dfs_edge
          dsimp only
          by_cases hin : a ∈ ins
          · simp only [hin, if_true]
            exact ⟨_, rfl⟩
          · simp only [hin, if_false]
            have hslot : (h.inputs a)[e.1]? = some e.2 := List.mem_enum_iff_getElem?.mp he
            have hlt := ho a e.2 (List.getElem?_mem hslot)
            exact ih e.2 _ (Nat.lt_of_lt_of_le hlt (Nat.lt_succ_iff.mp ha)))
      exact ⟨dfs_finish h a r, by simp [hr]⟩

theorem compile_dfs_terminates (fuel : Nat) (h : Heap) (ins outs : List ArrId) (ho : Ordered h)
    (houts : ∀ o ∈ outs, o < fuel) : ∃ r, compile_dfs fuel h ins outs = some r := by
  unfold compile_dfs
  obtain ⟨r, hr⟩ := foldlM_some (fun s a => recurse h ins fuel a s) outs
    { tape := [], parents_map := [], cache := [] }
    (fun s a ha => recurse_terminates h ins ho fuel a s (houts a ha))
  exact ⟨(r.tape, r.parents_map), by simp [hr]⟩

theorem make_tracers_ordered (xs : List ArrId) (h : Heap) (ho : Ordered h) :
    Ordered (make_tracers xs h).1 := by
  induction xs generalizing h with
  | nil => exact ho
  | cons a rest ih =>
    simp only [make_tracers]
    exact ih _ ((ho.cons_array _ _ _ _ (fun x hx => by cases hx)).mark_tracer _)

theorem tm_gather_error (m : TraceMap) (l : List ArrId) (err : CompileError)
    (h : tm_gather m l = .error err) : err = .out_of_range := by
  induction l with
  | nil => simp [tm_gather] at h
  | cons a rest ih =>
    simp only [tm_gather, tm_at] at h
    cases hf : tm_find m a with
    | none => simp only [hf] at h; injection h with h; exact h.symm
    | some v =>
      simp only [hf] at h
      cases hg : tm_gather m rest with
      | error e2 => simp only [hg] at h; injection h with h; subst h; exact ih hg
      | ok vs => simp [hg] at h

theorem replace_step_error (st : Heap × TraceMap) (a : ArrId) (err : CompileError)
    (h : replace_step st a = .error err) : err = .out_of_range := by
  unfold replace_step at h
  split at h
  · cases h
  · split at h
    · rename_i e2 hg
      injection h with h
      subst h
      exact tm_gather_error _ _ _ hg
    · split at h <;> cases h

theorem replace_tape_error (tape : List ArrId) (st : Heap × TraceMap) (err : CompileError)
    (h : replace_tape tape st = .error err) : err = .out_of_range := by
  induction tape generalizing st with
  | nil => simp [replace_tape] at h
  | cons a rest ih =>
    simp only [replace_tape] at h
    cases hs : replace_step st a with
    | error e2 =>
      simp only [hs] at h
      injection h with h
      subst h
      exact replace_step_error st a _ hs
    | ok st1 =>
      simp only [hs] at h
      exact ih st1 h

theorem compile_replace_error (h : Heap) (tape tin tout ins : List ArrId) (err : CompileError)
    (hr : compile_replace h tape tin tout ins = .error err) : err = .out_of_range := by
  unfold compile_replace at hr
  cases hs : replace_tape tape (h, seed_inputs tin ins) with
  | error e2 =>
    simp only [hs] at hr
    injection hr with hr
    subst hr
    exact replace_tape_error _ _ _ hs
  | ok st =>
    simp only [hs] at hr
    cases hg : tm_gather st.2 tout with
    | error e2 =>
      simp only [hg] at hr
      injection hr with hr
      subst hr
      exact tm_gather_error _ _ _ hg
    | ok o => simp [hg] at hr

/-! ## C2 -/

/-- C2: compilation being enabled (the wrapper was handed out), take a state
in which the lookup for `xs` under `fun_id` is a miss, a user function that
only constructs arrays and does not fail on the placeholders, and a second
input list `ys` with the signature of `xs`.  The first call of the wrapper
traces once; the second call traces no more: its lookup returns the entry the
first call stored, which is filled, and the call is the replay of the tape of
that entry on `ys`, leaving the cache as it is.  For a function that builds in
order the first call does not fail to finish the traversal. -/
theorem second_call_replays_without_tracing (fn : CompileFn) (fun_id : Nat)
    (xs ys : List ArrId) (w : World) (hbuild : Builds fn) (hxs : ∀ a ∈ xs, a < w.heap.next)
    (hcache : ∀ e ∈ (cache_get w.cache fun_id).getD [], ∀ a ∈ e.inputs, a < w.heap.next)
    (hmiss : scan_entries w.heap xs ((cache_get w.cache fun_id).getD []) 0 = .ok none)
    (hrun : (compile_trace fn w.heap xs).isSome = true)
    (hsig : SameSignature (compiled_fun fn fun_id xs w).1.heap ys w.heap xs) :
    (compiled_fun fn fun_id xs w).1.traces = w.traces + 1 ∧
    (compiled_fun fn fun_id ys (compiled_fun fn fun_id xs w).1).1.traces = w.traces + 1 ∧
    (∃ e, cache_get (compiled_fun fn fun_id xs w).1.cache fun_id =
        some ((cache_get w.cache fun_id).getD [] ++ [e]) ∧
      e.empty = false ∧
      (cache_find (compiled_fun fn fun_id xs w).1.cache (compiled_fun fn fun_id xs w).1.heap
        fun_id ys).2 = .ok ((cache_get w.cache fun_id).getD []).length ∧
      (compiled_fun fn fun_id ys (compiled_fun fn fun_id xs w).1).2 =
        (match compile_replace (compiled_fun fn fun_id xs w).1.heap e.tape e.inputs e.outputs
            ys with
         | .error err => .error err
         | .ok r => .ok r.2) ∧
      (compiled_fun fn fun_id ys (compiled_fun fn fun_id xs w).1).1.cache =
        (compiled_fun fn fun_id xs w).1.cache) ∧
    (Ordered w.heap → BuildsInOrder fn →
      (compiled_fun fn fun_id xs w).2 ≠ .error .no_termination) := by
  cases htr : compile_trace fn w.heap xs with
  | none => rw [htr] at hrun; cases hrun
  | some t =>
    obtain ⟨h1, tin, tout⟩ := t
    have hrun2 : fn.run (make_tracers xs w.heap).1 (make_tracers xs w.heap).2 = some (h1, tout)
        ∧ tin = (make_tracers xs w.heap).2 := by
      unfold compile_trace at htr
      dsimp only at htr
      cases hf : fn.run (make_tracers xs w.heap).1 (make_tracers xs w.heap).2 with
      | none => simp [hf] at htr
      | some r =>
        obtain ⟨h1b, outs⟩ := r
        simp only [hf, Option.some.injEq, Prod.mk.injEq] at htr
        obtain ⟨q1, q2, q3⟩ := htr
        subst q1 q2 q3
        exact ⟨rfl, rfl⟩
    obtain ⟨hext0, hfor⟩ := make_tracers_spec xs w.heap hxs
    have hext1 : Extends (make_tracers xs w.heap).1 h1 := hbuild _ _ _ _ hrun2.1
    refine ⟨?_, ?_, ?_, ?_⟩
    · obtain ⟨e, hF, out, hfirst, _, _, _⟩ :=
        first_call_summary fn fun_id xs w h1 tin tout hmiss htr
      rw [hfirst]
    · obtain ⟨e, hF, out, hfirst, he1, he2, hext2⟩ :=
        first_call_summary fn fun_id xs w h1 tin tout hmiss htr
      rw [hfirst] at hsig ⊢
      dsimp only at hsig ⊢
      have hscan : scan_entries hF ys ((cache_get w.cache fun_id).getD []) 0 = .ok none := by
        rw [scan_entries_congr w.heap hF ys xs hsig _ ?_ 0]
        · exact hmiss
        · intro e2 he2 a ha
          have hlt := hcache e2 he2 a ha
          have hall := (hext0.compose hext1).compose hext2
          exact ⟨hall.shape_eq a hlt, hall.dtype_eq a hlt⟩
      have hmatch : is_match hF ys e.inputs = .ok true := by
        apply is_match_same
        rw [he1, hrun2.2]
        refine forall2_join ys _ xs hsig hfor ?_
        intro y t x hx hp hq
        have hsh := hq.2 (hxs x hx)
        have e3 := hext1.compose hext2
        rw [hp.1, hp.2, e3.shape_eq t hq.1, e3.dtype_eq t hq.1]
        exact ⟨hsh.1.symm, hsh.2.symm⟩
      have hhit := (compiled_fun_hit fn fun_id ys
        { heap := hF,
          cache := cache_set w.cache fun_id ((cache_get w.cache fun_id).getD [] ++ [e]),
          compiler_disabled := w.compiler_disabled, traces := w.traces + 1 }
        ((cache_get w.cache fun_id).getD []) e (cache_get_set_same _ _ _) hscan hmatch he2).2
      rw [hhit]
      cases compile_replace hF e.tape e.inputs e.outputs ys with
      | error err => rfl
      | ok r => rfl
    · obtain ⟨e, hF, out, hfirst, he1, he2, hext2⟩ :=
        first_call_summary fn fun_id xs w h1 tin tout hmiss htr
      rw [hfirst] at hsig ⊢
      dsimp only at hsig ⊢
      have hscan : scan_entries hF ys ((cache_get w.cache fun_id).getD []) 0 = .ok none := by
        rw [scan_entries_congr w.heap hF ys xs hsig _ ?_ 0]
        · exact hmiss
        · intro e2 he2 a ha
          have hlt := hcache e2 he2 a ha
          have hall := (hext0.compose hext1).compose hext2
          exact ⟨hall.shape_eq a hlt, hall.dtype_eq a hlt⟩
      have hmatch : is_match hF ys e.inputs = .ok true := by
        apply is_match_same
        rw [he1, hrun2.2]
        refine forall2_join ys _ xs hsig hfor ?_
        intro y t x hx hp hq
        have hsh := hq.2 (hxs x hx)
        have e3 := hext1.compose hext2
        rw [hp.1, hp.2, e3.shape_eq t hq.1, e3.dtype_eq t hq.1]
        exact ⟨hsh.1.symm, hsh.2.symm⟩
      have hhit := compiled_fun_hit fn fun_id ys
        { heap := hF,
          cache := cache_set w.cache fun_id ((cache_get w.cache fun_id).getD [] ++ [e]),
          compiler_disabled := w.compiler_disabled, traces := w.traces + 1 }
        ((cache_get w.cache fun_id).getD []) e (cache_get_set_same _ _ _) hscan hmatch he2
      refine ⟨e, cache_get_set_same _ _ _, he2, ?_, ?_, ?_⟩
      · rw [hhit.1]
      · rw [hhit.2]
        cases compile_replace hF e.tape e.inputs e.outputs ys with
        | error err => rfl
        | ok r => rfl
      · rw [hhit.2]
        cases compile_replace hF e.tape e.inputs e.outputs ys with
        | error err => rfl
        | ok r => rfl
    · intro hord hbo
      have ho1 := hbo _ _ _ _ hrun2.1 (make_tracers_ordered xs w.heap hord)
      obtain ⟨r, hr⟩ := compile_dfs_terminates (h1.next + 1) h1 tin tout ho1.1
        (fun o ho => Nat.lt_succ_of_lt (ho1.2 o ho))
      rw [compiled_fun_traced fn fun_id xs w h1 tin tout hmiss htr, hr]
      obtain ⟨tape, pm⟩ := r
      dsimp only
      cases hrep : compile_replace
          (compile_simplify { heap := h1, parents_map := pm, tape := tape } tout 3).heap
          (compile_simplify { heap := h1, parents_map := pm, tape := tape } tout 3).tape
          tin tout xs with
      | error err =>
        dsimp only
        intro hcon
        injection hcon with hcon
        have := compile_replace_error _ _ _ _ _ _ hrep
        rw [hcon] at this
        cases this
      | ok r2 =>
        dsimp only
        intro hcon
        cases hcon

theorem f_twice_builds : Builds f_twice := by
  intro h ins h2 outs hr
  unfold f_twice at hr
  dsimp only at hr
  split at hr
  · simp only [Option.some.injEq, Prod.mk.injEq] at hr
    rw [← hr.1]
    exact (extends_new_array _ _ _ _ _).compose (extends_new_array _ _ _ _ _)
  · cases hr

theorem second_call_replays_without_tracing_witness :
    (compiled_fun f_twice 10 [0] world0).1.traces = world0.traces + 1 ∧
    (compiled_fun f_twice 10 [0] (compiled_fun f_twice 10 [0] world0).1).1.traces =
      world0.traces + 1 :=
  ⟨(second_call_replays_without_tracing f_twice 10 [0] [0] world0 f_twice_builds (by decide)
      (by intro e he; cases he) rfl rfl (List.Forall₂.cons ⟨rfl, rfl⟩ List.Forall₂.nil)).1,
   (second_call_replays_without_tracing f_twice 10 [0] [0] world0 f_twice_builds (by decide)
      (by intro e he; cases he) rfl rfl (List.Forall₂.cons ⟨rfl, rfl⟩ List.Forall₂.nil)).2.1⟩

/-! ## The substitution that `compile_replace` computes -/

theorem tm_insert_keeps (m : TraceMap) (k v x y : ArrId) (h : tm_find m x = some y) :
    tm_find (tm_insert m k v) x = some y := by
  unfold tm_insert
  cases hk : tm_find m k with
  | some w => exact h
  | none =>
    dsimp only
    clear hk
    induction m with
    | nil => simp [tm_find] at h
    | cons e rest ih =>
      obtain ⟨k1, v1⟩ := e
      simp only [tm_find, List.cons_append] at h ⊢
      split
      · rename_i hk1; rw [if_pos hk1] at h; exact h
      · rename_i hk1; rw [if_neg hk1] at h; exact ih h

theorem tm_find_append_new (m : TraceMap) (k v x : ArrId) (h : tm_find m x = none) :
    tm_find (m ++ [(k, v)]) x = if k = x then some v else none := by
  induction m with
  | nil => simp [tm_find]
  | cons e rest ih =>
    obtain ⟨k1, v1⟩ := e
    simp only [tm_find, List.cons_append] at h ⊢
    split
    · rename_i hk1; rw [if_pos hk1] at h; cases h
    · rename_i hk1; rw [if_neg hk1] at h; exact ih h

theorem tm_insert_new (m : TraceMap) (k v x : ArrId) (h : tm_find m x = none) :
    tm_find (tm_insert m k v) x = if k = x then some v else none := by
  unfold tm_insert
  cases hk : tm_find m k with
  | some w =>
    dsimp only
    rw [h]
    split
    · rename_i hkx; rw [hkx, h] at hk; cases hk
    · rfl
  | none => exact tm_find_append_new m k v x h

theorem tm_fold_keeps (l : List (ArrId × ArrId)) (m : TraceMap) (x y : ArrId)
    (h : tm_find m x = some y) :
    tm_find (l.foldl (fun m e => tm_insert m e.1 e.2) m) x = some y := by
  induction l generalizing m with
  | nil => exact h
  | cons e rest ih => exact ih _ (tm_insert_keeps m e.1 e.2 x y h)

theorem tm_fold_new (l : List (ArrId × ArrId)) (m : TraceMap) (x : ArrId)
    (h : tm_find m x = none) :
    tm_find (l.foldl (fun m e => tm_insert m e.1 e.2) m) x = tm_find l x := by
  induction l generalizing m with
  | nil => exact h
  | cons e rest ih =>
    obtain ⟨k, v⟩ := e
    simp only [List.foldl_cons, tm_find]
    have hn := tm_insert_new m k v x h
    split
    · rename_i hk
      rw [if_pos hk] at hn
      exact tm_fold_keeps rest _ x v hn
    · rename_i hk
      rw [if_neg hk] at hn
      exact ih _ hn

theorem seed_inputs_find (tin ins : List ArrId) (x : ArrId) :
    tm_find (seed_inputs tin ins) x = tm_find (tin.zip ins) x :=
  tm_fold_new (tin.zip ins) [] x rfl

theorem tm_find_zip_none (L R : List ArrId) (x : ArrId) (hx : x ∉ L) :
    tm_find (L.zip R) x = none := by
  induction L generalizing R with
  | nil => rfl
  | cons a rest ih =>
    cases R with
    | nil => rfl
    | cons r rs =>
      simp only [List.zip_cons_cons, tm_find]
      rw [if_neg (fun e => hx (by rw [← e]; exact List.mem_cons_self _ _))]
      exact ih rs (fun hm => hx (List.mem_cons_of_mem _ hm))

theorem tm_find_zip_some (L R : List ArrId) (x : ArrId) (hx : x ∈ L)
    (hl : L.length ≤ R.length) : ∃ v, tm_find (L.zip R) x = some v := by
  induction L generalizing R with
  | nil => cases hx
  | cons a rest ih =>
    cases R with
    | nil => simp at hl
    | cons r rs =>
      simp only [List.zip_cons_cons, tm_find]
      by_cases e : a = x
      · rw [if_pos e]; exact ⟨r, rfl⟩
      · rw [if_neg e]
        rcases List.mem_cons.mp hx with hx1 | hx1
        · exact (e hx1.symm).elim
        · exact ih rs hx1 (by simpa using hl)

theorem forall2_imp_mem {P Q : ArrId → ArrId → Prop} (l1 l2 : List ArrId)
    (h : List.Forall₂ P l1 l2) (himp : ∀ a b, a ∈ l1 → P a b → Q a b) :
    List.Forall₂ Q l1 l2 := by
  induction h with
  | nil => exact List.Forall₂.nil
  | cons hab _ ih =>
    exact List.Forall₂.cons (himp _ _ (List.mem_cons_self _ _) hab)
      (ih (fun a b ha hp => himp a b (List.mem_cons_of_mem _ ha) hp))

theorem tm_find_zip_nodup (L R : List ArrId) (hn : L.Nodup) (hl : L.length = R.length) :
    List.Forall₂ (fun o r => tm_find (L.zip R) o = some r) L R := by
  induction L generalizing R with
  | nil =>
    cases R with
    | nil => exact List.Forall₂.nil
    | cons r rs => simp at hl
  | cons a rest ih =>
    cases R with
    | nil => simp at hl
    | cons r rs =>
      rw [List.nodup_cons] at hn
      refine List.Forall₂.cons ?_ ?_
      · simp [tm_find]
      · refine forall2_imp_mem rest rs (ih rs hn.2 (by simpa using hl)) ?_
        intro o v ho hf
        simp only [List.zip_cons_cons, tm_find]
        rw [if_neg (fun e => hn.1 (by rw [e]; exact ho))]
        exact hf

theorem tm_find_zip_first (L R : List ArrId) (i : Nat) (hi : i < L.length)
    (hl : L.length ≤ R.length) (hfirst : ∀ j, j < i → L.getD j 0 ≠ L.getD i 0) :
    tm_find (L.zip R) (L.getD i 0) = some (R.getD i 0) := by
  induction L generalizing R i with
  | nil => simp at hi
  | cons a rest ih =>
    cases R with
    | nil => simp at hl
    | cons r rs =>
      cases i with
      | zero => simp [tm_find]
      | succ i =>
        simp only [List.zip_cons_cons, tm_find, List.getD_cons_succ]
        have h0 := hfirst 0 (Nat.succ_pos i)
        simp only [List.getD_cons_zero, List.getD_cons_succ] at h0
        rw [if_neg h0]
        refine ih rs i (by simpa using hi) (by simpa using hl) ?_
        intro j hj
        have := hfirst (j + 1) (Nat.succ_lt_succ hj)
        simpa only [List.getD_cons_succ] using this

theorem tm_gather_ok (m : TraceMap) (l : List ArrId)
    (h : ∀ o ∈ l, ∃ v, tm_find m o = some v) :
    ∃ vs, tm_gather m l = .ok vs ∧ List.Forall₂ (fun o r => tm_find m o = some r) l vs := by
  induction l with
  | nil => exact ⟨[], rfl, List.Forall₂.nil⟩
  | cons a rest ih =>
    obtain ⟨v, hv⟩ := h a (List.mem_cons_self _ _)
    obtain ⟨vs, hvs, hf⟩ := ih (fun o ho => h o (List.mem_cons_of_mem _ ho))
    refine ⟨v :: vs, ?_, List.Forall₂.cons hv hf⟩
    simp only [tm_gather, tm_at, hv, hvs]

theorem outputs_rebuild (l : List ArrId) (i : Nat) (hi : i < l.length) :
    (l.eraseIdx i).take i ++ l.getD i 0 :: (l.eraseIdx i).drop i = l := by
  induction l generalizing i with
  | nil => simp at hi
  | cons a rest ih =>
    cases i with
    | zero => simp
    | succ i =>
      simp only [List.eraseIdx_cons_succ, List.take_succ_cons, List.drop_succ_cons,
        List.getD_cons_succ, List.cons_append]
      rw [ih i (by simpa using hi)]

theorem make_arrays_old (h : Heap) (sig : List (List Int × Dtype)) (p : Primitive)
    (ins : List ArrId) (x : ArrId) (hx : x < h.next) :
    (h.make_arrays sig p ins).1.desc x = h.desc x := by
  unfold Heap.make_arrays
  dsimp only
  rw [if_neg (fun hc => Nat.lt_irrefl _ (Nat.lt_of_lt_of_le hx hc.1))]

theorem make_arrays_new (h : Heap) (sig : List (List Int × Dtype)) (p : Primitive)
    (ins : List ArrId) (i : Nat) (hi : i < sig.length) :
    (h.make_arrays sig p ins).1.desc (h.next + i) =
      { shape := (sig.getD i ([], ⟨0, 0⟩)).1, dtype := (sig.getD i ([], ⟨0, 0⟩)).2,
        primitive := some p, inputs := ins,
        siblings := (List.range' h.next sig.length).eraseIdx i,
        position := i, evaled := false, data := 0, tracer := false } := by
  unfold Heap.make_arrays
  dsimp only
  rw [if_pos ⟨Nat.le_add_right _ _, Nat.add_lt_add_left hi _⟩, Nat.add_sub_cancel_left]

theorem make_arrays_outputs (h : Heap) (sig : List (List Int × Dtype)) (p : Primitive)
    (ins : List ArrId) (i : Nat) (hi : i < sig.length) :
    (h.make_arrays sig p ins).1.outputs (h.next + i) = List.range' h.next sig.length := by
  unfold Heap.outputs
  rw [make_arrays_new h sig p ins i hi]
  dsimp only
  have hl : i < (List.range' h.next sig.length).length := by simpa using hi
  have hg : (List.range' h.next sig.length).getD i 0 = h.next + i := by
    rw [List.getD_eq_getElem _ _ hl]; simp
  rw [← hg]
  exact outputs_rebuild _ i hl

theorem outputs_self_mem (h : Heap) (a : ArrId) : a ∈ h.outputs a := by
  unfold Heap.outputs
  simp

theorem outputs_sibling_mem (h : Heap) (a s : ArrId) (hs : s ∈ h.siblings a) :
    s ∈ h.outputs a := by
  unfold Heap.outputs
  unfold Heap.siblings at hs
  rw [← List.take_append_drop (h.desc a).position (h.desc a).siblings] at hs
  rcases List.mem_append.mp hs with h1 | h1
  · exact List.mem_append_left _ h1
  · exact List.mem_append_right _ (List.mem_cons_of_mem _ h1)

theorem GroupsWF.group (h : Heap) (hwf : GroupsWF h) (a o : ArrId) (ho : o ∈ h.outputs a) :
    h.primitive o = h.primitive a ∧ h.inputs o = h.inputs a ∧ h.outputs o = h.outputs a := by
  rcases mem_outputs h a o ho with h1 | h1
  · rw [h1]; exact ⟨rfl, rfl, rfl⟩
  · exact (hwf a).2.2 o h1

theorem TraceGood.mono (h : Heap) (m0 : TraceMap) (hc hc2 : Heap) (m m2 : TraceMap)
    (k v : ArrId) (hnext : hc.next ≤ hc2.next)
    (hdesc : ∀ x, x < hc.next → hc2.desc x = hc.desc x)
    (hm : ∀ x y, tm_find m x = some y → tm_find m2 x = some y)
    (hg : TraceGood h m0 hc m k v) : TraceGood h m0 hc2 m2 k v := by
  rcases hg with hg | hg | ⟨p, hp, hlo, hhi, hsh, hdt, hpr, hin, hout⟩
  · exact Or.inl hg
  · exact Or.inr (Or.inl hg)
  · refine Or.inr (Or.inr ⟨p, hp, hlo, Nat.lt_of_lt_of_le hhi hnext, ?_, ?_, ?_, ?_, ?_⟩)
    · unfold Heap.shape at hsh ⊢; rw [hdesc v hhi]; exact hsh
    · unfold Heap.dtype at hdt ⊢; rw [hdesc v hhi]; exact hdt
    · unfold Heap.primitive at hpr ⊢; rw [hdesc v hhi]; exact hpr
    · unfold Heap.inputs at hin ⊢; rw [hdesc v hhi]
      exact hin.imp (fun _ _ hf => hm _ _ hf)
    · intro hs
      have := hout hs
      unfold Heap.outputs at this ⊢; rw [hdesc v hhi]
      exact this.imp (fun _ _ hf => hm _ _ hf)

theorem tm_find_zip_index (L R : List ArrId) (k v : ArrId)
    (h : tm_find (L.zip R) k = some v) :
    ∃ i, i < L.length ∧ i < R.length ∧ L.getD i 0 = k ∧ R.getD i 0 = v := by
  induction L generalizing R with
  | nil => simp [tm_find] at h
  | cons a rest ih =>
    cases R with
    | nil => simp [tm_find] at h
    | cons r rs =>
      simp only [List.zip_cons_cons, tm_find] at h
      by_cases e : a = k
      · rw [if_pos e] at h
        exact ⟨0, by simp, by simp, by simpa using e, by simpa using h⟩
      · rw [if_neg e] at h
        obtain ⟨i, h1, h2, h3, h4⟩ := ih rs h
        exact ⟨i + 1, by simpa using h1, by simpa using h2, by simpa using h3,
          by simpa using h4⟩

theorem forall2_exists_left {P : ArrId → ArrId → Prop} (l1 l2 : List ArrId)
    (h : List.Forall₂ P l1 l2) (a : ArrId) (ha : a ∈ l1) : ∃ b, P a b := by
  induction h with
  | nil => cases ha
  | cons hab _ ih =>
    rcases List.mem_cons.mp ha with h1 | h1
    · rw [h1]; exact ⟨_, hab⟩
    · exact ih h1

theorem replay_inv_none (h : Heap) (hwf : GroupsWF h) (m0 : TraceMap) (hc : Heap)
    (m : TraceMap) (pre : List ArrId) (b : ArrId) (hinv : ReplayInv h m0 hc m pre)
    (hp : h.primitive b = none) :
    ReplayInv h m0 hc (tm_insert m b b) (pre ++ [b]) := by
  obtain ⟨hheap, hseed, hcovr, hgood⟩ := hinv
  refine ⟨hheap, fun k v hk => tm_insert_keeps _ _ _ _ _ (hseed k v hk), ?_, ?_⟩
  · intro c hc1 o ho
    rcases List.mem_append.mp hc1 with h1 | h1
    · obtain ⟨v, hv⟩ := hcovr c h1 o ho
      exact ⟨v, tm_insert_keeps _ _ _ _ _ hv⟩
    · rw [List.mem_singleton] at h1
      rw [h1, outputs_of_single h b ((hwf b).2.1 hp), List.mem_singleton] at ho
      rw [ho]
      cases hmb : tm_find m b with
      | some w => exact ⟨w, tm_insert_keeps _ _ _ _ _ hmb⟩
      | none => exact ⟨b, by rw [tm_insert_new _ _ _ _ hmb, if_pos rfl]⟩
  · intro k v hk
    cases hmk : tm_find m k with
    | some w =>
      rw [tm_insert_keeps _ _ _ _ _ hmk] at hk
      rw [← Option.some.inj hk]
      exact TraceGood.mono h m0 hc hc m _ k w (Nat.le_refl _) (fun _ _ => rfl)
        (fun x y hxy => tm_insert_keeps _ _ _ _ _ hxy) (hgood k w hmk)
    | none =>
      rw [tm_insert_new _ _ _ _ hmk] at hk
      split at hk
      · rename_i hbk
        cases hk
        rw [← hbk]
        exact Or.inr (Or.inl ⟨hp, rfl⟩)
      · cases hk


theorem replay_inv_single (h : Heap) (m0 : TraceMap) (hc : Heap)
    (m : TraceMap) (pre : List ArrId) (b : ArrId) (p : Primitive) (ri : List ArrId)
    (hinv : ReplayInv h m0 hc m pre)
    (hp : h.primitive b = some p) (hs : h.siblings b = [])
    (hrf : List.Forall₂ (fun o r => tm_find m o = some r) (h.inputs b) ri) :
    ReplayInv h m0 (hc.new_array (h.shape b) (h.dtype b) (some p) ri).1
      (tm_insert m b hc.next) (pre ++ [b]) := by
  obtain ⟨⟨hnx, hds⟩, hseed, hcovr, hgood⟩ := hinv
  have hold : ∀ x, x < hc.next →
      (hc.new_array (h.shape b) (h.dtype b) (some p) ri).1.desc x = hc.desc x := by
    intro x hx
    unfold Heap.new_array
    dsimp only
    rw [Function.update_noteq (Nat.ne_of_lt hx)]
  have hnew : (hc.new_array (h.shape b) (h.dtype b) (some p) ri).1.desc hc.next =
      { shape := h.shape b, dtype := h.dtype b, primitive := some p, inputs := ri,
        siblings := [], position := 0, evaled := false, data := 0, tracer := false } := by
    unfold Heap.new_array
    dsimp only
    rw [Function.update_same]
  refine ⟨⟨Nat.le_succ_of_le hnx, fun x hx => ?_⟩,
    fun k v hk => tm_insert_keeps _ _ _ _ _ (hseed k v hk), ?_, ?_⟩
  · rw [hold x (Nat.lt_of_lt_of_le hx hnx)]; exact hds x hx
  · intro c hc1 o ho
    rcases List.mem_append.mp hc1 with h1 | h1
    · obtain ⟨v, hv⟩ := hcovr c h1 o ho
      exact ⟨v, tm_insert_keeps _ _ _ _ _ hv⟩
    · rw [List.mem_singleton] at h1
      rw [h1, outputs_of_single h b hs, List.mem_singleton] at ho
      rw [ho]
      cases hmb : tm_find m b with
      | some w => exact ⟨w, tm_insert_keeps _ _ _ _ _ hmb⟩
      | none => exact ⟨hc.next, by rw [tm_insert_new _ _ _ _ hmb, if_pos rfl]⟩
  · intro k v hk
    cases hmk : tm_find m k with
    | some w =>
      rw [tm_insert_keeps _ _ _ _ _ hmk] at hk
      rw [← Option.some.inj hk]
      exact TraceGood.mono h m0 hc _ m _ k w (Nat.le_succ _) hold
        (fun x y hxy => tm_insert_keeps _ _ _ _ _ hxy) (hgood k w hmk)
    | none =>
      have hk2 := hk
      rw [tm_insert_new _ _ _ _ hmk] at hk2
      split at hk2
      · rename_i hbk
        rw [← Option.some.inj hk2] at hk ⊢
        rw [← hbk] at hk ⊢
        refine Or.inr (Or.inr ⟨p, hp, hnx, Nat.lt_succ_self _, ?_, ?_, ?_, ?_, ?_⟩)
        · have e := congrArg ArrayDesc.shape hnew
          exact e
        · have e := congrArg ArrayDesc.dtype hnew
          exact e
        · exact congrArg ArrayDesc.primitive hnew
        · have e : (hc.new_array (h.shape b) (h.dtype b) (some p) ri).1.inputs hc.next = ri :=
            congrArg ArrayDesc.inputs hnew
          rw [e]
          exact hrf.imp (fun _ _ hf => tm_insert_keeps _ _ _ _ _ hf)
        · intro _
          rw [outputs_of_single h b hs]
          have : (hc.new_array (h.shape b) (h.dtype b) (some p) ri).1.outputs hc.next =
              [hc.next] := by
            unfold Heap.outputs; rw [hnew]; rfl
          rw [this]
          exact List.Forall₂.cons hk List.Forall₂.nil
      · cases hk2

theorem getD_map_sig (L : List ArrId) (f : ArrId → List Int × Dtype) (i : Nat)
    (hi : i < L.length) (d : List Int × Dtype) :
    (L.map f).getD i d = f (L.getD i 0) := by
  rw [List.getD_eq_getElem _ _ (by simpa using hi), List.getD_eq_getElem _ _ hi,
    List.getElem_map]

theorem replay_inv_multi (h : Heap) (hwf : GroupsWF h) (m0 : TraceMap) (hc : Heap)
    (m : TraceMap) (pre : List ArrId) (b : ArrId) (p : Primitive) (ri : List ArrId)
    (hinv : ReplayInv h m0 hc m pre)
    (hp : h.primitive b = some p)
    (hrf : List.Forall₂ (fun o r => tm_find m o = some r) (h.inputs b) ri) :
    ReplayInv h m0
      (hc.make_arrays ((h.outputs b).map (fun o => (h.shape o, h.dtype o))) p ri).1
      (((h.outputs b).zip (List.range' hc.next (h.outputs b).length)).foldl
        (fun m e => tm_insert m e.1 e.2) m) (pre ++ [b]) := by
  obtain ⟨⟨hnx, hds⟩, hseed, hcovr, hgood⟩ := hinv
  have hlen : ((h.outputs b).map (fun o => (h.shape o, h.dtype o))).length =
      (h.outputs b).length := List.length_map _ _
  refine ⟨⟨Nat.le_trans hnx (Nat.le_add_right _ _), fun x hx => ?_⟩,
    fun k v hk => tm_fold_keeps _ _ _ _ (hseed k v hk), ?_, ?_⟩
  · rw [make_arrays_old _ _ _ _ x (Nat.lt_of_lt_of_le hx hnx)]; exact hds x hx
  · intro c hc1 o ho
    rcases List.mem_append.mp hc1 with h1 | h1
    · obtain ⟨v, hv⟩ := hcovr c h1 o ho
      exact ⟨v, tm_fold_keeps _ _ _ _ hv⟩
    · rw [List.mem_singleton] at h1
      rw [h1] at ho
      cases hmo : tm_find m o with
      | some w => exact ⟨w, tm_fold_keeps _ _ _ _ hmo⟩
      | none =>
        rw [tm_fold_new _ _ _ hmo]
        exact tm_find_zip_some _ _ o ho (by simp)
  · intro k v hk
    cases hmk : tm_find m k with
    | some w =>
      rw [tm_fold_keeps _ _ _ _ hmk] at hk
      rw [← Option.some.inj hk]
      exact TraceGood.mono h m0 hc _ m _ k w (Nat.le_add_right _ _)
        (fun x hx => make_arrays_old _ _ _ _ x hx)
        (fun x y hxy => tm_fold_keeps _ _ _ _ hxy) (hgood k w hmk)
    | none =>
      rw [tm_fold_new _ _ _ hmk] at hk
      obtain ⟨i, hi, hi2, hLi, hRi⟩ := tm_find_zip_index _ _ k v hk
      rw [List.getD_eq_getElem _ _ hi2, List.getElem_range'] at hRi
      rw [Nat.one_mul] at hRi
      have hkL : k ∈ h.outputs b := by
        rw [← hLi, List.getD_eq_getElem _ _ hi]; exact List.getElem_mem _
      obtain ⟨gp, gi, go⟩ := hwf.group h b k hkL
      have hisig : i < ((h.outputs b).map (fun o => (h.shape o, h.dtype o))).length := by
        rw [hlen]; exact hi
      rw [← hRi]
      refine Or.inr (Or.inr ⟨p, gp.trans hp, Nat.le_trans hnx (Nat.le_add_right _ _),
        Nat.add_lt_add_left hisig _, ?_, ?_, ?_, ?_, ?_⟩)
      · have e := congrArg ArrayDesc.shape (make_arrays_new hc _ p ri i hisig)
        dsimp only at e
        rw [getD_map_sig _ _ i hi, hLi] at e
        exact e
      · have e := congrArg ArrayDesc.dtype (make_arrays_new hc _ p ri i hisig)
        dsimp only at e
        rw [getD_map_sig _ _ i hi, hLi] at e
        exact e
      · exact congrArg ArrayDesc.primitive (make_arrays_new hc _ p ri i hisig)
      · have e : (hc.make_arrays ((h.outputs b).map (fun o => (h.shape o, h.dtype o))) p
            ri).1.inputs (hc.next + i) = ri :=
          congrArg ArrayDesc.inputs (make_arrays_new hc _ p ri i hisig)
        rw [e, gi]
        exact hrf.imp (fun _ _ hf => tm_fold_keeps
          ((h.outputs b).zip (List.range' hc.next (h.outputs b).length)) _ _ _ hf)
      · intro hns
        rw [go] at hns ⊢
        rw [make_arrays_outputs _ _ _ _ i hisig, hlen]
        have hfresh : ∀ o ∈ h.outputs b, tm_find m o = none := by
          intro o ho
          cases hmo : tm_find m o with
          | none => rfl
          | some w =>
            exfalso
            obtain ⟨gpo, _, goo⟩ := hwf.group h b o ho
            rcases hgood o w hmo with hg | hg | ⟨q, hq, _, _, _, _, _, _, hout⟩
            · rw [hns o ho] at hg; cases hg
            · rw [gpo, hp] at hg; cases hg.1
            · rw [goo] at hout
              obtain ⟨y, hy⟩ := forall2_exists_left _ _ (hout hns) k hkL
              rw [hmk] at hy; cases hy
        refine forall2_imp_mem _ _
          (tm_find_zip_nodup (h.outputs b) (List.range' hc.next (h.outputs b).length)
            (hwf b).1 (by simp)) ?_
        intro o r ho hf
        rw [tm_fold_new _ _ _ (hfresh o ho)]
        exact hf

theorem replace_step_inv (h : Heap) (hwf : GroupsWF h) (m0 : TraceMap) (hc : Heap)
    (m : TraceMap) (pre : List ArrId) (b : ArrId) (hinv : ReplayInv h m0 hc m pre)
    (hb : ∀ o ∈ h.outputs b, o < h.next)
    (hcov : (h.primitive b).isSome = true → ∀ x ∈ h.inputs b, ∃ v, tm_find m x = some v) :
    ∃ hc2 m2, replace_step (hc, m) b = .ok (hc2, m2) ∧ ReplayInv h m0 hc2 m2 (pre ++ [b]) := by
  have hds := hinv.1.2
  have hdb : hc.desc b = h.desc b := hds b (hb b (outputs_self_mem h b))
  have hpb : hc.primitive b = h.primitive b := congrArg ArrayDesc.primitive hdb
  have hib : hc.inputs b = h.inputs b := congrArg ArrayDesc.inputs hdb
  have hsb : hc.siblings b = h.siblings b := congrArg ArrayDesc.siblings hdb
  have hshb : hc.shape b = h.shape b := congrArg ArrayDesc.shape hdb
  have hdtb : hc.dtype b = h.dtype b := congrArg ArrayDesc.dtype hdb
  have hob : hc.outputs b = h.outputs b := by unfold Heap.outputs; rw [hdb]
  unfold replace_step
  dsimp only
  rw [hpb]
  cases hp : h.primitive b with
  | none => exact ⟨hc, tm_insert m b b, rfl, replay_inv_none h hwf m0 hc m pre b hinv hp⟩
  | some p =>
    dsimp only
    rw [hib]
    obtain ⟨ri, hri, hrf⟩ := tm_gather_ok m (h.inputs b) (hcov (by rw [hp]; rfl))
    rw [hri]
    dsimp only
    rw [hsb]
    by_cases hs : (h.siblings b).isEmpty = true
    · rw [if_pos hs, hshb, hdtb]
      exact ⟨_, _, rfl, replay_inv_single h m0 hc m pre b p ri hinv hp
        (List.isEmpty_iff.mp hs) hrf⟩
    · rw [if_neg hs, hob]
      have hsig : (h.outputs b).map (fun o => (hc.shape o, hc.dtype o)) =
          (h.outputs b).map (fun o => (h.shape o, h.dtype o)) := by
        apply List.map_congr_left
        intro o ho
        have e := hds o (hb o ho)
        show ((hc.desc o).shape, (hc.desc o).dtype) = ((h.desc o).shape, (h.desc o).dtype)
        rw [e]
      rw [hsig]
      refine ⟨_, _, rfl, ?_⟩
      have := replay_inv_multi h hwf m0 hc m pre b p ri hinv hp hrf
      have e2 : (hc.make_arrays ((h.outputs b).map (fun o => (h.shape o, h.dtype o))) p ri).2 =
          List.range' hc.next (h.outputs b).length := by
        unfold Heap.make_arrays
        dsimp only
        rw [List.length_map]
      rw [e2]
      exact this

theorem replace_tape_inv (h : Heap) (hwf : GroupsWF h) (tin : List ArrId) (m0 : TraceMap)
    (hm0 : ∀ x ∈ tin, ∃ v, tm_find m0 x = some v) :
    ∀ (rest pre : List ArrId) (hc : Heap) (m : TraceMap), ReplayInv h m0 hc m pre →
      (∀ b ∈ rest, ∀ o ∈ h.outputs b, o < h.next) →
      (∀ r1 b r2, rest = r1 ++ b :: r2 → (h.primitive b).isSome = true →
        ∀ x ∈ h.inputs b, x ∈ tin ∨ ∃ c ∈ pre ++ r1, x ∈ h.outputs c) →
      ∃ hc2 m2, replace_tape rest (hc, m) = .ok (hc2, m2) ∧
        ReplayInv h m0 hc2 m2 (pre ++ rest) := by
  intro rest
  induction rest with
  | nil =>
    intro pre hc m hinv _ _
    exact ⟨hc, m, rfl, by rw [List.append_nil]; exact hinv⟩
  | cons b rest ih =>
    intro pre hc m hinv hal hrd
    have hcov : (h.primitive b).isSome = true →
        ∀ x ∈ h.inputs b, ∃ v, tm_find m x = some v := by
      intro hp x hx
      rcases hrd [] b rest rfl hp x hx with h1 | ⟨c, hc1, hxc⟩
      · obtain ⟨v, hv⟩ := hm0 x h1
        exact ⟨v, hinv.2.1 x v hv⟩
      · rw [List.append_nil] at hc1
        exact hinv.2.2.1 c hc1 x hxc
    obtain ⟨hc2, m2, hstep, hinv2⟩ := replace_step_inv h hwf m0 hc m pre b hinv
      (hal b (List.mem_cons_self _ _)) hcov
    obtain ⟨hc3, m3, htape, hinv3⟩ := ih (pre ++ [b]) hc2 m2 hinv2
      (fun c hc1 => hal c (List.mem_cons_of_mem _ hc1))
      (by
        intro r1 c r2 hr hp x hx
        rcases hrd (b :: r1) c r2 (by rw [hr]; rfl) hp x hx with h1 | ⟨d, hd, hxd⟩
        · exact Or.inl h1
        · exact Or.inr ⟨d, by simpa using hd, hxd⟩)
    refine ⟨hc3, m3, ?_, ?_⟩
    · simp only [replace_tape, hstep]; exact htape
    · rw [List.append_assoc] at hinv3; exact hinv3

theorem replay_ready_split (h : Heap) (tin tape : List ArrId) (hr : ReplayReady h tin tape)
    (r1 : List ArrId) (b : ArrId) (r2 : List ArrId) (ht : tape = r1 ++ b :: r2)
    (hp : (h.primitive b).isSome = true) (x : ArrId) (hx : x ∈ h.inputs b) :
    x ∈ tin ∨ ∃ c ∈ r1, x ∈ h.outputs c := by
  have hk : r1.length < tape.length := by rw [ht]; simp
  have hg : tape.getD r1.length 0 = b := by
    rw [ht, List.getD_eq_getElem?_getD, List.getElem?_append_right (Nat.le_refl _)]
    simp
  have := hr r1.length hk (by rw [hg]; exact hp) x (by rw [hg]; exact hx)
  rcases this with h1 | ⟨j, hj, hxj⟩
  · exact Or.inl h1
  · have hgj : tape.getD j 0 = r1.getD j 0 := by
      rw [ht, List.getD_eq_getElem?_getD, List.getD_eq_getElem?_getD,
        List.getElem?_append_left hj]
    have hmem : r1.getD j 0 ∈ r1 := by
      rw [List.getD_eq_getElem _ _ hj]; exact List.getElem_mem _
    rw [hgj] at hxj
    refine Or.inr ⟨r1.getD j 0, hmem, ?_⟩
    rcases hxj with h2 | h2
    · rw [h2]; exact outputs_self_mem h _
    · exact outputs_sibling_mem h _ x h2

theorem replay_inv_init (h : Heap) (m0 : TraceMap) : ReplayInv h m0 h m0 [] :=
  ⟨⟨Nat.le_refl _, fun _ _ => rfl⟩, fun _ _ hk => hk, fun _ hb => (by cases hb),
    fun _ _ hk => Or.inl hk⟩

theorem seed_inputs_mem (tin ins : List ArrId) (k v : ArrId)
    (h : tm_find (seed_inputs tin ins) k = some v) : k ∈ tin := by
  rw [seed_inputs_find] at h
  obtain ⟨i, hi, _, hk, _⟩ := tm_find_zip_index _ _ k v h
  rw [← hk, List.getD_eq_getElem _ _ hi]
  exact List.getElem_mem _

/-- C6: on a well-formed array store, for a tape in which the inputs of every
primitive-bearing array are placeholder inputs or occur, themselves or through
a sibling, earlier in the tape, with as many real inputs as placeholder inputs
and every placeholder output in the tape or among the placeholder inputs,
`compile_replace` succeeds, leaves the traced arrays untouched and returns one
array per placeholder output, the k-th being the substitution image of the k-th
placeholder output. -/
theorem compile_replace_substitutes (h : Heap) (tape tin tout ins : List ArrId)
    (hwf : GroupsWF h) (halloc : ∀ a ∈ tape, ∀ o ∈ h.outputs a, o < h.next)
    (hready : ReplayReady h tin tape) (hlen : ins.length = tin.length)
    (hout : ∀ o ∈ tout, o ∈ tape ∨ o ∈ tin) :
    ∃ h2 m outs, compile_replace h tape tin tout ins = .ok (h2, outs) ∧
      outs.length = tout.length ∧
      List.Forall₂ (fun o r => tm_find m o = some r) tout outs ∧
      (∀ x, x < h.next → h2.desc x = h.desc x) ∧
      Substitution h tape tin ins h2 m := by
  have hm0 : ∀ x ∈ tin, ∃ v, tm_find (seed_inputs tin ins) x = some v := by
    intro x hx
    rw [seed_inputs_find]
    exact tm_find_zip_some tin ins x hx (Nat.le_of_eq hlen.symm)
  obtain ⟨h2, m, htape, hinv⟩ := replace_tape_inv h hwf tin (seed_inputs tin ins) hm0 tape []
    h (seed_inputs tin ins) (replay_inv_init h _) halloc
    (fun r1 b r2 ht hp x hx => by
      rw [List.nil_append]
      exact replay_ready_split h tin tape hready r1 b r2 ht hp x hx)
  rw [List.nil_append] at hinv
  obtain ⟨⟨_, hds⟩, hseed, hcov, hgood⟩ := hinv
  obtain ⟨outs, hgo, hfo⟩ := tm_gather_ok m tout (by
    intro o ho
    rcases hout o ho with h1 | h1
    · exact hcov o h1 o (outputs_self_mem h o)
    · obtain ⟨v, hv⟩ := hm0 o h1
      exact ⟨v, hseed o v hv⟩)
  refine ⟨h2, m, outs, ?_, hfo.length_eq.symm, hfo, hds, ?_, ?_, ?_⟩
  · unfold compile_replace
    rw [htape]
    dsimp only
    rw [hgo]
  · intro i hi hfirst
    apply hseed
    rw [seed_inputs_find]
    exact tm_find_zip_first tin ins i hi (Nat.le_of_eq hlen.symm) hfirst
  · intro a ha hnin hp
    obtain ⟨v, hv⟩ := hcov a ha a (outputs_self_mem h a)
    rcases hgood a v hv with hg | hg | ⟨q, hq, _⟩
    · exact (hnin (seed_inputs_mem tin ins a v hg)).elim
    · rw [hv, hg.2]
    · rw [hp] at hq; cases hq
  · intro a ha hnin p hp
    obtain ⟨v, hv⟩ := hcov a ha a (outputs_self_mem h a)
    rcases hgood a v hv with hg | hg | ⟨q, hq, hlo, hhi, hsh, hdt, hpr, hin, hou⟩
    · exact (hnin (seed_inputs_mem tin ins a v hg)).elim
    · rw [hp] at hg; cases hg.1
    · rw [hp] at hq
      rw [← Option.some.inj hq] at hpr
      refine ⟨v, hv, hlo, hhi, hsh, hdt, hpr, hin, fun hno => hou (fun o ho => ?_)⟩
      rw [seed_inputs_find]
      exact tm_find_zip_none tin ins o (hno o ho)

theorem groups_wf_single (h : Heap) (a : ArrId) (hs : h.siblings a = []) :
    (h.outputs a).Nodup ∧ (h.primitive a = none → h.siblings a = []) ∧
      ∀ s ∈ h.siblings a,
        h.primitive s = h.primitive a ∧ h.inputs s = h.inputs a ∧ h.outputs s = h.outputs a := by
  refine ⟨?_, fun _ => hs, ?_⟩
  · rw [outputs_of_single h a hs]; exact List.nodup_singleton a
  · rw [hs]; intro s hm; cases hm

theorem split_heap_wf : GroupsWF split_heap := by
  have key : ∀ a : Nat, (split_heap.outputs a).Nodup ∧
      (split_heap.primitive a = none → split_heap.siblings a = []) ∧
      ∀ s ∈ split_heap.siblings a, split_heap.primitive s = split_heap.primitive a ∧
        split_heap.inputs s = split_heap.inputs a ∧
        split_heap.outputs s = split_heap.outputs a := by
    intro a
    rcases Nat.lt_or_ge a 5 with h5 | h5
    · interval_cases a <;> decide
    · apply groups_wf_single
      have h0 : a ≠ 0 := by omega
      have h1 : a ≠ 1 := by omega
      have h4 : a ≠ 4 := by omega
      have h3 : ¬ (2 ≤ a ∧ a < 4) := by omega
      simp [split_heap, unary, Heap.new_array, Heap.make_arrays, make_tracers,
        Heap.set_tracer, world0, constant, Heap.empty, Heap.siblings, Function.update,
        h0, h1, h4, h3, ArrayDesc.blank]
  exact key

theorem compile_replace_substitutes_witness :
    ∃ h2 m outs, compile_replace split_heap [2, 4] [1] [4, 2] [0] = .ok (h2, outs) ∧
      outs.length = 2 ∧ Substitution split_heap [2, 4] [1] [0] h2 m :=
  match compile_replace_substitutes split_heap [2, 4] [1] [4, 2] [0] split_heap_wf
    (by decide) (by decide) rfl (by decide) with
  | ⟨h2, m, outs, h1, hl, _, _, hs⟩ => ⟨h2, m, outs, h1, hl, hs⟩

/-! ## `compile_reduce` on small graphs -/

/-- C14: `compile_reduce` never reads `max_compile_size`.  On the chain of nine
`exp` over an `arange`, traversed by `compile_dfs`, it produces the `Compiled`
node 10 whose sub-tape holds ten arrays with a primitive, nine of them
fusable. -/
theorem reduce_ignores_max_compile_size :
    ∃ tape pm s, compile_dfs 11 (chain_heap 9) [] [9] = some (tape, pm) ∧
      compile_reduce { heap := chain_heap 9, parents_map := pm, tape := tape } [9] = .ok s ∧
      10 ∈ s.tape ∧ is_compiled s.heap 10 = true ∧
      ((sub_tape s.heap 10).filter (fun a => s.heap.has_primitive a)).length = 10 ∧
      ((sub_tape s.heap 10).filter (fun a => !not_fusable s.heap a)).length = 9 ∧
      max_compile_size < 9 :=
  ⟨_, _, _, rfl, rfl, by decide, by decide, by decide, by decide, by decide⟩

/-- C15: the slice `fused_tape` starts at the array at which the extension
stopped.  On `exp(arange(4))` the `Compiled` node 2 has the sub-tape `[0, 1]`,
and array 0, the `arange`, is not fusable. -/
theorem reduce_sub_tape_holds_non_fusable :
    ∃ tape pm s, compile_dfs 3 (chain_heap 1) [] [1] = some (tape, pm) ∧
      compile_reduce { heap := chain_heap 1, parents_map := pm, tape := tape } [1] = .ok s ∧
      s.tape = [2] ∧ is_compiled s.heap 2 = true ∧ sub_tape s.heap 2 = [0, 1] ∧
      not_fusable s.heap 0 = true :=
  ⟨_, _, _, rfl, rfl, by decide, by decide, by decide, by decide⟩

/-- C16: at a position where the extension stops at once nothing is pushed to
the new tape.  On `matmul(a, exp(a))` with `a = arange(4)` the tape `[0, 1, 2]`
becomes `[1, 3]`: the `matmul` (array 2) and the `arange` (array 0) are gone, and
array 3 is a `Compiled` node made for the single `exp`. -/
theorem reduce_drops_unfused_arrays :
    ∃ tape pm s, compile_dfs 4 matmul_heap [] [2] = some (tape, pm) ∧ tape = [0, 1, 2] ∧
      compile_reduce { heap := matmul_heap, parents_map := pm, tape := tape } [2] = .ok s ∧
      s.tape = [1, 3] ∧ 2 ∉ s.tape ∧ 0 ∉ s.tape ∧ is_compiled s.heap 3 = true ∧
      sub_tape s.heap 3 = [0, 1] :=
  ⟨_, _, _, rfl, rfl, rfl, by decide, by decide, by decide, by decide, by decide⟩

/-- C17: the outer loop moves one position at a time, so the regions overlap.
On `exp(exp(arange(4)))` the result holds the `Compiled` nodes 3 and 5, and
array 1 is in the sub-tape of both. -/
theorem reduce_regions_overlap :
    ∃ tape pm s, compile_dfs 4 (chain_heap 2) [] [2] = some (tape, pm) ∧
      compile_reduce { heap := chain_heap 2, parents_map := pm, tape := tape } [2] = .ok s ∧
      3 ∈ s.tape ∧ 5 ∈ s.tape ∧ is_compiled s.heap 3 = true ∧ is_compiled s.heap 5 = true ∧
      1 ∈ sub_tape s.heap 3 ∧ 1 ∈ sub_tape s.heap 5 :=
  ⟨_, _, _, rfl, rfl, by decide, by decide, by decide, by decide, by decide, by decide⟩

/-! ## The classification of primitives and the flag at start -/

/-- C19: `is_binary` also holds for `LogicalNot`, a kind that the claim does
not list and that `is_unary` accepts as well. -/
theorem is_binary_holds_for_logical_not :
    is_binary ⟨0, PrimKind.LogicalNot, 0, 0, [], [], []⟩ = true ∧
    is_unary ⟨0, PrimKind.LogicalNot, 0, 0, [], [], []⟩ = true ∧
    PrimKind.LogicalNot ∉ binary_kinds := by
  decide

/-- C20 (counterexample): with MLX_DISABLE_COMPILE set to the empty string the
flag starts as true and `compile` returns the function itself. -/
theorem empty_variable_disables_compile :
    (World.start (some "") Heap.empty).compiler_disabled = true ∧
    compile (World.start (some "") Heap.empty) f_twice = .ok (.direct f_twice) :=
  ⟨rfl, rfl⟩

/-- C20 (amended): the flag starts as true exactly when the variable
MLX_DISABLE_COMPILE is set, whatever its value; `compile` then returns the
function itself, and when the variable is unset it returns the caching wrapper
for an addressable function and throws for any other. -/
theorem flag_starts_set_iff_variable_is_set (env : Option String) (h : Heap) (fn : CompileFn) :
    (World.start env h).compiler_disabled = env.isSome ∧
    compile (World.start env h) fn =
      match env with
      | some _ => .ok (.direct fn)
      | none =>
        match fn.address with
        | none => .error .non_addressable
        | some fun_id => .ok (.compiled fn fun_id) := by
  cases env with
  | some v => exact ⟨rfl, rfl⟩
  | none =>
    refine ⟨rfl, ?_⟩
    cases ha : fn.address with
    | none => simp [compile, World.start, get_val, ha]
    | some fun_id => simp [compile, World.start, get_val, ha, detail_compile]

/-! ## Erasing a function from the cache -/

theorem cache_get_erase_same (c : Cache) (k : Nat) : cache_get (cache_erase c k) k = none := by
  induction c with
  | nil => rfl
  | cons e rest ih =>
    obtain ⟨k1, l⟩ := e
    by_cases h1 : k1 = k
    · simp only [cache_erase, h1, if_true]; exact ih
    · simp only [cache_erase, h1, if_false, cache_get]; exact ih

theorem cache_get_erase_other (c : Cache) (k k2 : Nat) (hne : k2 ≠ k) :
    cache_get (cache_erase c k) k2 = cache_get c k2 := by
  induction c with
  | nil => rfl
  | cons e rest ih =>
    obtain ⟨k1, l⟩ := e
    by_cases h1 : k1 = k
    · have h2 : ¬ k1 = k2 := fun e2 => hne (e2.symm.trans h1)
      simp only [cache_erase, h1, if_true, cache_get]
      rw [← h1, if_neg h2, h1]
      exact ih
    · simp only [cache_erase, h1, if_false, cache_get]
      rw [ih]

/-- C13: after `compile_erase(fun_id)` the cache holds nothing under `fun_id`
and what it holds under every other key is unchanged; the next call of a
wrapper with that `fun_id`, whatever the inputs, gets a fresh empty entry at
index 0 of a list that holds nothing else, and calls the user function once. -/
theorem erase_forgets_function (w : World) (fun_id : Nat) (fn : CompileFn) (xs : List ArrId) :
    cache_get (compile_erase w fun_id).cache fun_id = none ∧
    (∀ k, k ≠ fun_id → cache_get (compile_erase w fun_id).cache k = cache_get w.cache k) ∧
    (compile_erase w fun_id).heap = w.heap ∧
    cache_find (compile_erase w fun_id).cache (compile_erase w fun_id).heap fun_id xs =
      (cache_set (compile_erase w fun_id).cache fun_id [CacheEntry.fresh], .ok 0) ∧
    (compiled_fun fn fun_id xs (compile_erase w fun_id)).1.traces = w.traces + 1 := by
  have hnone : cache_get (compile_erase w fun_id).cache fun_id = none :=
    cache_get_erase_same w.cache fun_id
  have hmiss : scan_entries (compile_erase w fun_id).heap xs
      ((cache_get (compile_erase w fun_id).cache fun_id).getD []) 0 = .ok none := by
    rw [hnone]; rfl
  refine ⟨hnone, fun k hk => cache_get_erase_other w.cache fun_id k hk, rfl, ?_, ?_⟩
  · have := cache_find_miss _ _ _ _ hmiss
    rw [hnone] at this
    exact this
  · cases ht : compile_trace fn (compile_erase w fun_id).heap xs with
    | none =>
      rw [compiled_fun_failed_trace fn fun_id xs _ hmiss ht]
      rfl
    | some r =>
      obtain ⟨h1, tin, tout⟩ := r
      obtain ⟨e, hF, out, hc, _⟩ := first_call_summary fn fun_id xs _ h1 tin tout hmiss ht
      rw [hc]
      rfl

/-! ## The lookup in the cache -/

theorem is_match_of_length (h : Heap) (inputs stored : List ArrId)
    (hl : stored.length = inputs.length) :
    is_match h inputs stored = .ok (signature_matches h inputs stored) := by
  unfold is_match signature_matches
  rw [if_neg (fun hne => hne hl.symm)]
  simp [hl]

theorem scan_entries_first_match (h : Heap) (inputs : List ArrId) :
    ∀ (l : List CacheEntry) (i0 : Nat),
      (∀ e ∈ scanned h inputs l, e.inputs.length = inputs.length) →
      scan_entries h inputs l i0 = .ok ((first_match h inputs l).map (fun i => i0 + i)) := by
  intro l
  induction l with
  | nil => intro i0 _; rfl
  | cons e rest ih =>
    intro i0 hlen
    have he : e.inputs.length = inputs.length := by
      apply hlen
      unfold scanned
      cases first_match h inputs (e :: rest) with
      | none => exact List.mem_cons_self _ _
      | some i => simp
    simp only [scan_entries, first_match, is_match_of_length h inputs e.inputs he]
    by_cases hm : signature_matches h inputs e.inputs = true
    · simp [hm]
    · have hm2 : signature_matches h inputs e.inputs = false := by simpa using hm
      simp only [hm2]
      have hrest : ∀ e2 ∈ scanned h inputs rest, e2.inputs.length = inputs.length := by
        intro e2 he2
        apply hlen
        unfold scanned at he2 ⊢
        simp only [first_match, hm2]
        cases hf : first_match h inputs rest with
        | none =>
          rw [hf] at he2
          simpa using Or.inr he2
        | some i =>
          rw [hf] at he2
          simp only [Bool.false_eq_true, if_false, Option.map_some', List.take_succ_cons]
          exact List.mem_cons_of_mem _ he2
      rw [ih (i0 + 1) hrest]
      cases first_match h inputs rest with
      | none => rfl
      | some i => simp [Nat.add_assoc, Nat.add_comm 1 i]

/-- C12: when every entry that the lookup scans under `fun_id` has as many
inputs as `inputs`, `find` returns the index of the first entry whose stored
inputs match and the list under `fun_id` is what it was; when no entry matches
it returns the index of one new entry, `CacheEntry{}`, appended to that list.
The lists under every other `fun_id` are unchanged. -/
theorem find_returns_first_match (c : Cache) (h : Heap) (fun_id : Nat) (inputs : List ArrId)
    (hlen : ∀ e ∈ scanned h inputs ((cache_get c fun_id).getD []),
      e.inputs.length = inputs.length) :
    (match first_match h inputs ((cache_get c fun_id).getD []) with
     | some i =>
       (cache_find c h fun_id inputs).2 = .ok i ∧
       cache_get c fun_id = some ((cache_get c fun_id).getD []) ∧
       cache_get (cache_find c h fun_id inputs).1 fun_id = cache_get c fun_id
     | none =>
       (cache_find c h fun_id inputs).2 = .ok ((cache_get c fun_id).getD []).length ∧
       cache_get (cache_find c h fun_id inputs).1 fun_id =
         some ((cache_get c fun_id).getD [] ++ [CacheEntry.fresh])) ∧
    ∀ k, k ≠ fun_id → cache_get (cache_find c h fun_id inputs).1 k = cache_get c k := by
  have hscan := scan_entries_first_match h inputs ((cache_get c fun_id).getD []) 0 hlen
  unfold cache_find
  dsimp only
  rw [hscan]
  cases hf : first_match h inputs ((cache_get c fun_id).getD []) with
  | none =>
    dsimp only [Option.map_none']
    exact ⟨⟨rfl, cache_get_set_same _ _ _⟩, fun k hk => cache_get_set_other _ _ _ _ hk⟩
  | some i =>
    dsimp only [Option.map_some']
    refine ⟨⟨by rw [Nat.zero_add], ?_, ?_⟩, fun k hk => cache_get_set_other _ _ _ _ hk⟩
    · cases hg : cache_get c fun_id with
      | none => rw [hg] at hf; simp [first_match] at hf
      | some l => rfl
    · cases hg : cache_get c fun_id with
      | none => rw [hg] at hf; simp [first_match] at hf
      | some l => exact cache_get_set_same _ _ _

theorem find_returns_first_match_witness :
    (cache_find [(7, [⟨[0], [], [], false⟩])] world0.heap 7 [0]).2 = .ok 0 ∧
    (cache_find [(7, [⟨[0], [], [], false⟩])] world0.heap 7 [0]).1 =
      [(7, [⟨[0], [], [], false⟩])] :=
  ⟨(find_returns_first_match [(7, [⟨[0], [], [], false⟩])] world0.heap 7 [0]
      (by decide)).1.1, rfl⟩

/-! ## What the wrapper stores -/

/-- C11 (counterexample): the first call of the wrapper of `f(x) = exp(arange(4))`
stores the tape `[2, 3]` that `compile_simplify` leaves, while `compile_reduce`
on the same state yields the tape `[4]` with a `Compiled` node. -/
theorem wrapper_stores_unpartitioned_tape :
    cache_get world0.cache 13 = none ∧
    cache_get (compiled_fun f_source 13 [0] world0).1.cache 13 =
      some [{ inputs := [1], outputs := [3], tape := [2, 3], empty := false }] ∧
    ∃ tape pm s, compile_dfs 5 (traced f_source) [1] [3] = some (tape, pm) ∧
      (compile_simplify { heap := traced f_source, parents_map := pm, tape := tape } [3] 3).tape
        = [2, 3] ∧
      compile_reduce
        (compile_simplify { heap := traced f_source, parents_map := pm, tape := tape } [3] 3)
        [3] = .ok s ∧
      s.tape = [4] ∧ is_compiled s.heap 4 = true :=
  ⟨rfl, by decide, _, _, _, rfl, by decide, rfl, by decide, by decide⟩

/-- C11 (amended): on a cache miss on which the trace and the traversal
return, the wrapper stores under `fun_id` one more entry holding the
placeholder inputs and outputs of the trace and the tape that three passes of
`compile_simplify` leave of the tape of `compile_dfs`; `compile_reduce` is not
run. -/
theorem wrapper_stores_simplified_tape (fn : CompileFn) (fun_id : Nat) (xs : List ArrId)
    (w : World) (h1 : Heap) (tin tout tape : List ArrId) (pm : ParentsMap)
    (hmiss : scan_entries w.heap xs ((cache_get w.cache fun_id).getD []) 0 = .ok none)
    (htrace : compile_trace fn w.heap xs = some (h1, tin, tout))
    (hdfs : compile_dfs (h1.next + 1) h1 tin tout = some (tape, pm)) :
    cache_get (compiled_fun fn fun_id xs w).1.cache fun_id =
      some ((cache_get w.cache fun_id).getD [] ++
        [{ inputs := tin, outputs := tout,
           tape := (compile_simplify { heap := h1, parents_map := pm, tape := tape } tout 3).tape,
           empty := false }]) ∧
    (compiled_fun fn fun_id xs w).2 =
      match compile_replace
          (compile_simplify { heap := h1, parents_map := pm, tape := tape } tout 3).heap
          (compile_simplify { heap := h1, parents_map := pm, tape := tape } tout 3).tape
          tin tout xs with
      | .error err => .error err
      | .ok r => .ok r.2 := by
  rw [compiled_fun_traced fn fun_id xs w h1 tin tout hmiss htrace, hdfs]
  dsimp only
  cases hr : compile_replace
      (compile_simplify { heap := h1, parents_map := pm, tape := tape } tout 3).heap
      (compile_simplify { heap := h1, parents_map := pm, tape := tape } tout 3).tape
      tin tout xs with
  | error err => exact ⟨cache_get_set_same _ _ _, rfl⟩
  | ok r => exact ⟨cache_get_set_same _ _ _, rfl⟩

theorem wrapper_stores_simplified_tape_witness :
    cache_get (compiled_fun f_twice 10 [0] world0).1.cache 10 =
      some [{ inputs := [1], outputs := [2, 3], tape := [1, 2, 3], empty := false }] :=
  (wrapper_stores_simplified_tape f_twice 10 [0] world0 (traced f_twice) [1] [2, 3] _ _
    rfl rfl rfl).1

/-! ## The tape of `compile_dfs` is a topological order -/

theorem recurse_terminates_ranked (h : Heap) (ins : List ArrId) (r : ArrId → Nat)
    (hr : ∀ p, ∀ x ∈ h.inputs p, r x < r p) :
    ∀ (fuel : Nat) (a : ArrId) (st : DfsState), r a < fuel →
      ∃ st2, recurse h ins fuel a st = some st2 := by
  intro fuel
  induction fuel with
  | zero => intro a st ha; exact absurd ha (Nat.not_lt_zero _)
  | succ fuel ih =>
    intro a st ha
    simp only [recurse]
    by_cases hc : a ∈ st.cache
    · exact ⟨st, by simp [hc]⟩
    · simp only [hc, if_false]
      obtain ⟨s, hs⟩ := foldlM_some
        (dfs_edge h ins a (fun x s => recurse h ins fuel x s)) (h.inputs a).enum st
        (by
          intro s e he
          unfold dfs_edge
          dsimp only
          by_cases hin : a ∈ ins
          · simp only [hin, if_true]
            exact ⟨_, rfl⟩
          · simp only [hin, if_false]
            have hslot : (h.inputs a)[e.1]? = some e.2 := List.mem_enum_iff_getElem?.mp he
            have hlt := hr a e.2 (List.getElem?_mem hslot)
            exact ih e.2 _ (Nat.lt_of_lt_of_le hlt (Nat.lt_succ_iff.mp ha)))
      exact ⟨dfs_finish h a s, by simp [hs]⟩

theorem rank_le_foldr_max (r : ArrId → Nat) (l : List ArrId) (o : ArrId) (ho : o ∈ l) :
    r o ≤ (l.map r).foldr max 0 := by
  induction l with
  | nil => cases ho
  | cons a rest ih =>
    simp only [List.map_cons, List.foldr_cons]
    rcases List.mem_cons.mp ho with h1 | h1
    · rw [h1]; exact Nat.le_max_left _ _
    · exact Nat.le_trans (ih h1) (Nat.le_max_right _ _)

theorem recurse_tape (h : Heap) (ins : List ArrId) (hleaf : ∀ i ∈ ins, h.inputs i = []) :
    ∀ (fuel : Nat) (a : ArrId) (st st2 : DfsState), recurse h ins fuel a st = some st2 →
      TapeInv h st →
      TapeInv h st2 ∧ a ∈ st2.cache ∧ ∀ x ∈ st.cache, x ∈ st2.cache := by
  intro fuel
  induction fuel with
  | zero => intro a st st2 hr; simp [recurse] at hr
  | succ fuel ih =>
    intro a st st2 hr hinv
    simp only [recurse] at hr
    by_cases hc : a ∈ st.cache
    · simp only [hc, if_true, Option.some.injEq] at hr
      subst hr
      exact ⟨hinv, hc, fun _ hx => hx⟩
    · simp only [hc, if_false] at hr
      cases hf : (h.inputs a).enum.foldlM
          (dfs_edge h ins a (fun x s => recurse h ins fuel x s)) st with
      | none => simp [hf] at hr
      | some s =>
        simp only [hf, Option.some.injEq] at hr
        subst hr
        have key := foldlM_option_inv
          (fun (pre : List (Nat × ArrId)) (s : DfsState) =>
            TapeInv h s ∧ (∀ x ∈ st.cache, x ∈ s.cache) ∧
            (a ∉ ins → ∀ e ∈ pre, e.2 ∈ s.cache))
          (dfs_edge h ins a (fun x s => recurse h ins fuel x s))
          (h.inputs a).enum st s []
          ⟨hinv, fun _ hx => hx, fun _ e he => by cases he⟩ hf
          (by
            intro p e s1 s2 he hP hstep
            obtain ⟨hI, hC, hV⟩ := hP
            have hI1 : TapeInv h { s1 with parents_map := record_edge h a s1.parents_map e } :=
              ⟨hI.1, hI.2⟩
            unfold dfs_edge at hstep
            dsimp only at hstep
            by_cases hin : a ∈ ins
            · simp only [hin, if_true, Option.some.injEq] at hstep
              subst hstep
              exact ⟨hI1, hC, fun hn => absurd hin hn⟩
            · simp only [hin, if_false] at hstep
              obtain ⟨hI2, hm2, hC2⟩ := ih e.2 _ s2 hstep hI1
              refine ⟨hI2, fun x hx => hC2 x (hC x hx), fun _ e2 he2 => ?_⟩
              rcases List.mem_append.mp he2 with h1 | h1
              · exact hC2 _ (hV hin e2 h1)
              · rw [List.mem_singleton] at h1
                rw [h1]; exact hm2)
        simp only [List.nil_append] at key
        obtain ⟨hI, hC, hV⟩ := key
        refine ⟨⟨?_, ?_⟩, ?_, ?_⟩
        · simp only [dfs_finish]
          rw [tape_family_append, hI.1]
        · intro pre b post hsplit x hx
          simp only [dfs_finish] at hsplit
          rcases List.eq_nil_or_concat post with hp | ⟨post2, c, hp⟩
          · subst hp
            have hh := List.append_inj_left' hsplit rfl
            have hb := List.append_inj_right' hsplit rfl
            have hba : a = b := by simpa using hb
            subst hba
            rw [← hh, ← hI.1]
            by_cases hin : a ∈ ins
            · rw [hleaf a hin] at hx; cases hx
            · obtain ⟨i, hi⟩ := List.mem_iff_getElem?.mp hx
              exact hV hin (i, x) (List.mem_enum_iff_getElem?.mpr hi)
          · subst hp
            have hsplit2 : s.tape ++ [a] = (pre ++ b :: post2) ++ [c] := by
              rw [hsplit]; simp
            have hh := List.append_inj_left' hsplit2 rfl
            exact hI.2 pre b post2 hh x hx
        · simp only [dfs_finish, List.mem_append, List.mem_cons]
          exact Or.inr (Or.inl trivial)
        · intro x hx
          simp only [dfs_finish, List.mem_append]
          exact Or.inl (hC x hx)

theorem mem_take_index (l : List ArrId) (k : Nat) (b : ArrId) (hb : b ∈ l.take k) :
    ∃ j, j < k ∧ b = l.getD j 0 := by
  induction l generalizing k with
  | nil => simp at hb
  | cons a rest ih =>
    cases k with
    | zero => simp at hb
    | succ k =>
      rw [List.take_succ_cons] at hb
      rcases List.mem_cons.mp hb with h1 | h1
      · exact ⟨0, Nat.succ_pos k, by simpa using h1⟩
      · obtain ⟨j, hj, hbj⟩ := ih k h1
        exact ⟨j + 1, Nat.succ_lt_succ hj, by simpa using hbj⟩

theorem tape_inv_valid (h : Heap) (st : DfsState) (hinv : TapeInv h st) :
    TapeValid h [] st.tape := by
  intro k hk x hx
  have hsplit : st.tape = st.tape.take k ++ st.tape.getD k 0 :: st.tape.drop (k + 1) := by
    rw [List.getD_eq_getElem _ _ hk]
    rw [← List.drop_eq_getElem_cons hk, List.take_append_drop]
  have hm := hinv.2 _ _ _ hsplit x hx
  obtain ⟨b, hb, hxb⟩ := mem_tape_family h _ x hm
  obtain ⟨j, hj, hbj⟩ := mem_take_index st.tape k b hb
  rw [hbj] at hxb
  exact Or.inr ⟨j, hj, hxb⟩

/-- C18: for an acyclic graph whose declared inputs have no operands,
`compile_dfs` returns with enough fuel, and whenever it returns, every input of
every tape array is an earlier tape array or a sibling of one, and every
declared output is a tape array or a sibling of one. -/
theorem dfs_tape_is_topological (h : Heap) (ins outs : List ArrId) (hac : Acyclic h)
    (hleaf : ∀ i ∈ ins, h.inputs i = []) :
    (∃ fuel r, compile_dfs fuel h ins outs = some r) ∧
    ∀ fuel tape pm, compile_dfs fuel h ins outs = some (tape, pm) →
      TapeValid h [] tape ∧ OutputsKept h [] outs tape := by
  constructor
  · obtain ⟨r, hr⟩ := hac
    refine ⟨(outs.map r).foldr max 0 + 1, ?_⟩
    unfold compile_dfs
    obtain ⟨s, hs⟩ := foldlM_some
      (fun s a => recurse h ins ((outs.map r).foldr max 0 + 1) a s) outs
      { tape := [], parents_map := [], cache := [] }
      (fun s a ha => recurse_terminates_ranked h ins r hr _ a s
        (Nat.lt_succ_of_le (rank_le_foldr_max r outs a ha)))
    exact ⟨(s.tape, s.parents_map), by simp [hs]⟩
  · intro fuel tape pm hdfs
    unfold compile_dfs at hdfs
    cases hf : outs.foldlM (fun s a => recurse h ins fuel a s)
        { tape := [], parents_map := [], cache := [] } with
    | none => simp [hf] at hdfs
    | some s =>
      simp only [hf, Option.some.injEq, Prod.mk.injEq] at hdfs
      have key := foldlM_option_inv
        (fun (pre : List ArrId) (s : DfsState) => TapeInv h s ∧ ∀ o ∈ pre, o ∈ s.cache)
        (fun s a => recurse h ins fuel a s) outs
        { tape := [], parents_map := [], cache := [] } s []
        ⟨⟨rfl, fun pre b post hsplit => by simp at hsplit⟩, fun _ ho => by cases ho⟩ hf
        (by
          intro p a s1 s2 _ hP hstep
          obtain ⟨hI2, hm2, hC2⟩ := recurse_tape h ins hleaf fuel a s1 s2 hstep hP.1
          refine ⟨hI2, fun o ho => ?_⟩
          rcases List.mem_append.mp ho with h1 | h1
          · exact hC2 o (hP.2 o h1)
          · rw [List.mem_singleton] at h1
            rw [h1]; exact hm2)
      simp only [List.nil_append] at key
      rw [← hdfs.1]
      refine ⟨tape_inv_valid h s key.1, fun o ho => Or.inr ?_⟩
      have := key.2 o ho
      rw [key.1.1] at this
      exact mem_tape_family h _ o this

theorem dfs_tape_is_topological_witness :
    TapeValid (traced f_mirror) [] [1, 2, 3, 4] ∧
    OutputsKept (traced f_mirror) [] [3, 4] [1, 2, 3, 4] :=
  (dfs_tape_is_topological (traced f_mirror) [1] [3, 4] traced_mirror_ordered.acyclic
    (by decide)).2 6 [1, 2, 3, 4] _ rfl

/-! ## The scalar key and the lists of a `Compiled` node -/

/-- C21: the switch in `get_scalar_rep` has no case for two-byte elements, so
every float16 scalar gets the key `(0, 9)`.  In `f(x) = (x + 1.0h) + 2.0h` the
two constants, arrays 2 and 4, hold the bit patterns 0x3C00 and 0x4000 and get
the same key; pass 0 drops array 4 from the tape and points the second addition
at array 2. -/
theorem scalar_key_ignores_two_byte_patterns :
    is_scalar (traced f_half) 2 = true ∧ is_scalar (traced f_half) 4 = true ∧
    (traced f_half).dtype 2 = (traced f_half).dtype 4 ∧
    raw_bits (traced f_half) 2 = 0x3C00 ∧ raw_bits (traced f_half) 4 = 0x4000 ∧
    get_scalar_rep (traced f_half) 2 = get_scalar_rep (traced f_half) 4 ∧
    ∃ tape pm, compile_dfs 7 (traced f_half) [1] [5] = some (tape, pm) ∧
      (traced f_half).inputs 5 = [3, 4] ∧
      (fuse_scalars { heap := traced f_half, parents_map := pm, tape := tape }).tape
        = [1, 2, 3, 5] ∧
      (fuse_scalars { heap := traced f_half, parents_map := pm, tape := tape }).heap.inputs 5
        = [3, 2] :=
  ⟨by decide, by decide, by decide, by decide, by decide, by decide, _, _, rfl, by decide,
    by decide, by decide⟩

theorem get_scalar_rep_eq_iff (h : Heap) (a b : ArrId)
    (hsize : (h.dtype a).size = (h.dtype b).size)
    (hcase : (h.dtype a).size = 1 ∨ (h.dtype a).size = 4 ∨ (h.dtype a).size = 8) :
    get_scalar_rep h a = get_scalar_rep h b ↔
      (h.dtype a).val = (h.dtype b).val ∧ raw_bits h a = raw_bits h b := by
  unfold get_scalar_rep raw_bits
  rw [← hsize]
  rcases hcase with h1 | h1 | h1 <;> rw [h1] <;> simp [Prod.ext_iff, and_comm]

theorem extend_region_inputs_subset (h : Heap) (tape : List ArrId) (pm : ParentsMap) :
    ∀ (n : Nat) (r : Region) (s : Int) (r2 : Region),
      extend_region h tape pm n r = .ok (s, r2) →
      (∀ a ∈ r.fused_inputs, a ∈ r.fused_outputs) →
      ∀ a ∈ r2.fused_inputs, a ∈ r2.fused_outputs := by
  intro n
  induction n with
  | zero =>
    intro r s r2 he hr
    simp only [extend_region, Except.ok.injEq, Prod.mk.injEq] at he
    rw [← he.2]; exact hr
  | succ n ih =>
    intro r s r2 he hr
    simp only [extend_region] at he
    split at he
    · exact ih _ s r2 he hr
    · split at he
      · simp only [Except.ok.injEq, Prod.mk.injEq] at he
        rw [← he.2]; exact hr
      · split at he
        · refine ih _ s r2 he ?_
          intro a ha
          exact List.mem_append_left _ (hr a ha)
        · split at he
          · cases he
          · split at he
            · refine ih _ s r2 he ?_
              intro a ha
              rcases List.mem_append.mp ha with h1 | h1
              · exact List.mem_append_left _ (hr a h1)
              · exact List.mem_append_right _ h1
            · simp only [Except.ok.injEq, Prod.mk.injEq] at he
              rw [← he.2]; exact hr

/-- C23: an array with recorded parents that passes the test on its parents is
pushed to `fused_outputs` and to `fused_inputs` alike.  On the chain of three
`exp` over an `arange`, array 2 has the one parent 3.  The `Compiled` node 4
has array 3 in its region and lists array 2 as fused input and as fused output;
the `Compiled` node 7 has no parent of array 2 in its region and lists array 2
as fused input too. -/
theorem reduce_lists_array_as_input_and_output :
    ∃ tape pm s, compile_dfs 5 (chain_heap 3) [] [3] = some (tape, pm) ∧
      compile_reduce { heap := chain_heap 3, parents_map := pm, tape := tape } [3] = .ok s ∧
      pm_find pm 2 = some [(3, 0)] ∧ not_fusable s.heap 2 = false ∧
      4 ∈ s.tape ∧ is_compiled s.heap 4 = true ∧ 2 ∈ sub_tape s.heap 4 ∧
      3 ∈ sub_tape s.heap 4 ∧
      2 ∈ fused_inputs_of s.heap 4 ∧ 2 ∈ fused_outputs_of s.heap 4 ∧
      7 ∈ s.tape ∧ is_compiled s.heap 7 = true ∧ 2 ∈ sub_tape s.heap 7 ∧
      3 ∉ sub_tape s.heap 7 ∧
      2 ∈ fused_inputs_of s.heap 7 ∧ 2 ∈ fused_outputs_of s.heap 7 :=
  ⟨_, _, _, rfl, rfl, by decide, by decide, by decide, by decide, by decide, by decide,
    by decide, by decide, by decide, by decide, by decide, by decide, by decide, by decide⟩

/-! ## The parents map of `compile_dfs` -/

theorem compile_dfs_returns (h : Heap) (ins outs : List ArrId) (hac : Acyclic h) :
    ∃ fuel r, compile_dfs fuel h ins outs = some r := by
  obtain ⟨r, hr⟩ := hac
  refine ⟨(outs.map r).foldr max 0 + 1, ?_⟩
  unfold compile_dfs
  obtain ⟨s, hs⟩ := foldlM_some
    (fun s a => recurse h ins ((outs.map r).foldr max 0 + 1) a s) outs
    { tape := [], parents_map := [], cache := [] }
    (fun s a ha => recurse_terminates_ranked h ins r hr _ a s
      (Nat.lt_succ_of_le (rank_le_foldr_max r outs a ha)))
  exact ⟨(s.tape, s.parents_map), by simp [hs]⟩

/-- C22: for an acyclic graph in which the outputs of one primitive have the
same inputs, `compile_dfs` returns with enough fuel, and whenever it returns,
for every array `x`, every slot `i` and every array `p` that is a tape array or
a sibling of one, the pair `(p, i)` is recorded under `x` exactly when the input
of `p` at slot `i` is `x`. -/
theorem dfs_parents_map_is_consistent (h : Heap) (ins outs : List ArrId) (hac : Acyclic h)
    (hsib : SiblingsShareInputs h) :
    (∃ fuel r, compile_dfs fuel h ins outs = some r) ∧
    ∀ fuel tape pm, compile_dfs fuel h ins outs = some (tape, pm) →
      ∀ x i p, p ∈ tape_family h tape →
        (Recorded pm x (p, i) ↔ (h.inputs p)[i]? = some x) := by
  refine ⟨compile_dfs_returns h ins outs hac, ?_⟩
  intro fuel tape pm hdfs x i p hp
  obtain ⟨hsound, hcomplete, _⟩ := compile_dfs_parents fuel h ins outs tape pm hsib hdfs
  constructor
  · rintro ⟨l, hl, hmem⟩
    exact hsound x l hl (p, i) hmem
  · intro hslot
    exact hcomplete p hp i x hslot

theorem split_heap_ordered : Ordered split_heap := by
  have key : ∀ p : Nat, ∀ x ∈ split_heap.inputs p, x < p := by
    intro p
    rcases Nat.lt_or_ge p 5 with h5 | h5
    · interval_cases p <;> decide
    · have h0 : p ≠ 0 := by omega
      have h1 : p ≠ 1 := by omega
      have h4 : p ≠ 4 := by omega
      have h3 : ¬ (2 ≤ p ∧ p < 4) := by omega
      have he : split_heap.inputs p = [] := by
        simp [split_heap, unary, Heap.new_array, Heap.make_arrays, make_tracers,
          Heap.set_tracer, world0, constant, Heap.empty, Heap.inputs, Function.update,
          h0, h1, h4, h3, ArrayDesc.blank]
      rw [he]
      intro x hx
      cases hx
  exact key

theorem dfs_parents_map_is_consistent_witness :
    ∃ pm, compile_dfs 6 split_heap [1] [4] = some ([1, 3, 4], pm) ∧
      tape_family split_heap [1, 3, 4] = [1, 3, 2, 4] ∧
      ∀ x i p, p ∈ tape_family split_heap [1, 3, 4] →
        (Recorded pm x (p, i) ↔ (split_heap.inputs p)[i]? = some x) :=
  ⟨_, rfl, by decide, (dfs_parents_map_is_consistent split_heap [1] [4]
    split_heap_ordered.acyclic (fun a s hs => ((split_heap_wf a).2.2 s hs).2.1)).2
      6 [1, 3, 4] _ rfl⟩

end Mlx
